import Mathlib

/-!
Verification of the `ComponentManager` WYSIWYG component-tracking engine
(`src/env.d.ts`, lines 153-707 of the repository).

The engine is browser code operating on a live DOM.  We embed it shallowly:

* the document is a forest of element trees in first-child / next-sibling
  form (mirroring the DOM's `firstChild` / `nextSibling` pointers); every
  element carries a numeric node identity `nid` standing for JavaScript
  object identity;
* the top-level chain of the forest holds the editor root together with all
  detached nodes (a node removed by `ChildNode.remove()` keeps existing as a
  parentless JavaScript object, which we keep as a top-level root);
* inline styles are modelled longhand (`style.margin = '...'` expands the
  shorthand into the four longhands, as CSSOM does);
* `Date.now()` / `Math.random()` draws are modelled by an explicit entropy
  stream in the state, consumed one draw per `generateId()` call;
* the `MutationObserver` reconciliation is modelled as the effect the
  observer callback has for a single observed structural change.
-/

namespace CM

/-- Inline style record.  Only the properties the engine reads or writes are
modelled; absent properties are the empty string, exactly the value the CSSOM
reports for a property that is not set. -/
structure Style where
  float : String := ""
  display : String := ""
  width : String := ""
  maxWidth : String := ""
  height : String := ""
  cursor : String := ""
  gridTemplateColumns : String := ""
  marginTop : String := ""
  marginRight : String := ""
  marginBottom : String := ""
  marginLeft : String := ""
deriving DecidableEq

/-- `v.splitOn " "` for the single-character separator, written over the
character list so that it reduces in the kernel. -/
def splitSp (cs : List Char) (acc : List Char) : List String :=
  match cs with
  | [] => [String.mk acc.reverse]
  | c :: rest =>
    if c = ' ' then String.mk acc.reverse :: splitSp rest []
    else splitSp rest (c :: acc)

/-- CSSOM expansion of the `margin` shorthand into the four longhands
(`style.margin = v`).  The engine only ever writes one- and two-token values
(`'1rem 0'`, `'1rem auto'`), but all arities are expanded faithfully. -/
def Style.setMargin (st : Style) (v : String) : Style :=
  match splitSp v.data [] with
  | [a] => { st with marginTop := a, marginRight := a, marginBottom := a, marginLeft := a }
  | [a, b] => { st with marginTop := a, marginRight := b, marginBottom := a, marginLeft := b }
  | [a, b, c] => { st with marginTop := a, marginRight := b, marginBottom := c, marginLeft := b }
  | a :: b :: c :: d :: _ =>
      { st with marginTop := a, marginRight := b, marginBottom := c, marginLeft := d }
  | [] => { st with marginTop := "", marginRight := "", marginBottom := "", marginLeft := "" }

/-- Element attributes and DOM-reflected state: tag name (lowercase),
`classList` tokens, the `data-component-id` marker attribute, the reflected
`src` / `alt` attributes, own text content, and the inline style. -/
structure Attrs where
  tag : String
  classes : List String := []
  componentId : Option String := none
  src : String := ""
  alt : String := ""
  text : String := ""
  style : Style := {}
deriving DecidableEq

/-- DOM forest in first-child / next-sibling form.  `node nid attrs child sib`
is an element whose first child chain is `child` and whose following-sibling
chain is `sib`.  A chain is a node list; `nil` ends a chain. -/
inductive Dom where
  | nil : Dom
  | node (nid : Nat) (attrs : Attrs) (child : Dom) (sib : Dom) : Dom
deriving DecidableEq

namespace Dom

/-- All node identities in a chain (preorder / document order). -/
def nids : Dom → List Nat
  | .nil => []
  | .node n _ c s => n :: (c.nids ++ s.nids)

/-- Does the chain contain a node with identity `t`? -/
def hasNid (d : Dom) (t : Nat) : Bool := d.nids.contains t

/-- Find the node with identity `t`; returns its attributes and its first
child chain. -/
def findN : Dom → Nat → Option (Attrs × Dom)
  | .nil, _ => none
  | .node n a c s, t =>
    if n = t then some (a, c) else
      match c.findN t with
      | some r => some r
      | none => s.findN t

/-- Rewrite the attributes of the node with identity `t` (e.g. a `classList`,
`style` or attribute assignment on that element). -/
def patchAt (t : Nat) (f : Attrs → Attrs) : Dom → Dom
  | .nil => .nil
  | .node n a c s =>
      .node n (if n = t then f a else a) (c.patchAt t f) (s.patchAt t f)

/-- `element.textContent = v` on the node with identity `t`: replaces all
children with the text `v`. -/
def setTextAt (t : Nat) (v : String) : Dom → Dom
  | .nil => .nil
  | .node n a c s =>
      if n = t then .node n { a with text := v } .nil (s.setTextAt t v)
      else .node n a (c.setTextAt t v) (s.setTextAt t v)

/-- Concatenate two chains (also used to link a node in front of a sibling
chain). -/
def cat : Dom → Dom → Dom
  | .nil, r => r
  | .node n a c s, r => .node n a c (s.cat r)

/-- Cut the node with identity `t` out of a chain; returns the chain without
it together with the removed node (children kept, sibling pointer cleared).
Used for removals below the top level, where the node has a parent. -/
def splice : Dom → Nat → Dom × Option Dom
  | .nil, _ => (.nil, none)
  | .node n a c s, t =>
    if n = t then (s, some (.node n a c .nil))
    else
      match c.splice t with
      | (c', some r) => (.node n a c' s, some r)
      | (c', none) =>
        let (s', r) := s.splice t
        (.node n a c' s', r)

/-- First descendant with tag `tg` in a chain, in document order
(`querySelector` applied to a child chain, so the element itself is not
considered). -/
def qTag : Dom → String → Option Nat
  | .nil, _ => none
  | .node n a c s, tg =>
    if a.tag = tg then some n
    else
      match c.qTag tg with
      | some r => some r
      | none => s.qTag tg

/-- All nodes with tag `tg` in a chain, in document order
(`querySelectorAll`). -/
def qTagAll : Dom → String → List (Nat × Attrs)
  | .nil, _ => []
  | .node n a c s, tg =>
      (if a.tag = tg then [(n, a)] else []) ++ c.qTagAll tg ++ s.qTagAll tg

/-- All node identities in a chain whose attributes satisfy `p`, in document
order (`querySelectorAll` with a class-based selector). -/
def qSelAll (p : Attrs → Bool) : Dom → List Nat
  | .nil => []
  | .node n a c s =>
      (if p a then [n] else []) ++ qSelAll p c ++ qSelAll p s

/-- First node in a chain satisfying a predicate over its attributes and its
child chain (used for `querySelector('p, div:not(:has(img))')`). -/
def qFirstP (p : Attrs → Dom → Bool) : Dom → Option (Nat × Attrs × Dom)
  | .nil => none
  | .node n a c s =>
    if p a c then some (n, a, c)
    else
      match qFirstP p c with
      | some r => some r
      | none => qFirstP p s

/-- `Element.closest`: does the node `t`, or one of its ancestors within the
chain, satisfy `p`? -/
def closestP : Dom → Nat → (Attrs → Bool) → Bool
  | .nil, _, _ => false
  | .node n a c s, t, p =>
    if n = t then p a
    else if c.hasNid t then (p a || c.closestP t p)
    else s.closestP t p

/-- Concatenation of the text content of a whole chain. -/
def texts : Dom → String
  | .nil => ""
  | .node _ a c s => a.text ++ c.texts ++ s.texts

/-- Insert the chain `m` at child position `off` of a chain (clamping to the
end, as DOM range offsets beyond the last child append). -/
def insertChainAt : Dom → Nat → Dom → Dom
  | chain, 0, m => m.cat chain
  | .nil, _ + 1, m => m
  | .node n a c s, off + 1, m => .node n a c (s.insertChainAt off m)

/-- Insert the node `m` as child number `off` of the node with identity `p`
(`Range.insertNode` on a collapsed range `(container, offset)`). -/
def insertChildAt : Dom → Nat → Nat → Dom → Dom
  | .nil, _, _, _ => .nil
  | .node n a c s, p, off, m =>
    if n = p then .node n a (c.insertChainAt off m) s
    else .node n a (c.insertChildAt p off m) (s.insertChildAt p off m)

/-- `parent.appendChild(m)`: append `m` at the end of the child chain of the
node with identity `p`. -/
def appendChildAt : Dom → Nat → Dom → Dom
  | .nil, _, _ => .nil
  | .node n a c s, p, m =>
    if n = p then .node n a (c.cat m) s
    else .node n a (c.appendChildAt p m) (s.appendChildAt p m)

/-- Insert node `m` as next sibling of node `t` anywhere inside a chain,
including directly after a chain head (`ChildNode.after` for a node that has
a parent).  Returns whether the target was found. -/
def insAfterChain : Dom → Nat → Dom → Dom × Bool
  | .nil, _, _ => (.nil, false)
  | .node n a c s, t, m =>
    if n = t then (.node n a c (m.cat s), true)
    else
      match c.insAfterChain t m with
      | (c', true) => (.node n a c' s, true)
      | (c', false) =>
        let (s', b) := s.insAfterChain t m
        (.node n a c' s', b)

/-- Deep clone with fresh node identities (`cloneNode(true)` yields new
JavaScript objects; all attributes, including marker attributes of
descendants, are copied).  `k` is the next fresh identity. -/
def cloneFresh : Dom → Nat → Dom × Nat
  | .nil, k => (.nil, k)
  | .node _ a c s, k =>
    let (c', k1) := c.cloneFresh (k + 1)
    let (s', k2) := s.cloneFresh k1
    (.node k a c' s', k2)

/-- The identity of the next sibling of node `t` (`some none` when `t` is a
last child, `none` when `t` is absent from the chain). -/
def nextSibNid : Dom → Nat → Option (Option Nat)
  | .nil, _ => none
  | .node n _ c s, t =>
    if n = t then
      some (match s with
            | .node m _ _ _ => some m
            | .nil => none)
    else
      match c.nextSibNid t with
      | some r => some r
      | none => s.nextSibNid t

end Dom

/-- `ChildNode.remove()` at document level: a top-level node of the forest is
parentless, so removing it is a no-op; a nested node is cut out and kept as a
detached top-level root (the JavaScript object persists). -/
def docRemoveAux : Dom → Nat → Dom × Option Dom
  | .nil, _ => (.nil, none)
  | .node n a c s, t =>
    if n = t then (.node n a c s, none)
    else
      match c.splice t with
      | (c', some r) => (.node n a c' s, some r)
      | (c', none) =>
        let (s', r) := docRemoveAux s t
        (.node n a c' s', r)

/-- `ChildNode.remove()` on node `t`: no-op for parentless nodes, otherwise
the subtree is detached and kept as a top-level root. -/
def docRemove (d : Dom) (t : Nat) : Dom :=
  match docRemoveAux d t with
  | (d', some r) => d'.cat r
  | (d', none) => d'

/-- `target.after(m)` at document level: inserts `m` as next sibling of `t`
when `t` has a parent; when `t` is parentless (or absent) the call is a no-op
and `m` stays a floating object, which we keep as a detached top-level root.
Returns `true` iff the sibling insertion happened. -/
def docInsAfterAux : Dom → Nat → Dom → Dom × Bool
  | .nil, _, _ => (.nil, false)
  | .node n a c s, t, m =>
    if n = t then (.node n a c s, false)
    else
      match c.insAfterChain t m with
      | (c', true) => (.node n a c' s, true)
      | (c', false) =>
        let (s', b) := docInsAfterAux s t m
        (.node n a c' s', b)

/-- `target.after(m)` with floating fallback (see `docInsAfterAux`). -/
def docInsAfter (d : Dom) (t : Nat) (m : Dom) : Dom :=
  match docInsAfterAux d t m with
  | (d', true) => d'
  | (d', false) => d'.cat m

/-- Void elements serialize without a closing tag. -/
def voidTag (tg : String) : Bool := tg = "img" || tg = "br"

/-- Serialization of the inline style attribute (declarations in a fixed
property order, set properties only). -/
def styleString (st : Style) : String :=
  let item := fun (k v : String) => if v = "" then "" else k ++ ": " ++ v ++ "; "
  item "float" st.float ++ item "display" st.display ++ item "width" st.width ++
  item "max-width" st.maxWidth ++ item "height" st.height ++ item "cursor" st.cursor ++
  item "grid-template-columns" st.gridTemplateColumns ++
  item "margin-top" st.marginTop ++ item "margin-right" st.marginRight ++
  item "margin-bottom" st.marginBottom ++ item "margin-left" st.marginLeft

/-- Serialization of an element's attributes. -/
def attrString (a : Attrs) : String :=
  (if a.classes = [] then "" else " class=\x22" ++ String.intercalate " " a.classes ++ "\x22") ++
  (match a.componentId with
   | some i => " data-component-id=\x22" ++ i ++ "\x22"
   | none => "") ++
  (if a.src = "" then "" else " src=\x22" ++ a.src ++ "\x22") ++
  (if a.alt = "" then "" else " alt=\x22" ++ a.alt ++ "\x22") ++
  (if styleString a.style = "" then "" else " style=\x22" ++ styleString a.style ++ "\x22")

/-- Markup serialization of a chain (`innerHTML` is this applied to a child
chain). -/
def Dom.serialize : Dom → String
  | .nil => ""
  | .node _ a c s =>
      (if voidTag a.tag then "<" ++ a.tag ++ attrString a ++ ">"
       else "<" ++ a.tag ++ attrString a ++ ">" ++ a.text ++ c.serialize ++
            "</" ++ a.tag ++ ">") ++ s.serialize

/-- `element.innerHTML` of the node with identity `e`. -/
def innerHTMLOf (d : Dom) (e : Nat) : String :=
  match d.findN e with
  | some (a, c) => a.text ++ c.serialize
  | none => ""

/-! ### Component records and the registry -/

/-- `ComponentData['type']`. -/
inductive CType where
  | image | layout | gallery | figure | quote | comparison | hero
deriving DecidableEq

/-- `ImageProps['layout']`. -/
inductive ILayout where
  | inline | floatLeft | floatRight | center | figure
deriving DecidableEq

/-- The string value of a layout (as stored in `props` and used as a class
name). -/
def ILayout.str : ILayout → String
  | .inline => "inline"
  | .floatLeft => "float-left"
  | .floatRight => "float-right"
  | .center => "center"
  | .figure => "figure"

/-- A property value in the open `Record<string, any>` bag: the engine stores
strings, the gallery column count, `{src, alt}` lists, and `undefined`
(assigning `images[0]?.src` for a missing image stores `undefined`). -/
inductive PVal where
  | s (v : String)
  | n (v : Nat)
  | undef
  | imgs (v : List (String × String))
deriving DecidableEq

/-- JavaScript truthiness of a property value (`''`, `0` and `undefined` are
falsy; arrays are truthy). -/
def PVal.truthy : PVal → Bool
  | .s v => v ≠ ""
  | .n v => v ≠ 0
  | .undef => false
  | .imgs _ => true

/-- String coercion for a property value written into a DOM string slot.  In
every reachable write the value is already a string. -/
def PVal.asString : PVal → String
  | .s v => v
  | .n v => toString v
  | .undef => "undefined"
  | .imgs _ => ""

/-- A property bag, keys in insertion order (JavaScript object semantics). -/
abbrev Props := List (String × PVal)

/-- `bag[k]` on a property bag. -/
def propGet (p : Props) (k : String) : Option PVal :=
  (p.find? (fun kv => kv.1 = k)).map (·.2)

/-- `{...base, ...upd}`: keys of `base` keep their position with updated
values; keys only in `upd` are appended in their order. -/
def mergeProps (base upd : Props) : Props :=
  base.map (fun kv =>
    match propGet upd kv.1 with
    | some v => (kv.1, v)
    | none => kv) ++
  upd.filter (fun kv => propGet base kv.1 = none)

/-- One tracked component (`ComponentData`). -/
structure ComponentData where
  id : String
  ctype : CType
  props : Props
  element : Option Nat
deriving DecidableEq

/-- The registry, a JavaScript `Map` in insertion order. -/
abbrev Registry := List (String × ComponentData)

/-- `Map.get`. -/
def mapGet (m : Registry) (k : String) : Option ComponentData :=
  (m.find? (fun kv => kv.1 = k)).map (·.2)

/-- `Map.set`: updates in place (keeping the position) when the key exists,
otherwise appends. -/
def mapSet (m : Registry) (k : String) (v : ComponentData) : Registry :=
  if m.any (fun kv => kv.1 = k) then
    m.map (fun kv => if kv.1 = k then (k, v) else kv)
  else m ++ [(k, v)]

/-- `Map.delete`. -/
def mapDel (m : Registry) (k : String) : Registry :=
  m.filter (fun kv => kv.1 ≠ k)

/-! ### Manager state -/

/-- The whole `ComponentManager` instance state, together with the modelled
environment: the document forest, the entropy stream feeding `generateId`,
the fresh node-identity counter, the current selection, and the log of
listener invocations. -/
structure MState where
  components : Registry
  editor : Option Nat
  contentInput : Option String
  listeners : List Nat
  notifications : List (Nat × String × ComponentData)
  entropy : Nat → Nat × String
  draws : Nat
  nextNid : Nat
  selection : Option (Nat × Nat)
  doc : Dom

/-- `generateId()`: `` `cmp-${Date.now()}-${Math.random().toString(36).substr(2, 9)}` ``.
`t` is the `Date.now()` value and `r` the random base-36 suffix. -/
def generateId (t : Nat) (r : String) : String :=
  "cmp-" ++ toString t ++ "-" ++ r

/-- The id the next `generateId()` call returns. -/
def MState.freshId (s : MState) : String :=
  generateId (s.entropy s.draws).1 (s.entropy s.draws).2

/-- Consume one entropy draw. -/
def MState.afterDraw (s : MState) : MState := { s with draws := s.draws + 1 }

/-- `classList.contains`. -/
def hasClass (a : Attrs) (c : String) : Bool := a.classes.contains c

/-- `classList.add` (no duplicate tokens). -/
def addClass (a : Attrs) (c : String) : Attrs :=
  if a.classes.contains c then a else { a with classes := a.classes ++ [c] }

/-- `classList.remove(...cs)`. -/
def removeClasses (a : Attrs) (cs : List String) : Attrs :=
  { a with classes := a.classes.filter (fun x => !cs.contains x) }

/-- `detectComponentType`, the fixed precedence order over classes with the
`FIGURE` tag fallback. -/
def detectComponentType (a : Attrs) : CType :=
  if hasClass a "blog-layout" then .layout
  else if hasClass a "blog-gallery" then .gallery
  else if hasClass a "blog-hero" then .hero
  else if hasClass a "blog-quote" then .quote
  else if hasClass a "blog-comparison" then .comparison
  else if hasClass a "blog-figure" || a.tag = "figure" then .figure
  else .image

/-- `detectImageLayout`: classes first, then `closest('figure')`. -/
def detectImageLayout (d : Dom) (t : Nat) (a : Attrs) : ILayout :=
  if hasClass a "float-left" then .floatLeft
  else if hasClass a "float-right" then .floatRight
  else if hasClass a "center" then .center
  else if d.closestP t (fun x => x.tag = "figure") then .figure
  else .inline

/-- `textContent` of the node with identity `i` of the chain `c`. -/
def textContentAt (c : Dom) (i : Nat) : String :=
  match c.findN i with
  | some (x, cc) => x.text ++ cc.texts
  | none => ""

/-- Attributes of the node with identity `i` of the chain `c`. -/
def attrsAt (c : Dom) (i : Nat) : Option Attrs :=
  (c.findN i).map (·.1)

/-- `extractProps(element, type)`: `a` is the element's attributes and `c` its
child chain. -/
def extractProps (a : Attrs) (c : Dom) (ty : CType) : Props :=
  match ty with
  | .image =>
    let img : Option Attrs :=
      if a.tag = "img" then some a
      else (c.qTag "img").bind (attrsAt c)
    match img with
    | some ia => [("src", .s ia.src), ("alt", .s ia.alt), ("width", .s ia.style.width)]
    | none => []
  | .layout =>
    let lt : String :=
      if hasClass a "image-left" then "image-left"
      else if hasClass a "image-right" then "image-right"
      else if hasClass a "split-50-50" then "split-50-50"
      else "custom"
    let text : String :=
      match c.qFirstP (fun x cc => x.tag = "p" || (x.tag = "div" && (cc.qTag "img").isNone)) with
      | some (_, x, cc) => x.text ++ cc.serialize
      | none => ""
    [("layoutType", .s lt),
     ("images", .imgs ((c.qTagAll "img").map (fun p => (p.2.src, p.2.alt)))),
     ("text", .s text)]
  | .gallery =>
    [("columns", .n (if a.style.gridTemplateColumns.contains '3' then 3 else 2)),
     ("images", .imgs ((c.qTagAll "img").map (fun p => (p.2.src, p.2.alt))))]
  | .figure =>
    let img := (c.qTag "img").bind (attrsAt c)
    let cap := c.qTag "figcaption"
    (match img with
     | some ia => [("src", .s ia.src), ("alt", .s ia.alt)]
     | none => []) ++
    (match cap with
     | some i => [("caption", .s (textContentAt c i))]
     | none => [])
  | .quote =>
    let img := (c.qTag "img").bind (attrsAt c)
    let bq := c.qTag "blockquote"
    let ci := c.qTag "cite"
    (match img with
     | some ia => [("avatarSrc", .s ia.src)]
     | none => []) ++
    (match bq with
     | some i => [("quote", .s (textContentAt c i))]
     | none => []) ++
    (match ci with
     | some i => [("author", .s (textContentAt c i))]
     | none => [])
  | .comparison =>
    let images := c.qTagAll "img"
    let caps := (c.qTagAll "figcaption").map (fun p => textContentAt c p.1)
    [("beforeImage", match images.get? 0 with
        | some p => .s p.2.src
        | none => .undef),
     ("afterImage", match images.get? 1 with
        | some p => .s p.2.src
        | none => .undef),
     ("beforeLabel", .s (match caps.get? 0 with
        | some v => if v = "" then "Before" else v
        | none => "Before")),
     ("afterLabel", .s (match caps.get? 1 with
        | some v => if v = "" then "After" else v
        | none => "After"))]
  | .hero => []

/-! ### Engine operations -/

/-- `syncContent()`: full copy of `editor.innerHTML` into the bound input's
value; no-op unless both the editor and the input are bound. -/
def syncContent (s : MState) : MState :=
  match s.editor, s.contentInput with
  | some e, some _ => { s with contentInput := some (innerHTMLOf s.doc e) }
  | _, _ => s

/-- `notifyListeners(id, data)`: invoke every registered listener, in
registration order; each invocation is logged. -/
def notify (s : MState) (id : String) (d : ComponentData) : MState :=
  { s with notifications := s.notifications ++ s.listeners.map (fun l => (l, id, d)) }

/-- `onChange(listener)`: `Set.add`. -/
def addListener (s : MState) (l : Nat) : MState :=
  { s with listeners := if s.listeners.contains l then s.listeners else s.listeners ++ [l] }

/-- The unsubscribe closure returned by `onChange`: `Set.delete`. -/
def removeListener (s : MState) (l : Nat) : MState :=
  { s with listeners := s.listeners.filter (fun x => x ≠ l) }

/-- `registerElement(element)` for the element with node identity `t`: draw a
fresh id, stamp the marker attribute, classify, extract properties, store the
record.  (In JavaScript the argument is a live element, so the node is always
found; the not-found branch is unreachable for states whose records and call
sites reference nodes of the forest.) -/
def registerElementAt (s : MState) (t : Nat) : String × MState :=
  let id := s.freshId
  let s1 := s.afterDraw
  let doc1 := s1.doc.patchAt t (fun a => { a with componentId := some id })
  let rec? : ComponentData :=
    match doc1.findN t with
    | some (a, c) =>
      let ty := detectComponentType a
      { id := id, ctype := ty, props := extractProps a c ty, element := some t }
    | none => { id := id, ctype := .image, props := [], element := some t }
  (id, { s1 with doc := doc1, components := mapSet s1.components id rec? })

/-- `registerImage(img)` for the image with node identity `t`. -/
def registerImageAt (s : MState) (t : Nat) : String × MState :=
  let id := s.freshId
  let s1 := s.afterDraw
  let doc1 := s1.doc.patchAt t (fun a => { a with componentId := some id })
  let rec? : ComponentData :=
    match doc1.findN t with
    | some (a, _) =>
      { id := id, ctype := .image,
        props := [("src", .s a.src), ("alt", .s a.alt),
                  ("width", .s (if a.style.width = "" then "100%" else a.style.width)),
                  ("layout", .s (detectImageLayout doc1 t a).str)],
        element := some t }
    | none => { id := id, ctype := .image, props := [], element := some t }
  (id, { s1 with doc := doc1, components := mapSet s1.components id rec? })

/-- `getComponent(id)`. -/
def getComponent (s : MState) (id : String) : Option ComponentData :=
  mapGet s.components id

/-- `getAllComponents()` (insertion order). -/
def getAllComponents (s : MState) : List ComponentData :=
  s.components.map (·.2)

/-- `getComponentsByType(type)`. -/
def getComponentsByType (s : MState) (ty : CType) : List ComponentData :=
  (getAllComponents s).filter (fun c => c.ctype = ty)

/-- Write the `src` IDL attribute on node `i`: reflected to the document only
on an `img` element (on any other element the assignment creates a plain
JavaScript expando property that no markup or later read observes). -/
def setSrcAt (d : Dom) (i : Nat) (v : String) : Dom :=
  d.patchAt i (fun a => if a.tag = "img" then { a with src := v } else a)

/-- Write the `alt` IDL attribute on node `i` (see `setSrcAt`). -/
def setAltAt (d : Dom) (i : Nat) (v : String) : Dom :=
  d.patchAt i (fun a => if a.tag = "img" then { a with alt := v } else a)

/-- One guarded write of `applyUpdatesToDOM`: `if (img && props.src) img.src = v`
— runs only when the queried target exists and the value is truthy. -/
def guardSrc (d : Dom) (o : Option Nat) (w : Option PVal) : Dom :=
  match o, w with
  | some i, some v => if v.truthy then setSrcAt d i v.asString else d
  | _, _ => d

/-- The guarded `alt` write (see `guardSrc`). -/
def guardAlt (d : Dom) (o : Option Nat) (w : Option PVal) : Dom :=
  match o, w with
  | some i, some v => if v.truthy then setAltAt d i v.asString else d
  | _, _ => d

/-- A guarded `textContent` write gated on truthiness (`quote`/`author`). -/
def guardText (d : Dom) (o : Option Nat) (w : Option PVal) : Dom :=
  match o, w with
  | some i, some v => if v.truthy then d.setTextAt i v.asString else d
  | _, _ => d

/-- The `caption` write, gated on `!== undefined` rather than truthiness. -/
def guardCaption (d : Dom) (o : Option Nat) (w : Option PVal) : Dom :=
  match o, w with
  | some i, some v => if v ≠ .undef then d.setTextAt i v.asString else d
  | _, _ => d

/-- `applyUpdatesToDOM(component)`: only `figure` and `quote` have explicit
patch logic; the writes are guarded by truthiness (`caption` by an
`!== undefined` check).  All `querySelector` calls happen before any write. -/
def applyUpdatesToDOM (d : Dom) (comp : ComponentData) : Dom :=
  match comp.element with
  | none => d
  | some t =>
    match comp.ctype with
    | .figure =>
      let img := (d.findN t).bind (fun p => p.2.qTag "img")
      let cap := (d.findN t).bind (fun p => p.2.qTag "figcaption")
      guardCaption
        (guardAlt (guardSrc d img (propGet comp.props "src"))
          img (propGet comp.props "alt"))
        cap (propGet comp.props "caption")
    | .quote =>
      let img := (d.findN t).bind (fun p => p.2.qTag "img")
      let bq := (d.findN t).bind (fun p => p.2.qTag "blockquote")
      let ci := (d.findN t).bind (fun p => p.2.qTag "cite")
      guardText
        (guardText (guardSrc d img (propGet comp.props "avatarSrc"))
          bq (propGet comp.props "quote"))
        ci (propGet comp.props "author")
    | _ => d

/-- `updateComponent(id, updates)`: merge, patch the DOM, sync, notify. -/
def updateComponent (s : MState) (id : String) (updates : Props) : Bool × MState :=
  match mapGet s.components id with
  | none => (false, s)
  | some comp =>
    match comp.element with
    | none => (false, s)
    | some _ =>
      let comp' := { comp with props := mergeProps comp.props updates }
      let s1 := { s with components := mapSet s.components id comp',
                         doc := applyUpdatesToDOM s.doc comp' }
      let s2 := syncContent s1
      (true, notify s2 id comp')

/-- A `Partial<ImageProps>` argument. -/
structure ImgUpd where
  src : Option String := none
  alt : Option String := none
  width : Option String := none
  layout : Option ILayout := none
  caption : Option String := none
deriving DecidableEq

/-- The present keys of a `Partial<ImageProps>` as a property bag (for the
`{...component.props, ...props}` merge). -/
def ImgUpd.toProps (u : ImgUpd) : Props :=
  (match u.src with | some v => [("src", PVal.s v)] | none => []) ++
  (match u.alt with | some v => [("alt", PVal.s v)] | none => []) ++
  (match u.width with | some v => [("width", PVal.s v)] | none => []) ++
  (match u.layout with | some v => [("layout", PVal.s v.str)] | none => []) ++
  (match u.caption with | some v => [("caption", PVal.s v)] | none => [])

/-- The class tokens `updateImage` removes before applying a layout
(`classList.remove('float-left', 'float-right', 'center', 'inline')`). -/
def layoutClassNames : List String := ["float-left", "float-right", "center", "inline"]

/-- The layout branch of `updateImage`: remove the old layout classes, add
the new one (except for `inline` and `figure`), then set the branch's inline
styles.  Note what is and is not reset: `float` is written by every branch,
`display` only by the `center` and default branches, and the margins are
only overwritten, never cleared. -/
def applyLayout (a : Attrs) (l : ILayout) : Attrs :=
  let a1 := removeClasses a layoutClassNames
  let a2 := if l ≠ .inline ∧ l ≠ .figure then addClass a1 l.str else a1
  match l with
  | .floatLeft =>
      { a2 with style := { a2.style with float := "left", marginRight := "1rem",
                                         marginBottom := "0.5rem" } }
  | .floatRight =>
      { a2 with style := { a2.style with float := "right", marginLeft := "1rem",
                                         marginBottom := "0.5rem" } }
  | .center =>
      { a2 with style := ({ a2.style with float := "", display := "block" }).setMargin
                           "1rem auto" }
  | _ =>
      { a2 with style := { a2.style with float := "", display := "" } }

/-- The element `updateImage` patches: for a component of type `image` it is
`component.element` itself — which for wrapper-registered images is the
wrapper `div`, not the inner `img`; for other types it is the first `img`
descendant. -/
def imgTargetOf (d : Dom) (comp : ComponentData) : Option Nat :=
  match comp.ctype with
  | .image => comp.element
  | _ => comp.element.bind (fun t => (d.findN t).bind (fun p => p.2.qTag "img"))

/-- `updateImage(id, props)`. -/
def updateImage (s : MState) (id : String) (u : ImgUpd) : Bool × MState :=
  match mapGet s.components id with
  | none => (false, s)
  | some comp =>
    match imgTargetOf s.doc comp with
    | none => (false, s)
    | some i =>
      let d0 := s.doc
      let d1 := match u.src with
        | some v => setSrcAt d0 i v
        | none => d0
      let d2 := match u.alt with
        | some v => setAltAt d1 i v
        | none => d1
      let d3 := match u.width with
        | some v => d2.patchAt i (fun a => { a with style := { a.style with width := v } })
        | none => d2
      let d4 := match u.layout with
        | some l => d3.patchAt i (fun a => applyLayout a l)
        | none => d3
      let comp' := { comp with props := mergeProps comp.props u.toProps }
      let s1 := { s with doc := d4, components := mapSet s.components id comp' }
      let s2 := syncContent s1
      (true, notify s2 id comp')

/-- `removeComponent(id)`: remove the node from the document, delete the
record, sync.  (No listener notification in the source.) -/
def removeComponent (s : MState) (id : String) : Bool × MState :=
  match mapGet s.components id with
  | none => (false, s)
  | some comp =>
    match comp.element with
    | none => (false, s)
    | some t =>
      let s1 := { s with doc := docRemove s.doc t, components := mapDel s.components id }
      (true, syncContent s1)

/-- `insertImage(src, alt, options)`: build the wrapper and image, insert at
the collapsed selection if there is one (falling back to appending to the
editor), add the trailing empty paragraph, register, sync.  Returns `''` when
no editor is bound. -/
def insertImage (s : MState) (src alt : String) (options : ImgUpd) : String × MState :=
  match s.editor with
  | none => ("", s)
  | some ed =>
    let id := s.freshId
    let s1 := s.afterDraw
    let width := match options.width with
      | some w => if w = "" then "100%" else w
      | none => "100%"
    let layout := match options.layout with
      | some l => l
      | none => .inline
    let wNid := s1.nextNid
    let iNid := s1.nextNid + 1
    let pNid := s1.nextNid + 2
    let brNid := s1.nextNid + 3
    let imgAttrs : Attrs :=
      { tag := "img", src := src, alt := alt,
        classes := ["blog-image", "editable"] ++
                   (if layout ≠ ILayout.inline then [layout.str] else []),
        style := { maxWidth := "100%", width := width, height := "auto",
                   cursor := "pointer", display := "block" } }
    let wrapAttrs : Attrs :=
      { tag := "div", classes := ["blog-image-wrapper"], componentId := some id,
        style := Style.setMargin {} "1rem 0" }
    let wrapper : Dom := .node wNid wrapAttrs (.node iNid imgAttrs .nil .nil) .nil
    let (doc1, sel1) :=
      match s1.selection with
      | some (p, off) =>
        if s1.doc.hasNid p then (s1.doc.insertChildAt p off wrapper, some (p, off + 1))
        else (s1.doc.cat wrapper, s1.selection)
      | none => (s1.doc.appendChildAt ed wrapper, s1.selection)
    let para : Dom := .node pNid { tag := "p" } (.node brNid { tag := "br" } .nil .nil) .nil
    let doc2 := docInsAfter doc1 wNid para
    let rec? : ComponentData :=
      { id := id, ctype := .image,
        props := [("src", .s src), ("alt", .s alt), ("width", .s width),
                  ("layout", .s layout.str)],
        element := some wNid }
    let s2 := { s1 with doc := doc2, components := mapSet s1.components id rec?,
                        nextNid := s1.nextNid + 4, selection := sel1 }
    (id, syncContent s2)

/-- `duplicateComponent(id)`: deep-clone the source node (fresh object
identities, copied attributes including descendant markers), stamp a fresh
id on the clone's root, insert it immediately after the source, register it
with a copy of the property bag, sync. -/
def duplicateComponent (s : MState) (id : String) : Option String × MState :=
  match mapGet s.components id with
  | none => (none, s)
  | some comp =>
    match comp.element with
    | none => (none, s)
    | some t =>
      match s.doc.findN t with
      | none => (none, s)
      | some (a, c) =>
        let (clone0, n') := (Dom.node t a c .nil).cloneFresh s.nextNid
        let newId := s.freshId
        let s1 := s.afterDraw
        let clone := match clone0 with
          | .node k ca cc _ => Dom.node k { ca with componentId := some newId } cc .nil
          | .nil => Dom.nil
        let doc1 := docInsAfter s1.doc t clone
        let rec? : ComponentData :=
          { id := newId, ctype := comp.ctype, props := comp.props,
            element := some s.nextNid }
        let s2 := { s1 with doc := doc1, components := mapSet s1.components newId rec?,
                            nextNid := n' }
        (some newId, syncContent s2)

/-! ### Initialization, scanning, and the mutation watcher -/

/-- `isComponentElement(element)`. -/
def isComponentElement (a : Attrs) : Bool :=
  hasClass a "blog-layout" || hasClass a "blog-gallery" || hasClass a "blog-hero" ||
  hasClass a "blog-quote" || hasClass a "blog-comparison" || hasClass a "blog-figure" ||
  hasClass a "blog-image-wrapper" || a.tag = "figure"

/-- The selector list of `scanExistingComponents`, as attribute predicates. -/
def scanSelectors : List (Attrs → Bool) :=
  [ fun a => hasClass a "blog-layout",
    fun a => hasClass a "blog-gallery",
    fun a => hasClass a "blog-hero",
    fun a => hasClass a "blog-quote",
    fun a => hasClass a "blog-comparison",
    fun a => hasClass a "blog-figure",
    fun a => hasClass a "blog-image-wrapper",
    fun a => a.tag = "figure" && !hasClass a "blog-figure" ]

/-- One selector pass of `scanExistingComponents`: query the editor's
descendants, then register each hit that is still unmarked. -/
def scanPass (s : MState) (p : Attrs → Bool) : MState :=
  match s.editor with
  | none => s
  | some ed =>
    match s.doc.findN ed with
    | none => s
    | some (_, c) =>
      (Dom.qSelAll p c).foldl
        (fun st t =>
          match st.doc.findN t with
          | some (a, _) => if a.componentId = none then (registerElementAt st t).2 else st
          | none => st) s

/-- The standalone-image pass of `scanExistingComponents`:
`img.blog-image, img.editable` descendants of the editor that are not inside
a marked element and are unmarked themselves are registered as images. -/
def scanImages (s : MState) : MState :=
  match s.editor with
  | none => s
  | some ed =>
    match s.doc.findN ed with
    | none => s
    | some (_, c) =>
      (Dom.qSelAll
          (fun a => a.tag = "img" && (hasClass a "blog-image" || hasClass a "editable")) c).foldl
        (fun st t =>
          let inMarked := st.doc.closestP t (fun a => a.componentId.isSome)
          let marker := match st.doc.findN t with
            | some (a, _) => a.componentId
            | none => none
          if !inMarked && marker = none then (registerImageAt st t).2 else st) s

/-- `scanExistingComponents()`. -/
def scanExisting (s : MState) : MState :=
  scanImages (scanSelectors.foldl scanPass s)

/-- The state of the module-level `new ComponentManager()` before `init`:
empty registry, nothing bound, no listeners.  The entropy stream, the node
counter, and the document content of the surrounding page are environment
parameters. -/
def uninit (entropy : Nat → Nat × String) (nid0 : Nat) (d : Dom) : MState :=
  { components := [], editor := none, contentInput := none, listeners := [],
    notifications := [], entropy := entropy, draws := 0, nextNid := nid0,
    selection := none, doc := d }

/-- `init(editor, contentInput)` on a fresh manager: bind the editor tree
(a single root) and the output field (with its current value), scan existing
content, start observing.  `nid0` must exceed the node identities of the
given tree. -/
def initState (tree : Dom) (inputVal : String) (entropy : Nat → Nat × String)
    (nid0 : Nat) : MState :=
  let rootNid := match tree with
    | .node n _ _ _ => n
    | .nil => 0
  scanExisting
    { components := [], editor := some rootNid, contentInput := some inputVal,
      listeners := [], notifications := [], entropy := entropy, draws := 0,
      nextNid := nid0, selection := none, doc := tree }

/-- A subtree template without node identities, used to build externally
inserted DOM (paste, scripts). -/
inductive TDom where
  | nil : TDom
  | node (attrs : Attrs) (child : TDom) (sib : TDom) : TDom

/-- Build fresh nodes from a template. -/
def TDom.instantiate : TDom → Nat → Dom × Nat
  | .nil, k => (.nil, k)
  | .node a c s, k =>
    let (c', k1) := c.instantiate (k + 1)
    let (s', k2) := s.instantiate k1
    (.node k a c' s', k2)

/-- Erase node identities, keeping structure and attributes (the shape a
deep clone copies). -/
def Dom.toTemplate : Dom → TDom
  | .nil => .nil
  | .node _ a c s => .node a c.toTemplate s.toTemplate

/-- Is `t` the editor root or one of its descendants? -/
def attachedNid (s : MState) (t : Nat) : Bool :=
  match s.editor with
  | none => false
  | some ed =>
    match s.doc.findN ed with
    | none => false
    | some (_, c) => t = ed || c.hasNid t

/-- The watcher's handling of one observed removal: if the removed node
itself carries a marker, its record is deleted.  (Descendant markers are not
examined by the callback.) -/
def watchRemoved (s : MState) (a : Attrs) : MState :=
  match a.componentId with
  | some m => { s with components := mapDel s.components m }
  | none => s

/-- First check of the watcher's added-node handler: a qualifying container
without a marker is registered. -/
def watchAddedEl (s : MState) (t : Nat) : MState :=
  match s.doc.findN t with
  | some (a, _) =>
    if isComponentElement a && a.componentId = none
    then (registerElementAt s t).2 else s
  | none => s

/-- Second check of the watcher's added-node handler: an `img` still without
a marker is registered as an image. -/
def watchAddedImg (s : MState) (t : Nat) : MState :=
  match s.doc.findN t with
  | some (a, _) =>
    if a.tag = "img" && a.componentId = none
    then (registerImageAt s t).2 else s
  | none => s

/-- The watcher's handling of one observed insertion: the two checks of the
added-node callback, run in order. -/
def watchAdded (s : MState) (t : Nat) : MState :=
  watchAddedImg (watchAddedEl s t) t

/-- An external removal of the node `t` (user edit, script), together with
the mutation-watcher reconciliation that the observer delivers for it.  The
observer watches only the editor subtree, so nothing is reconciled when the
removed node was not attached below the editor root. -/
def externalRemove (s : MState) (t : Nat) : MState :=
  let observed := attachedNid s t && (s.editor ≠ some t)
  let aOld := match s.doc.findN t with
    | some (a, _) => some a
    | none => none
  let s1 := { s with doc := docRemove s.doc t }
  match observed, aOld with
  | true, some a => watchRemoved s1 a
  | _, _ => s1

/-- An external insertion of a freshly built subtree as child `off` of node
`p`, together with the watcher reconciliation (delivered only when the
insertion lands inside the editor subtree).  Insertion at an unmodelled
position leaves the new node detached. -/
def externalInsert (s : MState) (p : Nat) (off : Nat) (tpl : TDom) : MState :=
  let (tree, n') := tpl.instantiate s.nextNid
  let rootN := s.nextNid
  let inEditor := attachedNid s p
  let doc1 := if s.doc.hasNid p then s.doc.insertChildAt p off tree else s.doc.cat tree
  let s1 := { s with doc := doc1, nextNid := n' }
  if inEditor then watchAdded s1 rootN else s1

/-! ### Run harnesses for operation sequences -/

/-- The id produced by draw number `i` of an entropy stream. -/
def gidAt (e : Nat → Nat × String) (i : Nat) : String :=
  generateId (e i).1 (e i).2

/-- A registration operation (the id-producing operations of the engine). -/
inductive RegOp where
  | regEl (t : Nat)
  | regImg (t : Nat)
  | insertImg (src alt : String) (u : ImgUpd)
  | dup (id : String)

/-- Run one registration operation; `none` marks a failure (no id
produced). -/
def runRegOp (s : MState) : RegOp → Option String × MState
  | .regEl t =>
    let (i, s') := registerElementAt s t
    (some i, s')
  | .regImg t =>
    let (i, s') := registerImageAt s t
    (some i, s')
  | .insertImg src alt u =>
    let (i, s') := insertImage s src alt u
    (if i = "" then none else some i, s')
  | .dup id => duplicateComponent s id

/-- Run a sequence of registrations, collecting the produced ids. -/
def runRegs (s : MState) : List RegOp → List String × MState
  | [] => ([], s)
  | op :: ops =>
    let (r, s1) := runRegOp s op
    let (ids, s2) := runRegs s1 ops
    ((match r with
      | some i => [i]
      | none => []) ++ ids, s2)

/-- An operation of the register / remove / watcher-reconciliation fragment
(claim C2's operation set). -/
inductive WOp where
  | regEl (t : Nat)
  | regImg (t : Nat)
  | remove (id : String)
  | extRemove (t : Nat)
  | extInsert (p : Nat) (off : Nat) (tpl : TDom)

/-- Run one such operation. -/
def runWOp (s : MState) : WOp → MState
  | .regEl t => (registerElementAt s t).2
  | .regImg t => (registerImageAt s t).2
  | .remove id => (removeComponent s id).2
  | .extRemove t => externalRemove s t
  | .extInsert p off tpl => externalInsert s p off tpl

/-- Run a sequence of such operations. -/
def runWOps (s : MState) : List WOp → MState
  | [] => s
  | op :: ops => runWOps (runWOp s op) ops

/-- The marker attribute of node `t`. -/
def markerAt (d : Dom) (t : Nat) : Option String :=
  match d.findN t with
  | some (a, _) => a.componentId
  | none => none

/-- A template with no marker attributes anywhere. -/
def TDom.markerFree : TDom → Bool
  | .nil => true
  | .node a c s => a.componentId = none && c.markerFree && s.markerFree

/-! ### Projections used to state the invariants -/

/-- All `(nid, attrs)` pairs of a chain, in document order. -/
def Dom.collectNodes : Dom → List (Nat × Attrs)
  | .nil => []
  | .node n a c s => (n, a) :: (c.collectNodes ++ s.collectNodes)

/-- The identities of the top-level (parentless) nodes of the forest. -/
def Dom.rootNids : Dom → List Nat
  | .nil => []
  | .node n _ _ s => n :: s.rootNids

/-- The nodes of the editable root's subtree (the root itself included). -/
def editorNodes (s : MState) : List (Nat × Attrs) :=
  match s.editor with
  | none => []
  | some e =>
    match s.doc.findN e with
    | none => []
    | some (a, c) => (e, a) :: c.collectNodes

/-- First half of the bijection invariant: every attached node carrying a
marker has the matching registry entry, and that entry points back at it. -/
def markedHaveEntries (s : MState) : Prop :=
  ∀ p ∈ editorNodes s, ∀ m, p.2.componentId = some m →
    ∃ r, mapGet s.components m = some r ∧ r.element = some p.1

/-- Second half of the bijection invariant: every registry entry whose node
is attached corresponds to a node carrying the matching marker. -/
def entriesMatchMarkers (s : MState) : Prop :=
  ∀ kv ∈ s.components, ∀ en a, kv.2.element = some en →
    (en, a) ∈ editorNodes s → a.componentId = some kv.1

/-- The next `generateId()` draw is fresh: it is not a current registry key
and no attached node already carries it as marker (guaranteed for real
clock/random draws with overwhelming probability, but not by the engine —
see claim C7). -/
def idFreshFor (s : MState) : Prop :=
  mapGet s.components s.freshId = none ∧
  ∀ q ∈ editorNodes s, q.2.componentId ≠ some s.freshId

/-- Side conditions of the amended watcher-bijection claim: registration
draws a fresh id and targets a currently unmarked proper descendant of the
editable root (the guard `scanExistingComponents` and the observer callback
apply before calling `registerElement`/`registerImage`), and externally
inserted subtrees carry no marker attributes. -/
def wOpOK (s : MState) : WOp → Prop
  | .regEl t =>
      attachedNid s t = true ∧ s.editor ≠ some t ∧ markerAt s.doc t = none ∧
        idFreshFor s
  | .regImg t =>
      attachedNid s t = true ∧ s.editor ≠ some t ∧ markerAt s.doc t = none ∧
        idFreshFor s
  | .remove _ => True
  | .extRemove _ => True
  | .extInsert _ _ tpl => tpl.markerFree = true ∧ idFreshFor s

/-- All ops of a sequence satisfy their side conditions in the state where
they run. -/
def wOpsOK (s : MState) : List WOp → Prop
  | [] => True
  | op :: ops => wOpOK s op ∧ wOpsOK (runWOp s op) ops

/-! ### Concrete fixtures for witnesses and counterexamples -/

/-- A sample entropy stream with pairwise distinct draws. -/
def entN : Nat → Nat × String := fun i => (i, "r" ++ toString i)

/-- A degenerate entropy stream: the same millisecond and the same random
suffix on every draw (possible, since `Date.now()` has millisecond
resolution and `Math.random()` may repeat). -/
def entC : Nat → Nat × String := fun _ => (5, "abc")

/-- An empty editable root. -/
def emptyEd : Dom := .node 0 { tag := "div" } .nil .nil

/-- A fresh manager initialized on an empty editable root. -/
def sEmpty : MState := initState emptyEd "" entN 1

/-- An editable root holding one bare tracked image. -/
def imgEd : Dom :=
  .node 0 { tag := "div" }
    (.node 1 { tag := "img", classes := ["blog-image"], src := "x.png" } .nil .nil) .nil

/-- A manager initialized on `imgEd`; the scan registers the image. -/
def sImg : MState := initState imgEd "" entN 2

/-- An editable root holding one figure with an image and a caption `A`. -/
def figEd : Dom :=
  .node 0 { tag := "div" }
    (.node 1 { tag := "figure" }
      (.node 2 { tag := "img", src := "a.png" } .nil
        (.node 3 { tag := "figcaption", text := "A" } .nil .nil)) .nil) .nil

/-- A manager initialized on `figEd`; the scan registers the figure. -/
def sFig : MState := initState figEd "" entN 4

/-- An editable root holding two bare (unscanned) images. -/
def twoImgEd : Dom :=
  .node 0 { tag := "div" }
    (.node 1 { tag := "img" } .nil (.node 2 { tag := "img" } .nil .nil)) .nil

/-- A manager with the degenerate entropy stream on `twoImgEd`. -/
def sTwoImg : MState := initState twoImgEd "" entC 3

/-- An editable root holding one bare figure. -/
def oneFigEd : Dom := .node 0 { tag := "div" } (.node 1 { tag := "figure" } .nil .nil) .nil

/-- A manager on `oneFigEd`; the scan registers the figure with the first
drawn id. -/
def sOneFig : MState := initState oneFigEd "" entN 2

/-- The record the scan stores for the figure of `figEd`. -/
def figComp : ComponentData :=
  { id := "cmp-0-r0", ctype := .figure,
    props := [("src", .s "a.png"), ("alt", .s ""), ("caption", .s "A")],
    element := some 1 }

/-- The figure node's attributes in `sFig` (after the scan marked it). -/
def figA : Attrs := { tag := "figure", componentId := some "cmp-0-r0" }

/-- The figure node's child chain in `sFig`. -/
def figC : Dom :=
  .node 2 { tag := "img", src := "a.png" } .nil
    (.node 3 { tag := "figcaption", text := "A" } .nil .nil)

/-- The document expected after inserting
`insertImage('https://x/img.png', 'cat', {layout: 'center'})` into the empty
editable root: the marked wrapper holding the image, followed by an empty
paragraph. -/
def c8ExpectedDoc : Dom :=
  .node 0 { tag := "div" }
    (.node 1
      { tag := "div", classes := ["blog-image-wrapper"],
        componentId := some "cmp-0-r0",
        style := { marginTop := "1rem", marginRight := "0",
                   marginBottom := "1rem", marginLeft := "0" } }
      (.node 2
        { tag := "img", classes := ["blog-image", "editable", "center"],
          src := "https://x/img.png", alt := "cat",
          style := { display := "block", width := "100%", maxWidth := "100%",
                     height := "auto", cursor := "pointer" } } .nil .nil)
      (.node 3 { tag := "p" } (.node 4 { tag := "br" } .nil .nil) .nil)) .nil

/-- The nodes of the subtree rooted at `e` (`e` itself included), when
present. -/
def subNodes (d : Dom) (e : Nat) : List (Nat × Attrs) :=
  match d.findN e with
  | some (a, c) => (e, a) :: c.collectNodes
  | none => []

/-- Look up a top-level (parentless) node of the forest by identity, walking
only the root chain. -/
def Dom.rootSub : Dom → Nat → Option (Attrs × Dom)
  | .nil, _ => none
  | .node n a c s, e => if n = e then some (a, c) else s.rootSub e

/-- Invariant of the register / remove / watcher fragment: the manager is
bound to the single editable root `e0`, node identities are unique and below
the counter, both halves of the registry-marker bijection hold, and every
record points at a proper (non-root) node below the counter. -/
structure WInv (e0 : Nat) (s : MState) : Prop where
  editor_eq : s.editor = some e0
  root_mem : e0 ∈ s.doc.rootNids
  nodup : s.doc.nids.Nodup
  bound : ∀ n ∈ s.doc.nids, n < s.nextNid
  half1 : markedHaveEntries s
  half2 : entriesMatchMarkers s
  not_root : ∀ kv ∈ s.components, kv.2.element ≠ some e0
  el_bound : ∀ kv ∈ s.components, ∀ en, kv.2.element = some en → en < s.nextNid

/-- Invariant used to reason about `applyUpdatesToDOM` on a freshly inserted
clone whose identities all lie in the high band `K+1 ..`: the low node `t` is
still found with its original attributes and subtree, node identities are
unique, and every high node's subtree consists of high nodes only. -/
def UpdInv (d : Dom) (t : Nat) (a0 : Attrs) (c0 : Dom) (K : Nat) : Prop :=
  d.findN t = some (a0, c0) ∧ d.nids.Nodup ∧
    ∀ j : Nat, K + 1 ≤ j → ∀ p : Attrs × Dom, d.findN j = some p →
      ∀ y ∈ p.2.nids, K + 1 ≤ y

/-! ## Basic lemmas -/

theorem mapGet_nil (k : String) : mapGet [] k = none := rfl

theorem mapGet_cons (kv : String × ComponentData) (tl : Registry) (k : String) :
    mapGet (kv :: tl) k = if kv.1 = k then some kv.2 else mapGet tl k := by
  by_cases h : kv.1 = k <;> simp [mapGet, List.find?, h]

theorem mapGet_eq_none_of_not_any (m : Registry) (k : String)
    (h : m.any (fun kv => kv.1 = k) = false) : mapGet m k = none := by
  induction m with
  | nil => rfl
  | cons kv tl ih =>
    simp only [List.any_cons, Bool.or_eq_false_iff, decide_eq_false_iff_not] at h
    rw [mapGet_cons, if_neg h.1]
    exact ih h.2

theorem mapGet_overwrite_self (m : Registry) (k : String) (v : ComponentData)
    (h : m.any (fun kv => kv.1 = k) = true) :
    mapGet (m.map (fun kv => if kv.1 = k then (k, v) else kv)) k = some v := by
  induction m with
  | nil => simp at h
  | cons kv tl ih =>
    by_cases hk : kv.1 = k
    · simp [List.map_cons, if_pos hk, mapGet_cons]
    · simp only [List.any_cons, Bool.or_eq_true, decide_eq_true_eq] at h
      rcases h with h | h
      · exact absurd h hk
      · rw [List.map_cons, if_neg hk, mapGet_cons, if_neg hk]
        exact ih h

theorem mapGet_overwrite_ne (m : Registry) (k : String) (v : ComponentData)
    (k' : String) (h : k' ≠ k) :
    mapGet (m.map (fun kv => if kv.1 = k then (k, v) else kv)) k' = mapGet m k' := by
  induction m with
  | nil => rfl
  | cons kv tl ih =>
    by_cases hk : kv.1 = k
    · rw [List.map_cons, if_pos hk, mapGet_cons, mapGet_cons, if_neg (Ne.symm h),
          if_neg (by rw [hk]; exact Ne.symm h)]
      exact ih
    · rw [List.map_cons, if_neg hk, mapGet_cons, mapGet_cons]
      by_cases hk' : kv.1 = k' <;> simp [hk', ih]

theorem mapGet_append_single (m : Registry) (k : String) (v : ComponentData)
    (k' : String) :
    mapGet (m ++ [(k, v)]) k' =
      match mapGet m k' with
      | some r => some r
      | none => if k = k' then some v else none := by
  induction m with
  | nil =>
    by_cases h : k = k' <;> simp [mapGet, List.find?, h]
  | cons kv tl ih =>
    by_cases h : kv.1 = k' <;>
      simp [List.cons_append, mapGet_cons, h, ih]

@[simp]
theorem mapGet_mapSet_self (m : Registry) (k : String) (v : ComponentData) :
    mapGet (mapSet m k v) k = some v := by
  unfold mapSet
  by_cases h : m.any (fun kv => kv.1 = k)
  · rw [if_pos h]
    exact mapGet_overwrite_self m k v h
  · rw [if_neg h]
    rw [mapGet_append_single, mapGet_eq_none_of_not_any m k (Bool.eq_false_iff.mpr h)]
    simp

@[simp]
theorem mapGet_mapSet_ne (m : Registry) (k k' : String) (v : ComponentData)
    (h : k' ≠ k) : mapGet (mapSet m k v) k' = mapGet m k' := by
  unfold mapSet
  by_cases ha : m.any (fun kv => kv.1 = k)
  · rw [if_pos ha]
    exact mapGet_overwrite_ne m k v k' h
  · rw [if_neg ha, mapGet_append_single]
    cases hm : mapGet m k' with
    | some r => rfl
    | none => simp [Ne.symm h]

@[simp]
theorem mapGet_mapDel_self (m : Registry) (k : String) :
    mapGet (mapDel m k) k = none := by
  unfold mapDel
  induction m with
  | nil => rfl
  | cons kv tl ih =>
    by_cases hk : kv.1 = k
    · rw [List.filter_cons, if_neg (by simp [hk])]
      exact ih
    · rw [List.filter_cons, if_pos (by simp [hk]), mapGet_cons, if_neg hk]
      exact ih

@[simp]
theorem mapGet_mapDel_ne (m : Registry) (k k' : String) (h : k' ≠ k) :
    mapGet (mapDel m k) k' = mapGet m k' := by
  unfold mapDel
  induction m with
  | nil => rfl
  | cons kv tl ih =>
    by_cases hk : kv.1 = k
    · rw [List.filter_cons, if_neg (by simp [hk]), ih, mapGet_cons,
          if_neg (by rw [hk]; exact Ne.symm h)]
    · rw [List.filter_cons, if_pos (by simp [hk]), mapGet_cons, mapGet_cons]
      by_cases hk' : kv.1 = k'
      · rw [if_pos hk', if_pos hk']
      · rw [if_neg hk', if_neg hk']
        exact ih

@[simp]
theorem notify_components (s : MState) (id : String) (d : ComponentData) :
    (notify s id d).components = s.components := rfl

@[simp]
theorem notify_doc (s : MState) (id : String) (d : ComponentData) :
    (notify s id d).doc = s.doc := rfl

@[simp]
theorem notify_editor (s : MState) (id : String) (d : ComponentData) :
    (notify s id d).editor = s.editor := rfl

@[simp]
theorem notify_contentInput (s : MState) (id : String) (d : ComponentData) :
    (notify s id d).contentInput = s.contentInput := rfl

@[simp]
theorem syncContent_editor (s : MState) : (syncContent s).editor = s.editor := by
  unfold syncContent
  cases he : s.editor <;> cases hv : s.contentInput <;> simp [he, hv]

@[simp]
theorem syncContent_doc (s : MState) : (syncContent s).doc = s.doc := by
  unfold syncContent
  cases he : s.editor <;> cases hv : s.contentInput <;> simp [he, hv]

@[simp]
theorem syncContent_components (s : MState) :
    (syncContent s).components = s.components := by
  unfold syncContent
  cases he : s.editor <;> cases hv : s.contentInput <;> simp [he, hv]

@[simp]
theorem syncContent_notifications (s : MState) :
    (syncContent s).notifications = s.notifications := by
  unfold syncContent
  cases he : s.editor <;> cases hv : s.contentInput <;> simp [he, hv]

@[simp]
theorem syncContent_listeners (s : MState) :
    (syncContent s).listeners = s.listeners := by
  unfold syncContent
  cases he : s.editor <;> cases hv : s.contentInput <;> simp [he, hv]

@[simp]
theorem syncContent_nextNid (s : MState) : (syncContent s).nextNid = s.nextNid := by
  unfold syncContent
  cases he : s.editor <;> cases hv : s.contentInput <;> simp [he, hv]

@[simp]
theorem syncContent_draws (s : MState) : (syncContent s).draws = s.draws := by
  unfold syncContent
  cases he : s.editor <;> cases hv : s.contentInput <;> simp [he, hv]

@[simp]
theorem syncContent_entropy (s : MState) : (syncContent s).entropy = s.entropy := by
  unfold syncContent
  cases he : s.editor <;> cases hv : s.contentInput <;> simp [he, hv]

@[simp]
theorem afterDraw_notifications (s : MState) :
    s.afterDraw.notifications = s.notifications := rfl

@[simp]
theorem afterDraw_components (s : MState) :
    s.afterDraw.components = s.components := rfl

@[simp]
theorem afterDraw_doc (s : MState) : s.afterDraw.doc = s.doc := rfl

@[simp]
theorem afterDraw_editor (s : MState) : s.afterDraw.editor = s.editor := rfl

@[simp]
theorem afterDraw_contentInput (s : MState) :
    s.afterDraw.contentInput = s.contentInput := rfl

@[simp]
theorem afterDraw_listeners (s : MState) : s.afterDraw.listeners = s.listeners := rfl

@[simp]
theorem afterDraw_entropy (s : MState) : s.afterDraw.entropy = s.entropy := rfl

@[simp]
theorem afterDraw_nextNid (s : MState) : s.afterDraw.nextNid = s.nextNid := rfl

@[simp]
theorem afterDraw_selection (s : MState) : s.afterDraw.selection = s.selection := rfl

theorem syncContent_value (s : MState) (e : Nat) (v : String)
    (he : s.editor = some e) (hv : s.contentInput = some v) :
    (syncContent s).contentInput = some (innerHTMLOf s.doc e) := by
  unfold syncContent
  rw [he, hv]

/-! ## Claim C10 -/

/-- C10: if `init` has never been called (no editable root is bound),
`insertImage` returns the empty string — not a fresh component id — and
leaves the whole state unchanged: the registry keeps its contents (in
particular stays empty), no DOM node is created, no draw is consumed, and
no output value is written. -/
theorem insertImage_requires_init (s : MState) (src alt : String) (u : ImgUpd)
    (h : s.editor = none) :
    insertImage s src alt u = ("", s) := by
  unfold insertImage
  rw [h]

/-- Witness for C10 at the module-level singleton before `init`. -/
theorem insertImage_requires_init_witness :
    insertImage (uninit entN 0 .nil) "https://x/img.png" "cat" {} =
      ("", uninit entN 0 .nil) ∧
    (uninit entN 0 .nil).components = [] :=
  ⟨insertImage_requires_init (uninit entN 0 .nil) "https://x/img.png" "cat" {} rfl, rfl⟩

/-! ## Claim C3 -/

/-- C3: for every id absent from the registry and every partial property
update, `updateComponent` and `updateImage` return `false`, never throw (the
model is total), and leave the whole state — editor content, stored records,
and output value — unchanged.  A failed update is atomic. -/
theorem update_unknown_id_is_noop (s : MState) (id : String) (updates : Props)
    (u : ImgUpd) (h : mapGet s.components id = none) :
    updateComponent s id updates = (false, s) ∧ updateImage s id u = (false, s) := by
  constructor
  · unfold updateComponent
    rw [h]
  · unfold updateImage
    rw [h]

/-- Witness for C3: an unknown id against an initialized manager. -/
theorem update_unknown_id_is_noop_witness :
    updateComponent sEmpty "nonexistent-id" [("src", .s "y")] =
      (false, sEmpty) ∧
    updateImage sEmpty "nonexistent-id" { src := some "y" } = (false, sEmpty) :=
  update_unknown_id_is_noop sEmpty "nonexistent-id" [("src", .s "y")]
    { src := some "y" } (by decide)

/-! ## Claim C1 -/

/-- C1: after every successful mutating operation (`updateComponent`,
`updateImage`, `insertImage`, `removeComponent`, `duplicateComponent`) of an
initialized manager, the bound output field's value equals the editable
root's current serialized markup, byte for byte. -/
theorem sync_after_mutation (s : MState) (e : Nat) (v : String)
    (he : s.editor = some e) (hv : s.contentInput = some v) :
    (∀ id upd, (updateComponent s id upd).1 = true →
      ((updateComponent s id upd).2).contentInput
        = some (innerHTMLOf ((updateComponent s id upd).2).doc e)) ∧
    (∀ id u, (updateImage s id u).1 = true →
      ((updateImage s id u).2).contentInput
        = some (innerHTMLOf ((updateImage s id u).2).doc e)) ∧
    (∀ src alt u, ((insertImage s src alt u).2).contentInput
        = some (innerHTMLOf ((insertImage s src alt u).2).doc e)) ∧
    (∀ id, (removeComponent s id).1 = true →
      ((removeComponent s id).2).contentInput
        = some (innerHTMLOf ((removeComponent s id).2).doc e)) ∧
    (∀ id, ((duplicateComponent s id).1).isSome = true →
      ((duplicateComponent s id).2).contentInput
        = some (innerHTMLOf ((duplicateComponent s id).2).doc e)) := by
  refine ⟨?_, ?_, ?_, ?_, ?_⟩
  · intro id upd hsucc
    cases hm : mapGet s.components id with
    | none => simp [updateComponent, hm] at hsucc
    | some comp =>
      cases hel : comp.element with
      | none => simp [updateComponent, hm, hel] at hsucc
      | some t =>
        simp only [updateComponent, hm, hel, notify_contentInput, notify_doc,
          syncContent_doc]
        exact syncContent_value _ e v he hv
  · intro id u hsucc
    cases hm : mapGet s.components id with
    | none => simp [updateImage, hm] at hsucc
    | some comp =>
      cases ht : imgTargetOf s.doc comp with
      | none => simp [updateImage, hm, ht] at hsucc
      | some i =>
        simp only [updateImage, hm, ht, notify_contentInput, notify_doc,
          syncContent_doc]
        exact syncContent_value _ e v he hv
  · intro src alt u
    cases hsel : s.selection with
    | none =>
      simp only [insertImage, he, hsel, syncContent_doc]
      exact syncContent_value _ e v he hv
    | some po =>
      obtain ⟨p, off⟩ := po
      by_cases hp : s.doc.hasNid p
      · simp only [insertImage, he, hsel, hp, if_true, syncContent_doc]
        exact syncContent_value _ e v he hv
      · simp only [insertImage, he, hsel, hp, if_false, syncContent_doc]
        exact syncContent_value _ e v he hv
  · intro id hsucc
    cases hm : mapGet s.components id with
    | none => simp [removeComponent, hm] at hsucc
    | some comp =>
      cases hel : comp.element with
      | none => simp [removeComponent, hm, hel] at hsucc
      | some t =>
        simp only [removeComponent, hm, hel, syncContent_doc]
        exact syncContent_value _ e v he hv
  · intro id hsucc
    cases hm : mapGet s.components id with
    | none => simp [duplicateComponent, hm] at hsucc
    | some comp =>
      cases hel : comp.element with
      | none => simp [duplicateComponent, hm, hel] at hsucc
      | some t =>
        cases hf : s.doc.findN t with
        | none => simp [duplicateComponent, hm, hel, hf] at hsucc
        | some ac =>
          obtain ⟨a0, c0⟩ := ac
          simp only [duplicateComponent, hm, hel, hf, syncContent_doc]
          exact syncContent_value _ e v he hv

/-- Witness for C1 on a concrete initialized manager. -/
theorem sync_after_mutation_witness :
    sEmpty.editor = some 0 ∧ sEmpty.contentInput = some "" ∧
    ((∀ id upd, (updateComponent sEmpty id upd).1 = true →
      ((updateComponent sEmpty id upd).2).contentInput
        = some (innerHTMLOf ((updateComponent sEmpty id upd).2).doc 0)) ∧
    (∀ id u, (updateImage sEmpty id u).1 = true →
      ((updateImage sEmpty id u).2).contentInput
        = some (innerHTMLOf ((updateImage sEmpty id u).2).doc 0)) ∧
    (∀ src alt u, ((insertImage sEmpty src alt u).2).contentInput
        = some (innerHTMLOf ((insertImage sEmpty src alt u).2).doc 0)) ∧
    (∀ id, (removeComponent sEmpty id).1 = true →
      ((removeComponent sEmpty id).2).contentInput
        = some (innerHTMLOf ((removeComponent sEmpty id).2).doc 0)) ∧
    (∀ id, ((duplicateComponent sEmpty id).1).isSome = true →
      ((duplicateComponent sEmpty id).2).contentInput
        = some (innerHTMLOf ((duplicateComponent sEmpty id).2).doc 0))) :=
  ⟨by decide, by decide, sync_after_mutation sEmpty 0 "" (by decide) (by decide)⟩

/-! ## Claim C6 -/

/-- C6 counterexample: an initialized manager with one registered listener;
`insertImage` succeeds (a fresh id, not `''`, is returned) yet no listener
invocation is logged.  The claim that every registered listener is invoked
after every successful mutation including `insertImage`, `removeComponent`
and `duplicateComponent` is false: only the two update operations call
`notifyListeners`. -/
theorem change_notification_counterexample :
    (insertImage (addListener sEmpty 7) "https://x/img.png" "cat" {}).1 ≠ "" ∧
    (addListener sEmpty 7).listeners = [7] ∧
    ((insertImage (addListener sEmpty 7) "https://x/img.png" "cat" {}).2).notifications
      = [] :=
  ⟨by decide, by decide, by decide⟩

/-- C6 amended: every registered listener is invoked with the component id
and record after every successful `updateComponent` and `updateImage` — but
`insertImage`, `removeComponent` and `duplicateComponent` never notify — and
the unsubscribe operation returned by `onChange` removes the listener. -/
theorem change_notification_behavior (s : MState) (id : String) (upd : Props)
    (u : ImgUpd) (src alt : String) (l : Nat) :
    ((updateComponent s id upd).1 = true →
      ∃ d, mapGet ((updateComponent s id upd).2).components id = some d ∧
        ((updateComponent s id upd).2).notifications
          = s.notifications ++ s.listeners.map (fun t => (t, id, d))) ∧
    ((updateImage s id u).1 = true →
      ∃ d, mapGet ((updateImage s id u).2).components id = some d ∧
        ((updateImage s id u).2).notifications
          = s.notifications ++ s.listeners.map (fun t => (t, id, d))) ∧
    ((insertImage s src alt u).2).notifications = s.notifications ∧
    ((removeComponent s id).2).notifications = s.notifications ∧
    ((duplicateComponent s id).2).notifications = s.notifications ∧
    (removeListener (addListener s l) l).listeners
      = s.listeners.filter (fun x => x ≠ l) ∧
    l ∈ (addListener s l).listeners := by
  refine ⟨?_, ?_, ?_, ?_, ?_, ?_, ?_⟩
  · intro hsucc
    cases hm : mapGet s.components id with
    | none => simp [updateComponent, hm] at hsucc
    | some comp =>
      cases hel : comp.element with
      | none => simp [updateComponent, hm, hel] at hsucc
      | some t =>
        refine ⟨{ comp with props := mergeProps comp.props upd }, ?_, ?_⟩
        · simp only [updateComponent, hm, hel, notify_components,
            syncContent_components]
          exact mapGet_mapSet_self _ _ _
        · simp [updateComponent, hm, hel, notify]
  · intro hsucc
    cases hm : mapGet s.components id with
    | none => simp [updateImage, hm] at hsucc
    | some comp =>
      cases ht : imgTargetOf s.doc comp with
      | none => simp [updateImage, hm, ht] at hsucc
      | some i =>
        refine ⟨{ comp with props := mergeProps comp.props u.toProps }, ?_, ?_⟩
        · simp only [updateImage, hm, ht, notify_components, syncContent_components]
          exact mapGet_mapSet_self _ _ _
        · simp [updateImage, hm, ht, notify]
  · cases he : s.editor with
    | none => simp [insertImage, he]
    | some ed =>
      cases hsel : s.selection with
      | none => simp [insertImage, he, hsel]
      | some po =>
        obtain ⟨p, off⟩ := po
        by_cases hp : s.doc.hasNid p <;>
          simp [insertImage, he, hsel, hp]
  · cases hm : mapGet s.components id with
    | none => simp [removeComponent, hm]
    | some comp =>
      cases hel : comp.element with
      | none => simp [removeComponent, hm, hel]
      | some t => simp [removeComponent, hm, hel]
  · cases hm : mapGet s.components id with
    | none => simp [duplicateComponent, hm]
    | some comp =>
      cases hel : comp.element with
      | none => simp [duplicateComponent, hm, hel]
      | some t =>
        cases hf : s.doc.findN t with
        | none => simp [duplicateComponent, hm, hel, hf]
        | some ac =>
          obtain ⟨a0, c0⟩ := ac
          simp [duplicateComponent, hm, hel, hf]
  · unfold removeListener addListener
    by_cases hc : l ∈ s.listeners
    · simp [hc]
    · simp [hc, List.filter_append]
  · unfold addListener
    by_cases hc : l ∈ s.listeners
    · simp [hc]
    · simp [hc]

/-- Witness for C6 (amended): the update path notifies, the insert path does
not, on a concrete manager with a tracked image. -/
theorem change_notification_behavior_witness :
    ((insertImage sImg "s" "a" { alt := some "z" }).2).notifications
      = sImg.notifications ∧
    (∃ d, mapGet ((updateImage sImg "cmp-0-r0" { alt := some "z" }).2).components
        "cmp-0-r0" = some d ∧
      ((updateImage sImg "cmp-0-r0" { alt := some "z" }).2).notifications
        = sImg.notifications ++ sImg.listeners.map (fun t => (t, "cmp-0-r0", d))) := by
  obtain ⟨h1, h2, h3, h4⟩ :=
    change_notification_behavior sImg "cmp-0-r0" [] { alt := some "z" } "s" "a" 0
  exact ⟨h3, h2 (by decide)⟩

/-! ## Node lookup and locality lemmas -/

theorem Dom.findN_eq_none_of_not_mem (d : Dom) (x : Nat) (h : x ∉ d.nids) :
    d.findN x = none := by
  induction d with
  | nil => rfl
  | node n a c s ihc ihs =>
    simp only [Dom.nids, List.mem_cons, List.mem_append] at h
    push_neg at h
    obtain ⟨h1, h2, h3⟩ := h
    simp only [Dom.findN, if_neg (Ne.symm h1), ihc h2, ihs h3]

theorem Dom.mem_of_findN_eq_some (d : Dom) (x : Nat) (p : Attrs × Dom)
    (h : d.findN x = some p) : x ∈ d.nids := by
  by_contra hx
  rw [Dom.findN_eq_none_of_not_mem d x hx] at h
  exact Option.noConfusion h

theorem Dom.findN_mem_sub (d : Dom) (x : Nat) (a : Attrs) (c : Dom)
    (h : d.findN x = some (a, c)) : ∀ n ∈ c.nids, n ∈ d.nids := by
  induction d with
  | nil => exact absurd h (by simp [Dom.findN])
  | node n0 a0 c0 s0 ihc ihs =>
    intro m hm
    simp only [Dom.nids, List.mem_cons, List.mem_append]
    by_cases hn : n0 = x
    · simp only [Dom.findN, if_pos hn] at h
      rw [Option.some.injEq, Prod.mk.injEq] at h
      right; left
      rw [h.2]
      exact hm
    · simp only [Dom.findN, if_neg hn] at h
      cases hc : c0.findN x with
      | some p =>
        rw [hc, Option.some.injEq] at h
        right; left
        exact ihc (by rw [hc, h]) m hm
      | none =>
        rw [hc] at h
        right; right
        exact ihs h m hm

theorem Dom.qTag_mem (c : Dom) (tg : String) (i : Nat) (h : c.qTag tg = some i) :
    i ∈ c.nids := by
  induction c with
  | nil => exact absurd h (by simp [Dom.qTag])
  | node n a cc ss ihc ihs =>
    simp only [Dom.qTag] at h
    simp only [Dom.nids, List.mem_cons, List.mem_append]
    by_cases htag : a.tag = tg
    · rw [if_pos htag, Option.some.injEq] at h
      left; exact h.symm
    · rw [if_neg htag] at h
      cases hc : cc.qTag tg with
      | some r =>
        rw [hc, Option.some.injEq] at h
        right; left; exact ihc (by rw [hc, h])
      | none =>
        rw [hc] at h
        right; right; exact ihs h

theorem Dom.patchAt_not_mem (d : Dom) (j : Nat) (f : Attrs → Attrs)
    (h : j ∉ d.nids) : d.patchAt j f = d := by
  induction d with
  | nil => rfl
  | node n a c s ihc ihs =>
    simp only [Dom.nids, List.mem_cons, List.mem_append] at h
    push_neg at h
    obtain ⟨h1, h2, h3⟩ := h
    simp only [Dom.patchAt, if_neg (Ne.symm h1), ihc h2, ihs h3]

theorem Dom.setTextAt_not_mem (d : Dom) (j : Nat) (v : String)
    (h : j ∉ d.nids) : d.setTextAt j v = d := by
  induction d with
  | nil => rfl
  | node n a c s ihc ihs =>
    simp only [Dom.nids, List.mem_cons, List.mem_append] at h
    push_neg at h
    obtain ⟨h1, h2, h3⟩ := h
    simp only [Dom.setTextAt, if_neg (Ne.symm h1), ihc h2, ihs h3]

theorem Dom.nids_setTextAt_subset (d : Dom) (j : Nat) (v : String) :
    ∀ n ∈ (d.setTextAt j v).nids, n ∈ d.nids := by
  induction d with
  | nil => intro n hn; exact hn
  | node n0 a c s ihc ihs =>
    intro n hn
    simp only [Dom.setTextAt] at hn
    by_cases hj : n0 = j
    · rw [if_pos hj] at hn
      simp only [Dom.nids, List.mem_cons, List.mem_append] at hn ⊢
      rcases hn with hn | hn | hn
      · left; exact hn
      · exact absurd hn (by simp [Dom.nids])
      · right; right; exact ihs n hn
    · rw [if_neg hj] at hn
      simp only [Dom.nids, List.mem_cons, List.mem_append] at hn ⊢
      rcases hn with hn | hn | hn
      · left; exact hn
      · right; left; exact ihc n hn
      · right; right; exact ihs n hn

/-- Decomposition of `Nodup` over a node's identity list. -/
theorem Dom.nodup_node {n : Nat} {a : Attrs} {c s : Dom}
    (h : (Dom.node n a c s).nids.Nodup) :
    n ∉ c.nids ∧ n ∉ s.nids ∧ c.nids.Nodup ∧ s.nids.Nodup ∧
      ∀ m ∈ c.nids, m ∉ s.nids := by
  simp only [Dom.nids, List.nodup_cons, List.mem_append, List.nodup_append] at h
  obtain ⟨h1, h2, h3, h4⟩ := h
  exact ⟨fun hc => h1 (Or.inl hc), fun hs => h1 (Or.inr hs), h2, h3,
    fun m hm => h4 hm⟩

theorem Dom.findN_isSome_of_mem (d : Dom) (x : Nat) (h : x ∈ d.nids) :
    (d.findN x).isSome = true := by
  induction d with
  | nil => simp [Dom.nids] at h
  | node n a c s ihc ihs =>
    simp only [Dom.nids, List.mem_cons, List.mem_append] at h
    simp only [Dom.findN]
    by_cases hn : n = x
    · simp [hn]
    · rw [if_neg hn]
      rcases h with h | h | h
      · exact absurd h.symm hn
      · cases hc : c.findN x with
        | some p => simp
        | none =>
          have hx := ihc h
          rw [hc] at hx
          exact absurd hx (by simp)
      · cases hc : c.findN x with
        | some p => simp
        | none => simpa using ihs h

/-- `textContent` assignment at `j` does not disturb the subtree of a node
`t` when the two subtrees are disjoint (`t ≠ j`, `j` not inside `t`, `t`
not inside `j`) and node identities are unambiguous. -/
theorem Dom.findN_setTextAt_of_disjoint (d : Dom) (t j : Nat) (v : String)
    (a0 : Attrs) (c0 : Dom)
    (h : d.findN t = some (a0, c0)) (hjt : t ≠ j) (hjc : j ∉ c0.nids)
    (htj : ∀ p : Attrs × Dom, d.findN j = some p → t ∉ p.2.nids)
    (hnd : d.nids.Nodup) :
    (d.setTextAt j v).findN t = some (a0, c0) := by
  induction d with
  | nil => exact absurd h (by simp [Dom.findN])
  | node n a c s ihc ihs =>
    obtain ⟨nd1, nd2, nd3, nd4, nd5⟩ := Dom.nodup_node hnd
    by_cases hnt : n = t
    · subst hnt
      have hfind : Dom.findN (Dom.node n a c s) n = some (a, c) := by
        simp [Dom.findN]
      rw [hfind, Option.some.injEq, Prod.mk.injEq] at h
      obtain ⟨ha, hc⟩ := h
      subst ha
      subst hc
      simp only [Dom.setTextAt, if_neg (fun he => hjt he)]
      rw [Dom.setTextAt_not_mem c j v hjc]
      simp [Dom.findN]
    · by_cases hnj : n = j
      · subst hnj
        have htc : t ∉ c.nids := htj (a, c) (by simp [Dom.findN])
        simp only [Dom.findN, if_neg hnt,
          Dom.findN_eq_none_of_not_mem c t htc] at h
        simp only [Dom.setTextAt, if_pos rfl]
        rw [Dom.setTextAt_not_mem s n v nd2]
        simp only [Dom.findN, if_neg hnt]
        exact h
      · simp only [Dom.setTextAt, if_neg hnj, Dom.findN, if_neg hnt]
        simp only [Dom.findN, if_neg hnt] at h
        cases hcf : c.findN t with
        | some p =>
          rw [hcf] at h
          by_cases hjin : j ∈ c.nids
          · have hres := ihc (by rw [hcf]; exact h)
              (fun q hq => htj q (by simp only [Dom.findN, if_neg hnj, hq])) nd3
            rw [hres]
          · rw [Dom.setTextAt_not_mem c j v hjin, hcf]
            exact h
        | none =>
          rw [hcf] at h
          have hct : t ∉ c.nids := by
            intro hmem
            have hsome := Dom.findN_isSome_of_mem c t hmem
            rw [hcf] at hsome
            exact Bool.noConfusion hsome
          have hcset : (c.setTextAt j v).findN t = none :=
            Dom.findN_eq_none_of_not_mem _ t
              (fun hmem => hct (Dom.nids_setTextAt_subset c j v t hmem))
          rw [hcset]
          by_cases hjin : j ∈ c.nids
          · rw [Dom.setTextAt_not_mem s j v (fun hs => nd5 j hjin hs)]
            exact h
          · have htjs : ∀ q : Attrs × Dom, s.findN j = some q → t ∉ q.2.nids := by
              intro q hq
              apply htj q
              simp only [Dom.findN, if_neg hnj,
                Dom.findN_eq_none_of_not_mem c j hjin]
              exact hq
            exact ihs h htjs nd4

theorem Dom.findN_cat (d m : Dom) (x : Nat) :
    (d.cat m).findN x
      = match d.findN x with
        | some r => some r
        | none => m.findN x := by
  induction d with
  | nil => simp [Dom.cat, Dom.findN]
  | node n a c s ihc ihs =>
    simp only [Dom.cat, Dom.findN]
    by_cases hn : n = x
    · simp [hn]
    · rw [if_neg hn, if_neg hn]
      cases hc : c.findN x with
      | some p => simp
      | none => simpa using ihs

theorem Dom.insAfterChain_fst_of_false (c : Dom) (t : Nat) (m : Dom)
    (h : (c.insAfterChain t m).2 = false) : (c.insAfterChain t m).1 = c := by
  induction c with
  | nil => rfl
  | node n a cc ss ihc ihs =>
    simp only [Dom.insAfterChain] at h ⊢
    by_cases hn : n = t
    · simp [hn] at h
    · rw [if_neg hn] at h ⊢
      cases hcc : cc.insAfterChain t m with
      | mk cc' b =>
        cases b with
        | true => rw [hcc] at h; simp at h
        | false =>
          rw [hcc] at h
          dsimp only at h ⊢
          have h1 : cc' = cc := by
            have h2 := ihc (by rw [hcc])
            rw [hcc] at h2
            exact h2
          rw [h1, ihs h]

theorem Dom.docInsAfterAux_fst_of_false (d : Dom) (t : Nat) (m : Dom)
    (h : (docInsAfterAux d t m).2 = false) : (docInsAfterAux d t m).1 = d := by
  induction d with
  | nil => rfl
  | node n a cc ss ihc ihs =>
    simp only [docInsAfterAux] at h ⊢
    by_cases hn : n = t
    · simp [hn]
    · rw [if_neg hn] at h ⊢
      cases hcc : cc.insAfterChain t m with
      | mk cc' b =>
        cases b with
        | true => rw [hcc] at h; simp at h
        | false =>
          rw [hcc] at h
          dsimp only at h ⊢
          have h1 : cc' = cc := by
            have h2 := Dom.insAfterChain_fst_of_false cc t m (by rw [hcc])
            rw [hcc] at h2
            exact h2
          rw [h1, ihs h]

theorem Dom.insAfterChain_findN_target (c : Dom) (t : Nat) (m : Dom)
    (_hm : t ∉ m.nids) : ((c.insAfterChain t m).1).findN t = c.findN t := by
  induction c with
  | nil => rfl
  | node n a cc ss ihc ihs =>
    simp only [Dom.insAfterChain]
    by_cases hn : n = t
    · rw [if_pos hn]
      dsimp only
      simp only [Dom.findN, if_pos hn]
    · rw [if_neg hn]
      cases hcc : cc.insAfterChain t m with
      | mk cc' b =>
        cases b with
        | true =>
          dsimp only
          simp only [Dom.findN, if_neg hn]
          have h1 : cc'.findN t = cc.findN t := by
            have h2 := ihc
            rw [hcc] at h2
            exact h2
          rw [h1]
        | false =>
          dsimp only
          simp only [Dom.findN, if_neg hn]
          have h1 : cc' = cc := by
            have h2 := Dom.insAfterChain_fst_of_false cc t m (by rw [hcc])
            rw [hcc] at h2
            exact h2
          rw [h1]
          cases hcf : cc.findN t with
          | some p => rfl
          | none => exact ihs

theorem Dom.docInsAfterAux_findN_target (d : Dom) (t : Nat) (m : Dom)
    (hm : t ∉ m.nids) : ((docInsAfterAux d t m).1).findN t = d.findN t := by
  induction d with
  | nil => rfl
  | node n a cc ss ihc ihs =>
    simp only [docInsAfterAux]
    by_cases hn : n = t
    · rw [if_pos hn]
    · rw [if_neg hn]
      cases hcc : cc.insAfterChain t m with
      | mk cc' b =>
        cases b with
        | true =>
          dsimp only
          simp only [Dom.findN, if_neg hn]
          have h1 : cc'.findN t = cc.findN t := by
            have h2 := Dom.insAfterChain_findN_target cc t m hm
            rw [hcc] at h2
            exact h2
          rw [h1]
        | false =>
          dsimp only
          simp only [Dom.findN, if_neg hn]
          have h1 : cc' = cc := by
            have h2 := Dom.insAfterChain_fst_of_false cc t m (by rw [hcc])
            rw [hcc] at h2
            exact h2
          rw [h1]
          cases hcf : cc.findN t with
          | some p => rfl
          | none => exact ihs

theorem docInsAfter_findN_target (d : Dom) (t : Nat) (m : Dom)
    (hm : t ∉ m.nids) : (docInsAfter d t m).findN t = d.findN t := by
  unfold docInsAfter
  cases hx : docInsAfterAux d t m with
  | mk d' b =>
    have haux := Dom.docInsAfterAux_findN_target d t m hm
    rw [hx] at haux
    cases b with
    | true => exact haux
    | false =>
      dsimp only
      rw [Dom.findN_cat, haux]
      cases hdf : d.findN t with
      | some p => rfl
      | none => exact Dom.findN_eq_none_of_not_mem m t hm

theorem Dom.insAfterChain_snd_false_of_not_mem (c : Dom) (t : Nat) (m : Dom)
    (h : t ∉ c.nids) : (c.insAfterChain t m).2 = false := by
  induction c with
  | nil => rfl
  | node n a cc ss ihc ihs =>
    simp only [Dom.nids, List.mem_cons, List.mem_append] at h
    push_neg at h
    obtain ⟨h1, h2, h3⟩ := h
    simp only [Dom.insAfterChain, if_neg (Ne.symm h1)]
    cases hcc : cc.insAfterChain t m with
    | mk cc' b =>
      cases b with
      | true =>
        have := ihc h2
        rw [hcc] at this
        exact absurd this (by simp)
      | false =>
        dsimp only
        have := ihs h3
        exact this

theorem Dom.insAfterChain_findN_new (c : Dom) (t x : Nat) (m : Dom)
    (hsnd : (c.insAfterChain t m).2 = true) (hx : x ∉ c.nids) :
    ((c.insAfterChain t m).1).findN x = m.findN x := by
  induction c with
  | nil => simp [Dom.insAfterChain] at hsnd
  | node n a cc ss ihc ihs =>
    simp only [Dom.nids, List.mem_cons, List.mem_append] at hx
    push_neg at hx
    obtain ⟨hx1, hx2, hx3⟩ := hx
    simp only [Dom.insAfterChain] at hsnd ⊢
    by_cases hn : n = t
    · rw [if_pos hn]
      dsimp only
      simp only [Dom.findN, if_neg (Ne.symm hx1),
        Dom.findN_eq_none_of_not_mem cc x hx2]
      rw [Dom.findN_cat]
      rw [Dom.findN_eq_none_of_not_mem ss x hx3]
      cases hmf : m.findN x with
      | some p => rfl
      | none => rfl
    · rw [if_neg hn] at hsnd ⊢
      cases hcc : cc.insAfterChain t m with
      | mk cc' b =>
        cases b with
        | true =>
          dsimp only
          simp only [Dom.findN, if_neg (Ne.symm hx1)]
          have h1 : cc'.findN x = m.findN x := by
            have h2 := ihc (by rw [hcc]) hx2
            rw [hcc] at h2
            exact h2
          rw [h1, Dom.findN_eq_none_of_not_mem ss x hx3]
          cases hmf : m.findN x with
          | some p => rfl
          | none => rfl
        | false =>
          rw [hcc] at hsnd
          dsimp only at hsnd ⊢
          have h1 : cc' = cc := by
            have h2 := Dom.insAfterChain_fst_of_false cc t m (by rw [hcc])
            rw [hcc] at h2
            exact h2
          simp only [Dom.findN, if_neg (Ne.symm hx1), h1,
            Dom.findN_eq_none_of_not_mem cc x hx2]
          exact ihs hsnd hx3

theorem Dom.docInsAfterAux_findN_new (d : Dom) (t x : Nat) (m : Dom)
    (hsnd : (docInsAfterAux d t m).2 = true) (hx : x ∉ d.nids) :
    ((docInsAfterAux d t m).1).findN x = m.findN x := by
  induction d with
  | nil => simp [docInsAfterAux] at hsnd
  | node n a cc ss ihc ihs =>
    simp only [Dom.nids, List.mem_cons, List.mem_append] at hx
    push_neg at hx
    obtain ⟨hx1, hx2, hx3⟩ := hx
    simp only [docInsAfterAux] at hsnd ⊢
    by_cases hn : n = t
    · rw [if_pos hn] at hsnd
      exact absurd hsnd (by simp)
    · rw [if_neg hn] at hsnd ⊢
      cases hcc : cc.insAfterChain t m with
      | mk cc' b =>
        cases b with
        | true =>
          dsimp only
          simp only [Dom.findN, if_neg (Ne.symm hx1)]
          have h1 : cc'.findN x = m.findN x := by
            have h2 := Dom.insAfterChain_findN_new cc t x m (by rw [hcc]) hx2
            rw [hcc] at h2
            exact h2
          rw [h1, Dom.findN_eq_none_of_not_mem ss x hx3]
          cases hmf : m.findN x with
          | some p => rfl
          | none => rfl
        | false =>
          rw [hcc] at hsnd
          dsimp only at hsnd ⊢
          have h1 : cc' = cc := by
            have h2 := Dom.insAfterChain_fst_of_false cc t m (by rw [hcc])
            rw [hcc] at h2
            exact h2
          simp only [Dom.findN, if_neg (Ne.symm hx1), h1,
            Dom.findN_eq_none_of_not_mem cc x hx2]
          exact ihs hsnd hx3

theorem docInsAfter_findN_new (d : Dom) (t x : Nat) (m : Dom)
    (hx : x ∉ d.nids) : (docInsAfter d t m).findN x = m.findN x := by
  unfold docInsAfter
  cases hb : docInsAfterAux d t m with
  | mk d' b =>
    cases b with
    | true =>
      have h1 := Dom.docInsAfterAux_findN_new d t x m (by rw [hb]) hx
      rw [hb] at h1
      exact h1
    | false =>
      dsimp only
      have h1 : d' = d := by
        have h2 := Dom.docInsAfterAux_fst_of_false d t m (by rw [hb])
        rw [hb] at h2
        exact h2
      rw [h1, Dom.findN_cat, Dom.findN_eq_none_of_not_mem d x hx]

theorem Dom.nextSibNid_eq_none_of_not_mem (c : Dom) (t : Nat) (h : t ∉ c.nids) :
    c.nextSibNid t = none := by
  induction c with
  | nil => rfl
  | node n a cc ss ihc ihs =>
    simp only [Dom.nids, List.mem_cons, List.mem_append] at h
    push_neg at h
    obtain ⟨h1, h2, h3⟩ := h
    simp only [Dom.nextSibNid, if_neg (Ne.symm h1), ihc h2, ihs h3]

theorem Dom.insAfterChain_nextSib (c : Dom) (t k : Nat) (ma : Attrs) (mc : Dom)
    (hmem : t ∈ c.nids) :
    (c.insAfterChain t (Dom.node k ma mc .nil)).2 = true ∧
    ((c.insAfterChain t (Dom.node k ma mc .nil)).1).nextSibNid t
      = some (some k) := by
  induction c with
  | nil => simp [Dom.nids] at hmem
  | node n a cc ss ihc ihs =>
    simp only [Dom.insAfterChain]
    by_cases hn : n = t
    · rw [if_pos hn]
      dsimp only
      refine ⟨rfl, ?_⟩
      simp only [Dom.cat, Dom.nextSibNid, if_pos hn]
    · rw [if_neg hn]
      have hmem' : t ∈ cc.nids ∨ t ∈ ss.nids := by
        simp only [Dom.nids, List.mem_cons, List.mem_append] at hmem
        rcases hmem with hmem | hmem | hmem
        · exact absurd hmem.symm hn
        · exact Or.inl hmem
        · exact Or.inr hmem
      by_cases hc : t ∈ cc.nids
      · obtain ⟨hb, hns⟩ := ihc hc
        cases hcc : cc.insAfterChain t (Dom.node k ma mc .nil) with
        | mk cc' b =>
          rw [hcc] at hb hns
          dsimp only at hb hns
          cases b with
          | false => exact absurd hb (by simp)
          | true =>
            dsimp only
            refine ⟨rfl, ?_⟩
            simp only [Dom.nextSibNid, if_neg hn, hns]
      · have hs : t ∈ ss.nids := hmem'.resolve_left hc
        have hb := Dom.insAfterChain_snd_false_of_not_mem cc t
          (Dom.node k ma mc .nil) hc
        cases hcc : cc.insAfterChain t (Dom.node k ma mc .nil) with
        | mk cc' b =>
          rw [hcc] at hb
          dsimp only at hb
          subst hb
          dsimp only
          obtain ⟨hb2, hns2⟩ := ihs hs
          have h1 : cc' = cc := by
            have h2 := Dom.insAfterChain_fst_of_false cc t
              (Dom.node k ma mc .nil) (by rw [hcc])
            rw [hcc] at h2
            exact h2
          refine ⟨hb2, ?_⟩
          simp only [Dom.nextSibNid, if_neg hn, h1,
            Dom.nextSibNid_eq_none_of_not_mem cc t hc, hns2]

theorem docInsAfterAux_nextSib (d : Dom) (t k : Nat) (ma : Attrs) (mc : Dom)
    (hmem : t ∈ d.nids) (hroot : t ∉ d.rootNids) :
    (docInsAfterAux d t (Dom.node k ma mc .nil)).2 = true ∧
    ((docInsAfterAux d t (Dom.node k ma mc .nil)).1).nextSibNid t
      = some (some k) := by
  induction d with
  | nil => simp [Dom.nids] at hmem
  | node n a cc ss ihc ihs =>
    simp only [Dom.rootNids, List.mem_cons] at hroot
    push_neg at hroot
    obtain ⟨hr1, hr2⟩ := hroot
    simp only [docInsAfterAux, if_neg (Ne.symm hr1)]
    have hmem' : t ∈ cc.nids ∨ t ∈ ss.nids := by
      simp only [Dom.nids, List.mem_cons, List.mem_append] at hmem
      rcases hmem with hmem | hmem | hmem
      · exact absurd hmem hr1
      · exact Or.inl hmem
      · exact Or.inr hmem
    by_cases hc : t ∈ cc.nids
    · obtain ⟨hb, hns⟩ := Dom.insAfterChain_nextSib cc t k ma mc hc
      cases hcc : cc.insAfterChain t (Dom.node k ma mc .nil) with
      | mk cc' b =>
        rw [hcc] at hb hns
        dsimp only at hb hns
        cases b with
        | false => exact absurd hb (by simp)
        | true =>
          dsimp only
          refine ⟨rfl, ?_⟩
          simp only [Dom.nextSibNid, if_neg (Ne.symm hr1), hns]
    · have hs : t ∈ ss.nids := hmem'.resolve_left hc
      have hb := Dom.insAfterChain_snd_false_of_not_mem cc t
        (Dom.node k ma mc .nil) hc
      cases hcc : cc.insAfterChain t (Dom.node k ma mc .nil) with
      | mk cc' b =>
        rw [hcc] at hb
        dsimp only at hb
        subst hb
        dsimp only
        obtain ⟨hb2, hns2⟩ := ihs hs hr2
        have h1 : cc' = cc := by
          have h2 := Dom.insAfterChain_fst_of_false cc t
            (Dom.node k ma mc .nil) (by rw [hcc])
          rw [hcc] at h2
          exact h2
        refine ⟨hb2, ?_⟩
        simp only [Dom.nextSibNid, if_neg (Ne.symm hr1), h1,
          Dom.nextSibNid_eq_none_of_not_mem cc t hc, hns2]

theorem docInsAfter_nextSib (d : Dom) (t k : Nat) (ma : Attrs) (mc : Dom)
    (hmem : t ∈ d.nids) (hroot : t ∉ d.rootNids) :
    (docInsAfter d t (Dom.node k ma mc .nil)).nextSibNid t = some (some k) := by
  unfold docInsAfter
  obtain ⟨hb, hns⟩ := docInsAfterAux_nextSib d t k ma mc hmem hroot
  cases hx : docInsAfterAux d t (Dom.node k ma mc .nil) with
  | mk d' b =>
    rw [hx] at hb hns
    dsimp only at hb hns
    subst hb
    exact hns

theorem Dom.cloneFresh_node (n : Nat) (a : Attrs) (c s : Dom) (k : Nat) :
    (Dom.node n a c s).cloneFresh k
      = (Dom.node k a ((c.cloneFresh (k + 1)).1)
          ((s.cloneFresh ((c.cloneFresh (k + 1)).2)).1),
         (s.cloneFresh ((c.cloneFresh (k + 1)).2)).2) := rfl

theorem Dom.cloneFresh_snd_le (d : Dom) (k : Nat) : k ≤ (d.cloneFresh k).2 := by
  induction d generalizing k with
  | nil => exact Nat.le_refl k
  | node n a c s ihc ihs =>
    rw [Dom.cloneFresh_node]
    dsimp only
    have h1 := ihc (k + 1)
    have h2 := ihs ((c.cloneFresh (k + 1)).2)
    omega

theorem Dom.cloneFresh_nids_bounds (d : Dom) (k : Nat) :
    ∀ x ∈ ((d.cloneFresh k).1).nids, k ≤ x ∧ x < (d.cloneFresh k).2 := by
  induction d generalizing k with
  | nil => intro x hx; simp [Dom.cloneFresh, Dom.nids] at hx
  | node n a c s ihc ihs =>
    intro x hx
    rw [Dom.cloneFresh_node] at hx ⊢
    dsimp only at hx ⊢
    simp only [Dom.nids, List.mem_cons, List.mem_append] at hx
    have hc1 := Dom.cloneFresh_snd_le c (k + 1)
    have hs1 := Dom.cloneFresh_snd_le s ((c.cloneFresh (k + 1)).2)
    rcases hx with hx | hx | hx
    · subst hx
      omega
    · have := ihc (k + 1) x hx
      omega
    · have := ihs ((c.cloneFresh (k + 1)).2) x hx
      omega

theorem Dom.nids_patchAt (d : Dom) (j : Nat) (f : Attrs → Attrs) :
    (d.patchAt j f).nids = d.nids := by
  induction d with
  | nil => rfl
  | node n a c s ihc ihs => simp [Dom.patchAt, Dom.nids, ihc, ihs]

theorem Dom.nids_setTextAt_sublist (d : Dom) (j : Nat) (v : String) :
    ((d.setTextAt j v).nids).Sublist d.nids := by
  induction d with
  | nil => exact List.Sublist.refl _
  | node n a c s ihc ihs =>
    by_cases hj : n = j
    · simp only [Dom.setTextAt, if_pos hj, Dom.nids]
      refine List.Sublist.cons₂ n ?_
      rw [List.nil_append]
      exact ihs.trans (List.sublist_append_right _ _)
    · simp only [Dom.setTextAt, if_neg hj, Dom.nids]
      exact List.Sublist.cons₂ n (List.Sublist.append ihc ihs)

/-- After a `textContent` write at `j0`, any node still found in the document
was already there, with a subtree no larger than before. -/
theorem Dom.findN_setTextAt_subtree (d : Dom) (j0 j : Nat) (v : String)
    (hnd : d.nids.Nodup) (p' : Attrs × Dom)
    (h : (d.setTextAt j0 v).findN j = some p') :
    ∃ p : Attrs × Dom, d.findN j = some p ∧ ∀ y ∈ p'.2.nids, y ∈ p.2.nids := by
  induction d with
  | nil => exact absurd h (by simp [Dom.setTextAt, Dom.findN])
  | node n a c s ihc ihs =>
    obtain ⟨nd1, nd2, nd3, nd4, nd5⟩ := Dom.nodup_node hnd
    by_cases hj0 : n = j0
    · rw [show Dom.setTextAt j0 v (Dom.node n a c s)
          = Dom.node n { a with text := v } Dom.nil (s.setTextAt j0 v) from by
        simp [Dom.setTextAt, hj0]] at h
      rw [Dom.setTextAt_not_mem s j0 v (hj0 ▸ nd2)] at h
      by_cases hnj : n = j
      · simp only [Dom.findN, if_pos hnj] at h ⊢
        rw [Option.some.injEq] at h
        refine ⟨(a, c), rfl, ?_⟩
        intro y hy
        rw [← h] at hy
        simp [Dom.nids] at hy
      · simp only [Dom.findN, if_neg hnj] at h ⊢
        have hjs : j ∈ s.nids := by
          rcases hsf : s.findN j with _ | q
          · rw [hsf] at h; exact Option.noConfusion h
          · exact Dom.mem_of_findN_eq_some s j q hsf
        rw [Dom.findN_eq_none_of_not_mem c j (fun hc => nd5 j hc hjs)]
        exact ⟨p', h, fun y hy => hy⟩
    · rw [show Dom.setTextAt j0 v (Dom.node n a c s)
          = Dom.node n a (c.setTextAt j0 v) (s.setTextAt j0 v) from by
        simp [Dom.setTextAt, hj0]] at h
      by_cases hnj : n = j
      · simp only [Dom.findN, if_pos hnj] at h ⊢
        rw [Option.some.injEq] at h
        refine ⟨(a, c), rfl, ?_⟩
        intro y hy
        rw [← h] at hy
        exact (Dom.nids_setTextAt_sublist c j0 v).mem hy
      · simp only [Dom.findN, if_neg hnj] at h ⊢
        cases hcf : (c.setTextAt j0 v).findN j with
        | some q' =>
          rw [hcf, Option.some.injEq] at h
          subst h
          obtain ⟨q, hq1, hq2⟩ := ihc nd3 (by rw [hcf])
          rw [hq1]
          exact ⟨q, rfl, hq2⟩
        | none =>
          rw [hcf] at h
          have hjs : j ∈ s.nids := by
            have hmem := Dom.mem_of_findN_eq_some _ j p' h
            exact (Dom.nids_setTextAt_sublist s j0 v).mem hmem
          rw [Dom.findN_eq_none_of_not_mem c j (fun hc => nd5 j hc hjs)]
          exact ihs nd4 h

theorem Dom.nids_cat (d m : Dom) : (d.cat m).nids = d.nids ++ m.nids := by
  induction d with
  | nil => simp [Dom.cat, Dom.nids]
  | node n a c s ihc ihs =>
    simp [Dom.cat, Dom.nids, ihs, List.append_assoc]

theorem Dom.nids_insAfterChain_perm (c : Dom) (t : Nat) (m : Dom)
    (h : (c.insAfterChain t m).2 = true) :
    ((c.insAfterChain t m).1).nids.Perm (c.nids ++ m.nids) := by
  induction c with
  | nil => simp [Dom.insAfterChain] at h
  | node n a cc ss ihc ihs =>
    simp only [Dom.insAfterChain] at h ⊢
    by_cases hn : n = t
    · rw [if_pos hn]
      dsimp only
      simp only [Dom.nids, Dom.nids_cat]
      refine List.Perm.cons n ?_
      have hp : (cc.nids ++ (m.nids ++ ss.nids)).Perm
          (cc.nids ++ (ss.nids ++ m.nids)) :=
        List.Perm.append_left _ List.perm_append_comm
      have he : cc.nids ++ (ss.nids ++ m.nids) = cc.nids ++ ss.nids ++ m.nids :=
        (List.append_assoc _ _ _).symm
      rw [List.append_eq]
      exact he ▸ hp
    · rw [if_neg hn] at h ⊢
      cases hcc : cc.insAfterChain t m with
      | mk cc' b =>
        cases b with
        | true =>
          dsimp only
          simp only [Dom.nids]
          have h1 : cc'.nids.Perm (cc.nids ++ m.nids) := by
            have h2 := ihc (by rw [hcc])
            rw [hcc] at h2
            exact h2
          refine List.Perm.cons n ?_
          have hp1 : (cc'.nids ++ ss.nids).Perm ((cc.nids ++ m.nids) ++ ss.nids) :=
            h1.append_right _
          have hp2 : ((cc.nids ++ m.nids) ++ ss.nids).Perm
              (cc.nids ++ ss.nids ++ m.nids) := by
            rw [List.append_assoc, List.append_assoc]
            exact List.Perm.append_left _ List.perm_append_comm
          exact hp1.trans hp2
        | false =>
          rw [hcc] at h
          dsimp only at h ⊢
          have h1 : cc' = cc := by
            have h2 := Dom.insAfterChain_fst_of_false cc t m (by rw [hcc])
            rw [hcc] at h2
            exact h2
          subst h1
          simp only [Dom.nids]
          have h2 := ihs h
          refine List.Perm.cons n ?_
          have hp : (cc'.nids ++ ((ss.insAfterChain t m).1).nids).Perm
              (cc'.nids ++ (ss.nids ++ m.nids)) :=
            List.Perm.append_left _ h2
          have he : cc'.nids ++ (ss.nids ++ m.nids)
              = cc'.nids ++ ss.nids ++ m.nids :=
            (List.append_assoc _ _ _).symm
          rw [List.append_eq]
          exact he ▸ hp

theorem docInsAfterAux_nids_perm (d : Dom) (t : Nat) (m : Dom)
    (h : (docInsAfterAux d t m).2 = true) :
    ((docInsAfterAux d t m).1).nids.Perm (d.nids ++ m.nids) := by
  induction d with
  | nil => simp [docInsAfterAux] at h
  | node n a cc ss ihc ihs =>
    simp only [docInsAfterAux] at h ⊢
    by_cases hn : n = t
    · rw [if_pos hn] at h
      exact absurd h (by simp)
    · rw [if_neg hn] at h ⊢
      cases hcc : cc.insAfterChain t m with
      | mk cc' b =>
        cases b with
        | true =>
          dsimp only
          simp only [Dom.nids]
          have h1 : cc'.nids.Perm (cc.nids ++ m.nids) := by
            have h2 := Dom.nids_insAfterChain_perm cc t m (by rw [hcc])
            rw [hcc] at h2
            exact h2
          refine List.Perm.cons n ?_
          have hp1 : (cc'.nids ++ ss.nids).Perm ((cc.nids ++ m.nids) ++ ss.nids) :=
            h1.append_right _
          have hp2 : ((cc.nids ++ m.nids) ++ ss.nids).Perm
              (cc.nids ++ ss.nids ++ m.nids) := by
            rw [List.append_assoc, List.append_assoc]
            exact List.Perm.append_left _ List.perm_append_comm
          exact hp1.trans hp2
        | false =>
          rw [hcc] at h
          dsimp only at h ⊢
          have h1 : cc' = cc := by
            have h2 := Dom.insAfterChain_fst_of_false cc t m (by rw [hcc])
            rw [hcc] at h2
            exact h2
          subst h1
          simp only [Dom.nids]
          have h2 := ihs h
          refine List.Perm.cons n ?_
          have hp : (cc'.nids ++ ((docInsAfterAux ss t m).1).nids).Perm
              (cc'.nids ++ (ss.nids ++ m.nids)) :=
            List.Perm.append_left _ h2
          have he : cc'.nids ++ (ss.nids ++ m.nids)
              = cc'.nids ++ ss.nids ++ m.nids :=
            (List.append_assoc _ _ _).symm
          rw [List.append_eq]
          exact he ▸ hp

theorem docInsAfter_nids_perm (d : Dom) (t : Nat) (m : Dom) :
    (docInsAfter d t m).nids.Perm (d.nids ++ m.nids) := by
  unfold docInsAfter
  cases hx : docInsAfterAux d t m with
  | mk d' b =>
    cases b with
    | true =>
      have h1 := docInsAfterAux_nids_perm d t m (by rw [hx])
      rw [hx] at h1
      exact h1
    | false =>
      dsimp only
      have h1 : d' = d := by
        have h2 := Dom.docInsAfterAux_fst_of_false d t m (by rw [hx])
        rw [hx] at h2
        exact h2
      subst h1
      rw [Dom.nids_cat]

theorem Dom.cloneFresh_nodup (d : Dom) (k : Nat) :
    ((d.cloneFresh k).1).nids.Nodup := by
  induction d generalizing k with
  | nil => simp [Dom.cloneFresh, Dom.nids]
  | node n a c s ihc ihs =>
    rw [Dom.cloneFresh_node]
    dsimp only
    simp only [Dom.nids, List.nodup_cons, List.mem_append, List.nodup_append]
    have hcb := Dom.cloneFresh_nids_bounds c (k + 1)
    have hsb := Dom.cloneFresh_nids_bounds s ((c.cloneFresh (k + 1)).2)
    have hc1 := Dom.cloneFresh_snd_le c (k + 1)
    refine ⟨?_, ihc (k + 1), ihs _, ?_⟩
    · rintro (hk | hk)
      · have := (hcb k hk).1
        omega
      · have := (hsb k hk).1
        omega
    · intro x hx hy
      have h1 := (hcb x hx).2
      have h2 := (hsb x hy).1
      omega

theorem Dom.cloneFresh_toTemplate (d : Dom) (k : Nat) :
    ((d.cloneFresh k).1).toTemplate = d.toTemplate := by
  induction d generalizing k with
  | nil => rfl
  | node n a c s ihc ihs =>
    rw [Dom.cloneFresh_node]
    dsimp only
    simp only [Dom.toTemplate, ihc, ihs]

/-! ## Structure-preservation lemmas for attribute patches -/

theorem Dom.findN_patchAt (d : Dom) (t : Nat) (f : Attrs → Attrs) (x : Nat) :
    (d.patchAt t f).findN x
      = (d.findN x).map (fun p => (if x = t then f p.1 else p.1, p.2.patchAt t f)) := by
  induction d with
  | nil => rfl
  | node n a c s ihc ihs =>
    by_cases hn : n = x
    · subst hn
      simp only [Dom.patchAt, Dom.findN, if_pos rfl]
      by_cases ht : n = t
      · simp [ht]
      · simp [ht]
    · simp only [Dom.patchAt, Dom.findN, if_neg hn]
      cases hc : c.findN x with
      | some p => simp [ihc, hc]
      | none => simp [ihc, ihs, hc]

theorem Dom.patchAt_patchAt (d : Dom) (t : Nat) (f g : Attrs → Attrs) :
    (d.patchAt t f).patchAt t g = d.patchAt t (fun a => g (f a)) := by
  induction d with
  | nil => rfl
  | node n a c s ihc ihs =>
    by_cases hn : n = t <;> simp [Dom.patchAt, hn, ihc, ihs]

theorem Dom.qTag_patchAt (d : Dom) (t : Nat) (f : Attrs → Attrs)
    (hf : ∀ a, (f a).tag = a.tag) (tg : String) :
    (d.patchAt t f).qTag tg = d.qTag tg := by
  induction d with
  | nil => rfl
  | node n a c s ihc ihs =>
    simp only [Dom.patchAt, Dom.qTag]
    by_cases hn : n = t
    · rw [if_pos hn, hf a]
      by_cases htag : a.tag = tg
      · simp [htag]
      · simp [htag, ihc, ihs]
    · rw [if_neg hn]
      by_cases htag : a.tag = tg
      · simp [htag]
      · simp [htag, ihc, ihs]

theorem Dom.findN_patchAt_preserved (d : Dom) (t j : Nat) (f : Attrs → Attrs)
    (a0 : Attrs) (c0 : Dom) (h : d.findN t = some (a0, c0)) (hjt : t ≠ j)
    (hjc : j ∉ c0.nids) : (d.patchAt j f).findN t = some (a0, c0) := by
  rw [Dom.findN_patchAt, h]
  simp only [Option.map, if_neg hjt]
  rw [Dom.patchAt_not_mem c0 j f hjc]

theorem applyLayout_tag (a : Attrs) (l : ILayout) : (applyLayout a l).tag = a.tag := by
  cases l <;> simp [applyLayout, addClass, removeClasses] <;> split <;> rfl

theorem mem_of_contains_filter_not {xs L : List String} {c : String} (h : c ∈ L) :
    (xs.filter (fun x => !L.contains x)).contains c = false := by
  simp [List.mem_filter, h]

theorem filter_not_idem (xs : List String) :
    (xs.filter (fun x => !layoutClassNames.contains x)).filter
        (fun x => !layoutClassNames.contains x)
      = xs.filter (fun x => !layoutClassNames.contains x) := by
  rw [List.filter_filter]
  exact List.filter_congr fun x _ => Bool.and_self _

theorem filter_not_self_append (xs : List String) (c : String)
    (h : c ∈ layoutClassNames) :
    ((xs.filter (fun x => !layoutClassNames.contains x)) ++ [c]).filter
        (fun x => !layoutClassNames.contains x)
      = xs.filter (fun x => !layoutClassNames.contains x) := by
  rw [List.filter_append]
  have h1 : List.filter (fun x => !layoutClassNames.contains x) [c] = [] := by
    simp [h]
  rw [h1, List.append_nil]
  exact filter_not_idem xs

theorem setMargin_remAuto (st : Style) :
    Style.setMargin st "1rem auto" =
      { st with marginTop := "1rem", marginRight := "auto",
                marginBottom := "1rem", marginLeft := "auto" } := by
  unfold Style.setMargin
  rw [show splitSp "1rem auto".data [] = ["1rem", "auto"] from by decide]

theorem applyLayout_floatLeft_eq (a : Attrs) :
    applyLayout a .floatLeft =
      { a with
        classes := a.classes.filter (fun x => !layoutClassNames.contains x)
          ++ ["float-left"],
        style := { a.style with
                   float := "left", marginRight := "1rem",
                   marginBottom := "0.5rem" } } := by
  have hx : ((a.classes.filter (fun x => !layoutClassNames.contains x)).contains
      "float-left") = false :=
    mem_of_contains_filter_not (by decide)
  have hm : "float-left" ∈ layoutClassNames := by decide
  simp [applyLayout, addClass, removeClasses, ILayout.str, hx, hm]

theorem applyLayout_floatRight_eq (a : Attrs) :
    applyLayout a .floatRight =
      { a with
        classes := a.classes.filter (fun x => !layoutClassNames.contains x)
          ++ ["float-right"],
        style := { a.style with
                   float := "right", marginLeft := "1rem",
                   marginBottom := "0.5rem" } } := by
  have hx : ((a.classes.filter (fun x => !layoutClassNames.contains x)).contains
      "float-right") = false :=
    mem_of_contains_filter_not (by decide)
  have hm : "float-right" ∈ layoutClassNames := by decide
  simp [applyLayout, addClass, removeClasses, ILayout.str, hx, hm]

theorem applyLayout_center_eq (a : Attrs) :
    applyLayout a .center =
      { a with
        classes := a.classes.filter (fun x => !layoutClassNames.contains x)
          ++ ["center"],
        style := { a.style with
                   float := "", display := "block",
                   marginTop := "1rem", marginRight := "auto",
                   marginBottom := "1rem", marginLeft := "auto" } } := by
  have hx : ((a.classes.filter (fun x => !layoutClassNames.contains x)).contains
      "center") = false :=
    mem_of_contains_filter_not (by decide)
  have hm : "center" ∈ layoutClassNames := by decide
  simp [applyLayout, addClass, removeClasses, ILayout.str, hx, hm, setMargin_remAuto]

theorem applyLayout_inline_eq (a : Attrs) :
    applyLayout a .inline =
      { a with
        classes := a.classes.filter (fun x => !layoutClassNames.contains x),
        style := { a.style with float := "", display := "" } } := by
  simp [applyLayout, removeClasses]

theorem applyLayout_figure_eq (a : Attrs) :
    applyLayout a .figure =
      { a with
        classes := a.classes.filter (fun x => !layoutClassNames.contains x),
        style := { a.style with float := "", display := "" } } := by
  simp [applyLayout, removeClasses]

theorem applyLayout_idem (a : Attrs) (l : ILayout) :
    applyLayout (applyLayout a l) l = applyLayout a l := by
  cases l
  case inline =>
    rw [applyLayout_inline_eq, applyLayout_inline_eq]
    simp [filter_not_idem]
  case figure =>
    rw [applyLayout_figure_eq, applyLayout_figure_eq]
    simp [filter_not_idem]
  case floatLeft =>
    have hm : "float-left" ∈ layoutClassNames := by decide
    have key := filter_not_self_append a.classes "float-left" hm
    rw [applyLayout_floatLeft_eq, applyLayout_floatLeft_eq]
    simp [key, hm]
  case floatRight =>
    have hm : "float-right" ∈ layoutClassNames := by decide
    have key := filter_not_self_append a.classes "float-right" hm
    rw [applyLayout_floatRight_eq, applyLayout_floatRight_eq]
    simp [key, hm]
  case center =>
    have hm : "center" ∈ layoutClassNames := by decide
    have key := filter_not_self_append a.classes "center" hm
    rw [applyLayout_center_eq, applyLayout_center_eq]
    simp [key, hm]

/-- What a pure-layout `updateImage` call does, given the registry lookup and
the patch-target resolution: it succeeds, patches exactly the target node
with `applyLayout`, stores the merged record, and the target resolves to the
same node afterwards. -/
theorem updateImage_layout_shape (s : MState) (id : String) (l : ILayout)
    (comp : ComponentData) (i : Nat)
    (hm : mapGet s.components id = some comp)
    (ht : imgTargetOf s.doc comp = some i) :
    (updateImage s id { layout := some l }).1 = true ∧
    (updateImage s id { layout := some l }).2.doc
      = s.doc.patchAt i (fun a => applyLayout a l) ∧
    mapGet (updateImage s id { layout := some l }).2.components id
      = some { comp with
          props := mergeProps comp.props (ImgUpd.toProps { layout := some l }) } ∧
    imgTargetOf (updateImage s id { layout := some l }).2.doc
      { comp with
        props := mergeProps comp.props (ImgUpd.toProps { layout := some l }) }
      = some i := by
  have htag : ∀ a : Attrs, (applyLayout a l).tag = a.tag :=
    fun a => applyLayout_tag a l
  refine ⟨by simp only [updateImage, hm, ht], ?_, ?_, ?_⟩
  · simp only [updateImage, hm, ht, notify_doc, syncContent_doc]
  · simp only [updateImage, hm, ht, notify_components, syncContent_components]
    exact mapGet_mapSet_self _ _ _
  · have h2 : (updateImage s id { layout := some l }).2.doc
        = s.doc.patchAt i (fun a => applyLayout a l) := by
      simp only [updateImage, hm, ht, notify_doc, syncContent_doc]
    rw [h2]
    cases hty : comp.ctype
    case image => simpa [imgTargetOf, hty] using ht
    all_goals
  { simp only [imgTargetOf, hty] at ht ⊢
    cases hel : comp.element with
    | none => rw [hel] at ht; simp at ht
    | some t =>
      rw [hel] at ht
      simp only [Option.bind] at ht ⊢
      cases hf : s.doc.findN t with
      | none => rw [hf] at ht; simp at ht
      | some p =>
        rw [hf] at ht
        simp only [Option.bind] at ht
        rw [Dom.findN_patchAt, hf]
        simp only [Option.map, Option.bind]
        rw [Dom.qTag_patchAt _ _ _ htag]
        exact ht }

theorem applyLayout_comp_classes (a : Attrs) (l1 l2 : ILayout) :
    (applyLayout (applyLayout a l1) l2).classes = (applyLayout a l2).classes := by
  have k0 := filter_not_idem a.classes
  have k1 := filter_not_self_append a.classes "float-left" (by decide)
  have k2 := filter_not_self_append a.classes "float-right" (by decide)
  have k3 := filter_not_self_append a.classes "center" (by decide)
  have m1 : "float-left" ∈ layoutClassNames := by decide
  have m2 : "float-right" ∈ layoutClassNames := by decide
  have m3 : "center" ∈ layoutClassNames := by decide
  cases l1 <;> cases l2 <;>
    simp [applyLayout_floatLeft_eq, applyLayout_floatRight_eq,
      applyLayout_center_eq, applyLayout_inline_eq, applyLayout_figure_eq,
      k0, k1, k2, k3, m1, m2, m3]

theorem applyLayout_comp_float (a : Attrs) (l1 l2 : ILayout) :
    (applyLayout (applyLayout a l1) l2).style.float
      = (applyLayout a l2).style.float := by
  cases l2 <;>
    simp [applyLayout_floatLeft_eq, applyLayout_floatRight_eq,
      applyLayout_center_eq, applyLayout_inline_eq, applyLayout_figure_eq]

theorem applyLayout_comp_center (a : Attrs) (l1 : ILayout) :
    applyLayout (applyLayout a l1) .center = applyLayout a .center := by
  have k0 := filter_not_idem a.classes
  have k1 := filter_not_self_append a.classes "float-left" (by decide)
  have k2 := filter_not_self_append a.classes "float-right" (by decide)
  have k3 := filter_not_self_append a.classes "center" (by decide)
  have m1 : "float-left" ∈ layoutClassNames := by decide
  have m2 : "float-right" ∈ layoutClassNames := by decide
  have m3 : "center" ∈ layoutClassNames := by decide
  cases l1 <;>
    simp [applyLayout_floatLeft_eq, applyLayout_floatRight_eq,
      applyLayout_center_eq, applyLayout_inline_eq, applyLayout_figure_eq,
      k0, k1, k2, k3, m1, m2, m3]

/-! ## Claim C4 -/

/-- C4 counterexample: on a tracked bare image, applying layout `center` and
then layout `float-left` does not match applying `float-left` alone — the
patch does not clear the `display` and margin inline styles before the float
branches, so `display: block` and `margin-left: auto` survive from the
`center` patch.  This refutes the claim that the patch first clears prior
float, display and margin inline styles. -/
theorem layout_reset_counterexample :
    (attrsAt ((updateImage (updateImage sImg "cmp-0-r0"
            { layout := some .center }).2 "cmp-0-r0"
          { layout := some .floatLeft }).2.doc) 1).map
        (fun a => (a.style.display, a.style.marginLeft))
      = some ("block", "auto") ∧
    (attrsAt ((updateImage sImg "cmp-0-r0"
          { layout := some .floatLeft }).2.doc) 1).map
        (fun a => (a.style.display, a.style.marginLeft))
      = some ("", "") ∧
    ("block", "auto") ≠ ("", "") :=
  ⟨by decide, by decide, by decide⟩

/-- C4 amended: for every tracked image component, applying layout `l1` and
then layout `l2` leaves the patched element's layout classes and `float`
inline style identical to applying `l2` alone; the full claim — `display`
and margins too — holds when `l2` is `center`, whose branch overwrites both.
The patch clears prior layout classes, but it does not clear the `display`
or margin inline styles before the `float-left`, `float-right`, `inline`
and `figure` branches, so those may retain values from `l1`. -/
theorem layout_patch_partial_reset (s : MState) (id : String) (l1 l2 : ILayout)
    (comp : ComponentData) (i : Nat)
    (hm : mapGet s.components id = some comp)
    (ht : imgTargetOf s.doc comp = some i) :
    ∀ a2 ad,
      attrsAt ((updateImage (updateImage s id { layout := some l1 }).2 id
          { layout := some l2 }).2.doc) i = some a2 →
      attrsAt ((updateImage s id { layout := some l2 }).2.doc) i = some ad →
      a2.classes = ad.classes ∧ a2.style.float = ad.style.float ∧
      (l2 = .center → a2 = ad) := by
  obtain ⟨hs1, hd1, hm2, ht2⟩ := updateImage_layout_shape s id l1 comp i hm ht
  obtain ⟨hs2, hd2, hmx, htx⟩ := updateImage_layout_shape _ id l2 _ i hm2 ht2
  obtain ⟨hsd, hdd, hmy, hty⟩ := updateImage_layout_shape s id l2 comp i hm ht
  intro a2 ad h2 hdct
  rw [hd2, hd1, Dom.patchAt_patchAt] at h2
  rw [hdd] at hdct
  unfold attrsAt at h2 hdct
  rw [Dom.findN_patchAt] at h2 hdct
  cases hf : s.doc.findN i with
  | none =>
    rw [hf] at hdct
    simp at hdct
  | some p =>
    rw [hf] at h2 hdct
    simp only [Option.map, if_pos rfl] at h2 hdct
    have ha2 : a2 = applyLayout (applyLayout p.1 l1) l2 := by
      simpa using h2.symm
    have had : ad = applyLayout p.1 l2 := by
      simpa using hdct.symm
    subst ha2
    subst had
    exact ⟨applyLayout_comp_classes p.1 l1 l2, applyLayout_comp_float p.1 l1 l2,
      fun hc => by subst hc; exact applyLayout_comp_center p.1 l1⟩

/-- Witness for C4 (amended) on the tracked bare image, with the sequence
`center` then `float-left` against `float-left` alone, stated at the concrete
patched attributes. -/
theorem layout_patch_partial_reset_witness :
    ((attrsAt ((updateImage (updateImage sImg "cmp-0-r0"
        { layout := some ILayout.center }).2 "cmp-0-r0"
        { layout := some ILayout.floatLeft }).2.doc) 1).get
          (by decide)).classes =
      ((attrsAt ((updateImage sImg "cmp-0-r0"
        { layout := some ILayout.floatLeft }).2.doc) 1).get
          (by decide)).classes ∧
    ((attrsAt ((updateImage (updateImage sImg "cmp-0-r0"
        { layout := some ILayout.center }).2 "cmp-0-r0"
        { layout := some ILayout.floatLeft }).2.doc) 1).get
          (by decide)).style.float =
      ((attrsAt ((updateImage sImg "cmp-0-r0"
        { layout := some ILayout.floatLeft }).2.doc) 1).get
          (by decide)).style.float ∧
    (ILayout.floatLeft = ILayout.center →
      (attrsAt ((updateImage (updateImage sImg "cmp-0-r0"
        { layout := some ILayout.center }).2 "cmp-0-r0"
        { layout := some ILayout.floatLeft }).2.doc) 1).get (by decide) =
      (attrsAt ((updateImage sImg "cmp-0-r0"
        { layout := some ILayout.floatLeft }).2.doc) 1).get (by decide)) :=
  layout_patch_partial_reset sImg "cmp-0-r0" .center .floatLeft
    ((sImg.components.find? (fun kv => kv.1 = "cmp-0-r0")).get (by decide)).2 1
    (by decide) (by decide)
    ((attrsAt ((updateImage (updateImage sImg "cmp-0-r0"
        { layout := some ILayout.center }).2 "cmp-0-r0"
        { layout := some ILayout.floatLeft }).2.doc) 1).get (by decide))
    ((attrsAt ((updateImage sImg "cmp-0-r0"
        { layout := some ILayout.floatLeft }).2.doc) 1).get (by decide))
    (Option.some_get (by decide)).symm (Option.some_get (by decide)).symm

/-! ## Claim C5 -/

/-- C5: for every tracked image component and every layout value, calling
`updateImage(id, {layout})` twice in a row yields identical DOM state after
the first and the second call — the layout patch is idempotent, with no
style or class accumulation (stated as equality of the whole document
forest, which covers the patched element's classes and inline styles). -/
theorem updateImage_layout_idempotent (s : MState) (id : String) (l : ILayout)
    (h : (updateImage s id { layout := some l }).1 = true) :
    ((updateImage (updateImage s id { layout := some l }).2 id
        { layout := some l }).2).doc
      = ((updateImage s id { layout := some l }).2).doc := by
  cases hm : mapGet s.components id with
  | none => simp [updateImage, hm] at h
  | some comp =>
    cases ht : imgTargetOf s.doc comp with
    | none => simp [updateImage, hm, ht] at h
    | some i =>
      have htag : ∀ a : Attrs, (applyLayout a l).tag = a.tag :=
        fun a => applyLayout_tag a l
      have h1 : (updateImage s id { layout := some l }).2.components
          = mapSet s.components id
              { comp with
                props := mergeProps comp.props (ImgUpd.toProps { layout := some l }) }
            := by
        simp only [updateImage, hm, ht, notify_components, syncContent_components]
      have h2 : (updateImage s id { layout := some l }).2.doc
          = s.doc.patchAt i (fun a => applyLayout a l) := by
        simp only [updateImage, hm, ht, notify_doc, syncContent_doc]
      have hm2 : mapGet (updateImage s id { layout := some l }).2.components id
          = some { comp with
              props := mergeProps comp.props (ImgUpd.toProps { layout := some l }) }
          := by
        rw [h1]
        exact mapGet_mapSet_self _ _ _
      have ht2 : imgTargetOf (updateImage s id { layout := some l }).2.doc
          { comp with
            props := mergeProps comp.props (ImgUpd.toProps { layout := some l }) }
          = some i := by
        rw [h2]
        cases hty : comp.ctype
        case image => simpa [imgTargetOf, hty] using ht
        all_goals
      { simp only [imgTargetOf, hty] at ht ⊢
        cases hel : comp.element with
        | none => rw [hel] at ht; simp at ht
        | some t =>
          rw [hel] at ht
          simp only [Option.bind] at ht ⊢
          cases hf : s.doc.findN t with
          | none => rw [hf] at ht; simp at ht
          | some p =>
            rw [hf] at ht
            simp only [Option.bind] at ht
            rw [Dom.findN_patchAt, hf]
            simp only [Option.map, Option.bind]
            rw [Dom.qTag_patchAt _ _ _ htag]
            exact ht }
      generalize hS : (updateImage s id { layout := some l }).2 = S1 at h2 hm2 ht2 ⊢
      simp only [updateImage, hm2, ht2, notify_doc, syncContent_doc]
      rw [h2, Dom.patchAt_patchAt]
      simp only [applyLayout_idem]

/-! ## Claim C8 -/

/-- C8 counterexample: the image element inserted by
`insertImage('https://x/img.png', 'cat', {layout: 'center'})` into an empty
editable root has `display: block` but empty inline margins — not the
claimed centered (auto horizontal) margins.  Horizontal centering is left to
the stylesheet rule for the `center` class; `insertImage` never runs the
`center` margin patch of `updateImage`. -/
theorem insertImage_center_margins_counterexample :
    (attrsAt ((insertImage sEmpty "https://x/img.png" "cat"
          { layout := some .center }).2.doc) 2).map
        (fun a => (a.style.display, a.style.marginLeft, a.style.marginRight))
      = some ("block", "", "") ∧
    ("" : String) ≠ "auto" :=
  ⟨by decide, by decide⟩

set_option maxRecDepth 8192 in
/-- C8 amended: on an initialized empty editable root,
`insertImage('https://x/img.png', 'cat', {layout: 'center'})` returns a
fresh non-empty id; the record's properties equal
`{src, alt: 'cat', width: '100%', layout: 'center'}`; the inserted image
element has `display: block` and carries the `center` class (auto margins
are not set inline); the editable root holds the wrapper followed by an
empty paragraph, and the output field holds exactly that serialized
markup. -/
theorem insertImage_end_to_end :
    (insertImage sEmpty "https://x/img.png" "cat" { layout := some .center }).1
      = "cmp-0-r0" ∧
    ("cmp-0-r0" : String) ≠ "" ∧
    (getComponent (insertImage sEmpty "https://x/img.png" "cat"
          { layout := some .center }).2 "cmp-0-r0").map (fun c => c.props)
      = some [("src", .s "https://x/img.png"), ("alt", .s "cat"),
              ("width", .s "100%"), ("layout", .s "center")] ∧
    (insertImage sEmpty "https://x/img.png" "cat"
        { layout := some .center }).2.doc = c8ExpectedDoc ∧
    (attrsAt ((insertImage sEmpty "https://x/img.png" "cat"
          { layout := some .center }).2.doc) 2).map
        (fun a => (a.style.display, a.classes.contains "center"))
      = some ("block", true) ∧
    (insertImage sEmpty "https://x/img.png" "cat"
        { layout := some .center }).2.contentInput
      = some (innerHTMLOf c8ExpectedDoc 0) :=
  ⟨by decide, by decide, by decide, by decide, by decide, by decide⟩

theorem UpdInv_patchAt (d : Dom) (t : Nat) (a0 : Attrs) (c0 : Dom) (K j : Nat)
    (f : Attrs → Attrs) (hinv : UpdInv d t a0 c0 K)
    (ht : t < K + 1) (hc0 : ∀ y ∈ c0.nids, y < K + 1) (hj : K + 1 ≤ j) :
    UpdInv (d.patchAt j f) t a0 c0 K := by
  obtain ⟨h1, h2, h3⟩ := hinv
  refine ⟨?_, ?_, ?_⟩
  · exact Dom.findN_patchAt_preserved d t j f a0 c0 h1 (by omega)
      (fun hy => by have := hc0 j hy; omega)
  · rw [Dom.nids_patchAt]; exact h2
  · intro j' hj' p hp y hy
    rw [Dom.findN_patchAt] at hp
    cases hfind : d.findN j' with
    | none => rw [hfind] at hp; exact Option.noConfusion hp
    | some q =>
      rw [hfind] at hp
      simp only [Option.map] at hp
      rw [Option.some.injEq] at hp
      subst hp
      have hy2 : y ∈ (q.2.patchAt j f).nids := hy
      rw [Dom.nids_patchAt] at hy2
      exact h3 j' hj' q hfind y hy2

theorem UpdInv_setTextAt (d : Dom) (t : Nat) (a0 : Attrs) (c0 : Dom) (K j : Nat)
    (v : String) (hinv : UpdInv d t a0 c0 K)
    (ht : t < K + 1) (hc0 : ∀ y ∈ c0.nids, y < K + 1) (hj : K + 1 ≤ j) :
    UpdInv (d.setTextAt j v) t a0 c0 K := by
  obtain ⟨h1, h2, h3⟩ := hinv
  refine ⟨?_, ?_, ?_⟩
  · refine Dom.findN_setTextAt_of_disjoint d t j v a0 c0 h1 (by omega)
      (fun hy => by have := hc0 j hy; omega) ?_ h2
    intro p hp hty
    have := h3 j hj p hp t hty
    omega
  · exact (Dom.nids_setTextAt_sublist d j v).nodup h2
  · intro j' hj' p' hp' y hy
    obtain ⟨p, hp, hsub⟩ := Dom.findN_setTextAt_subtree d j j' v h2 p' hp'
    exact h3 j' hj' p hp y (hsub y hy)

theorem UpdInv_guardSrc (d : Dom) (t : Nat) (a0 : Attrs) (c0 : Dom) (K : Nat)
    (o : Option Nat) (w : Option PVal)
    (hinv : UpdInv d t a0 c0 K) (ht : t < K + 1)
    (hc0 : ∀ y ∈ c0.nids, y < K + 1)
    (ho : ∀ i, o = some i → K + 1 ≤ i) :
    UpdInv (guardSrc d o w) t a0 c0 K := by
  rcases o with _ | i
  · exact hinv
  · rcases w with _ | v
    · exact hinv
    · simp only [guardSrc]
      by_cases hv : v.truthy = true
      · rw [if_pos hv]
        simp only [setSrcAt]
        exact UpdInv_patchAt d t a0 c0 K i _ hinv ht hc0 (ho i rfl)
      · rw [if_neg hv]
        exact hinv

theorem UpdInv_guardAlt (d : Dom) (t : Nat) (a0 : Attrs) (c0 : Dom) (K : Nat)
    (o : Option Nat) (w : Option PVal)
    (hinv : UpdInv d t a0 c0 K) (ht : t < K + 1)
    (hc0 : ∀ y ∈ c0.nids, y < K + 1)
    (ho : ∀ i, o = some i → K + 1 ≤ i) :
    UpdInv (guardAlt d o w) t a0 c0 K := by
  rcases o with _ | i
  · exact hinv
  · rcases w with _ | v
    · exact hinv
    · simp only [guardAlt]
      by_cases hv : v.truthy = true
      · rw [if_pos hv]
        simp only [setAltAt]
        exact UpdInv_patchAt d t a0 c0 K i _ hinv ht hc0 (ho i rfl)
      · rw [if_neg hv]
        exact hinv

theorem UpdInv_guardText (d : Dom) (t : Nat) (a0 : Attrs) (c0 : Dom) (K : Nat)
    (o : Option Nat) (w : Option PVal)
    (hinv : UpdInv d t a0 c0 K) (ht : t < K + 1)
    (hc0 : ∀ y ∈ c0.nids, y < K + 1)
    (ho : ∀ i, o = some i → K + 1 ≤ i) :
    UpdInv (guardText d o w) t a0 c0 K := by
  rcases o with _ | i
  · exact hinv
  · rcases w with _ | v
    · exact hinv
    · simp only [guardText]
      by_cases hv : v.truthy = true
      · rw [if_pos hv]
        exact UpdInv_setTextAt d t a0 c0 K i _ hinv ht hc0 (ho i rfl)
      · rw [if_neg hv]
        exact hinv

theorem UpdInv_guardCaption (d : Dom) (t : Nat) (a0 : Attrs) (c0 : Dom) (K : Nat)
    (o : Option Nat) (w : Option PVal)
    (hinv : UpdInv d t a0 c0 K) (ht : t < K + 1)
    (hc0 : ∀ y ∈ c0.nids, y < K + 1)
    (ho : ∀ i, o = some i → K + 1 ≤ i) :
    UpdInv (guardCaption d o w) t a0 c0 K := by
  rcases o with _ | i
  · exact hinv
  · rcases w with _ | v
    · exact hinv
    · simp only [guardCaption]
      by_cases hv : v = PVal.undef
      · rw [if_neg (fun hne => hne hv)]
        exact hinv
      · rw [if_pos hv]
        exact UpdInv_setTextAt d t a0 c0 K i _ hinv ht hc0 (ho i rfl)

/-- If a component's bound element is the high node `K` and the invariant
holds, `applyUpdatesToDOM` leaves the low node `t` (attributes and whole
subtree) untouched: every write it performs targets a descendant of `K`. -/
theorem applyUpdatesToDOM_findN_low (d : Dom) (comp : ComponentData)
    (t K : Nat) (a0 aK : Attrs) (c0 cK : Dom)
    (hel : comp.element = some K)
    (hKfind : d.findN K = some (aK, cK))
    (hcK : ∀ y ∈ cK.nids, K + 1 ≤ y)
    (hinv : UpdInv d t a0 c0 K)
    (ht : t < K + 1) (hc0 : ∀ y ∈ c0.nids, y < K + 1) :
    (applyUpdatesToDOM d comp).findN t = some (a0, c0) := by
  have hq : ∀ tg : String, ∀ i : Nat,
      ((d.findN K).bind (fun p => p.2.qTag tg)) = some i → K + 1 ≤ i := by
    intro tg i hi
    rw [hKfind] at hi
    exact hcK i (Dom.qTag_mem cK tg i hi)
  unfold applyUpdatesToDOM
  rw [hel]
  cases hty : comp.ctype
  case figure =>
    exact (UpdInv_guardCaption _ t a0 c0 K _ _
      (UpdInv_guardAlt _ t a0 c0 K _ _
        (UpdInv_guardSrc d t a0 c0 K _ _ hinv ht hc0 (hq "img"))
        ht hc0 (hq "img"))
      ht hc0 (hq "figcaption")).1
  case quote =>
    exact (UpdInv_guardText _ t a0 c0 K _ _
      (UpdInv_guardText _ t a0 c0 K _ _
        (UpdInv_guardSrc d t a0 c0 K _ _ hinv ht hc0 (hq "img"))
        ht hc0 (hq "blockquote"))
      ht hc0 (hq "cite")).1
  all_goals exact hinv.1

/-- Witness for C5: the tracked bare image, layout `center` applied twice. -/
theorem updateImage_layout_idempotent_witness :
    (updateImage sImg "cmp-0-r0" { layout := some .center }).1 = true ∧
    ((updateImage (updateImage sImg "cmp-0-r0" { layout := some .center }).2
        "cmp-0-r0" { layout := some .center }).2).doc
      = ((updateImage sImg "cmp-0-r0" { layout := some .center }).2).doc :=
  ⟨by decide, updateImage_layout_idempotent sImg "cmp-0-r0" .center (by decide)⟩

/-! ## Claim C2: document-level supporting lemmas -/

theorem Dom.collectNodes_map_fst (d : Dom) :
    d.collectNodes.map Prod.fst = d.nids := by
  induction d with
  | nil => rfl
  | node n a c s ihc ihs =>
    simp only [Dom.collectNodes, Dom.nids, List.map_cons, List.map_append, ihc, ihs]

theorem Dom.mem_nids_of_mem_collectNodes (d : Dom) (q : Nat × Attrs)
    (h : q ∈ d.collectNodes) : q.1 ∈ d.nids := by
  rw [← Dom.collectNodes_map_fst]
  exact List.mem_map_of_mem Prod.fst h

theorem Dom.collectNodes_patchAt (d : Dom) (t : Nat) (f : Attrs → Attrs) :
    (d.patchAt t f).collectNodes
      = d.collectNodes.map (fun q => if q.1 = t then (q.1, f q.2) else q) := by
  induction d with
  | nil => rfl
  | node n a c s ihc ihs =>
    by_cases hn : n = t
    · simp only [Dom.patchAt, Dom.collectNodes, List.map_cons, List.map_append,
        ihc, ihs, if_pos hn]
    · simp only [Dom.patchAt, Dom.collectNodes, List.map_cons, List.map_append,
        ihc, ihs, if_neg hn]

theorem Dom.mem_collectNodes_of_findN (d : Dom) (n : Nat) (a : Attrs) (c : Dom)
    (h : d.findN n = some (a, c)) : (n, a) ∈ d.collectNodes := by
  induction d with
  | nil => exact absurd h (by simp [Dom.findN])
  | node n0 a0 c0 s0 ihc ihs =>
    simp only [Dom.findN] at h
    simp only [Dom.collectNodes, List.mem_cons, List.mem_append]
    by_cases hn : n0 = n
    · rw [if_pos hn, Option.some.injEq, Prod.mk.injEq] at h
      exact Or.inl (by rw [hn, h.1])
    · rw [if_neg hn] at h
      cases hcf : c0.findN n with
      | some r =>
        rw [hcf, Option.some.injEq] at h
        subst h
        exact Or.inr (Or.inl (ihc hcf))
      | none =>
        rw [hcf] at h
        exact Or.inr (Or.inr (ihs h))

theorem Dom.collectNodes_sub_of_findN (d : Dom) (n : Nat) (a : Attrs) (c : Dom)
    (h : d.findN n = some (a, c)) : ∀ q ∈ c.collectNodes, q ∈ d.collectNodes := by
  induction d with
  | nil => exact absurd h (by simp [Dom.findN])
  | node n0 a0 c0 s0 ihc ihs =>
    intro q hq
    simp only [Dom.findN] at h
    simp only [Dom.collectNodes, List.mem_cons, List.mem_append]
    by_cases hn : n0 = n
    · rw [if_pos hn, Option.some.injEq, Prod.mk.injEq] at h
      refine Or.inr (Or.inl ?_)
      rw [h.2]
      exact hq
    · rw [if_neg hn] at h
      cases hcf : c0.findN n with
      | some r =>
        rw [hcf, Option.some.injEq] at h
        subst h
        exact Or.inr (Or.inl (ihc hcf q hq))
      | none =>
        rw [hcf] at h
        exact Or.inr (Or.inr (ihs h q hq))

theorem Dom.findN_attrs_unique (d : Dom) (n : Nat) (a : Attrs)
    (hnd : d.nids.Nodup) (hmem : (n, a) ∈ d.collectNodes) :
    ∀ p : Attrs × Dom, d.findN n = some p → p.1 = a := by
  induction d with
  | nil => simp [Dom.collectNodes] at hmem
  | node n0 a0 c0 s0 ihc ihs =>
    intro p hp
    obtain ⟨nd1, nd2, nd3, nd4, nd5⟩ := Dom.nodup_node hnd
    simp only [Dom.collectNodes, List.mem_cons, List.mem_append] at hmem
    simp only [Dom.findN] at hp
    by_cases hn : n0 = n
    · rw [if_pos hn, Option.some.injEq] at hp
      rcases hmem with h | h | h
      · rw [Prod.mk.injEq] at h
        rw [← hp]
        exact h.2.symm
      · exact absurd (hn ▸ Dom.mem_nids_of_mem_collectNodes c0 (n, a) h) nd1
      · exact absurd (hn ▸ Dom.mem_nids_of_mem_collectNodes s0 (n, a) h) nd2
    · rw [if_neg hn] at hp
      cases hcf : c0.findN n with
      | some r =>
        rw [hcf, Option.some.injEq] at hp
        subst hp
        rcases hmem with h | h | h
        · rw [Prod.mk.injEq] at h
          exact absurd h.1.symm hn
        · exact ihc nd3 h r hcf
        · exact absurd (Dom.mem_nids_of_mem_collectNodes s0 (n, a) h)
            (nd5 n (Dom.mem_of_findN_eq_some c0 n r hcf))
      | none =>
        rw [hcf] at hp
        rcases hmem with h | h | h
        · rw [Prod.mk.injEq] at h
          exact absurd h.1.symm hn
        · have := Dom.findN_isSome_of_mem c0 n
            (Dom.mem_nids_of_mem_collectNodes c0 (n, a) h)
          rw [hcf] at this
          exact absurd this (by simp)
        · exact ihs nd4 h p hp

theorem Dom.rootNids_sub_nids (d : Dom) : ∀ e ∈ d.rootNids, e ∈ d.nids := by
  induction d with
  | nil => intro e he; simp [Dom.rootNids] at he
  | node n a c s ihc ihs =>
    intro e he
    simp only [Dom.rootNids, List.mem_cons] at he
    simp only [Dom.nids, List.mem_cons, List.mem_append]
    rcases he with rfl | he
    · exact Or.inl rfl
    · exact Or.inr (Or.inr (ihs e he))

theorem Dom.rootSub_isSome (d : Dom) (e : Nat) (h : e ∈ d.rootNids) :
    ∃ p : Attrs × Dom, d.rootSub e = some p := by
  induction d with
  | nil => simp [Dom.rootNids] at h
  | node n a c s ihc ihs =>
    simp only [Dom.rootNids, List.mem_cons] at h
    by_cases hn : n = e
    · exact ⟨(a, c), by simp [Dom.rootSub, hn]⟩
    · rcases h with rfl | h
      · exact absurd rfl hn
      · obtain ⟨p, hp⟩ := ihs h
        exact ⟨p, by simp [Dom.rootSub, hn, hp]⟩

theorem Dom.mem_of_rootSub (d : Dom) (e : Nat) (p : Attrs × Dom)
    (h : d.rootSub e = some p) : e ∈ d.nids := by
  induction d with
  | nil => exact absurd h (by simp [Dom.rootSub])
  | node n a c s ihc ihs =>
    simp only [Dom.rootSub] at h
    simp only [Dom.nids, List.mem_cons, List.mem_append]
    by_cases hn : n = e
    · exact Or.inl hn.symm
    · rw [if_neg hn] at h
      exact Or.inr (Or.inr (ihs h))

theorem Dom.rootSub_findN (d : Dom) (e : Nat) (p : Attrs × Dom)
    (hnd : d.nids.Nodup) (h : d.rootSub e = some p) : d.findN e = some p := by
  induction d with
  | nil => exact absurd h (by simp [Dom.rootSub])
  | node n a c s ihc ihs =>
    obtain ⟨nd1, nd2, nd3, nd4, nd5⟩ := Dom.nodup_node hnd
    simp only [Dom.rootSub] at h
    simp only [Dom.findN]
    by_cases hn : n = e
    · rw [if_pos hn] at h
      rw [if_pos hn]
      exact h
    · rw [if_neg hn] at h
      rw [if_neg hn]
      have he : e ∈ s.nids := Dom.mem_of_rootSub s e p h
      rw [Dom.findN_eq_none_of_not_mem c e (fun hc => nd5 e hc he)]
      exact ihs nd4 h

theorem Dom.rootSub_sub_nids (d : Dom) (e : Nat) (a : Attrs) (c : Dom)
    (h : d.rootSub e = some (a, c)) : ∀ x ∈ c.nids, x ∈ d.nids := by
  induction d with
  | nil => exact absurd h (by simp [Dom.rootSub])
  | node n a0 c0 s0 ihc ihs =>
    intro x hx
    simp only [Dom.rootSub] at h
    simp only [Dom.nids, List.mem_cons, List.mem_append]
    by_cases hn : n = e
    · rw [if_pos hn, Option.some.injEq, Prod.mk.injEq] at h
      exact Or.inr (Or.inl (h.2 ▸ hx))
    · rw [if_neg hn] at h
      exact Or.inr (Or.inr (ihs h x hx))

theorem Dom.rootSub_cat (d : Dom) (e : Nat) (p : Attrs × Dom) (m : Dom)
    (h : d.rootSub e = some p) : (d.cat m).rootSub e = some p := by
  induction d with
  | nil => exact absurd h (by simp [Dom.rootSub])
  | node n a c s ihc ihs =>
    simp only [Dom.rootSub] at h
    simp only [Dom.cat, Dom.rootSub]
    by_cases hn : n = e
    · rw [if_pos hn] at h
      rw [if_pos hn]
      exact h
    · rw [if_neg hn] at h
      rw [if_neg hn]
      exact ihs h

theorem Dom.rootNids_cat_left (d m : Dom) (e : Nat) (h : e ∈ d.rootNids) :
    e ∈ (d.cat m).rootNids := by
  induction d with
  | nil => simp [Dom.rootNids] at h
  | node n a c s ihc ihs =>
    simp only [Dom.rootNids, List.mem_cons] at h
    simp only [Dom.cat, Dom.rootNids, List.mem_cons]
    rcases h with rfl | h
    · exact Or.inl rfl
    · exact Or.inr (ihs h)

/-! ### `splice` lemmas -/

theorem Dom.splice_not_found (c : Dom) (t : Nat) (h : t ∉ c.nids) :
    c.splice t = (c, none) := by
  induction c with
  | nil => rfl
  | node n a cc ss ihc ihs =>
    simp only [Dom.nids, List.mem_cons, List.mem_append] at h
    push_neg at h
    obtain ⟨h1, h2, h3⟩ := h
    simp only [Dom.splice, if_neg (Ne.symm h1), ihc h2, ihs h3]

theorem Dom.splice_found_mem (c : Dom) (t : Nat) (r : Dom)
    (h : (c.splice t).2 = some r) : t ∈ c.nids := by
  by_contra hmem
  rw [Dom.splice_not_found c t hmem] at h
  exact Option.noConfusion h

theorem Dom.splice_found (c : Dom) (t : Nat) (h : t ∈ c.nids) :
    ∃ r, (c.splice t).2 = some r := by
  induction c with
  | nil => simp [Dom.nids] at h
  | node n a cc ss ihc ihs =>
    simp only [Dom.nids, List.mem_cons, List.mem_append] at h
    by_cases hn : n = t
    · exact ⟨Dom.node n a cc Dom.nil, by simp [Dom.splice, if_pos hn]⟩
    · rcases h with rfl | hm | hm
      · exact absurd rfl hn
      · obtain ⟨r, hr⟩ := ihc hm
        cases hcs : cc.splice t with
        | mk c' r0 =>
          rw [hcs] at hr
          dsimp only at hr
          subst hr
          exact ⟨r, by simp [Dom.splice, if_neg hn, hcs]⟩
      · cases hcs : cc.splice t with
        | mk c' r0 =>
          cases r0 with
          | some rr => exact ⟨rr, by simp [Dom.splice, if_neg hn, hcs]⟩
          | none =>
            obtain ⟨r, hr⟩ := ihs hm
            cases hss : ss.splice t with
            | mk s' r1 =>
              rw [hss] at hr
              dsimp only at hr
              subst hr
              exact ⟨r, by simp [Dom.splice, if_neg hn, hcs, hss]⟩

theorem Dom.splice_none_mem (c : Dom) (t : Nat) (h : (c.splice t).2 = none) :
    t ∉ c.nids := by
  intro hmem
  obtain ⟨r, hr⟩ := Dom.splice_found c t hmem
  rw [h] at hr
  exact Option.noConfusion hr

theorem Dom.splice_none_eq (c : Dom) (t : Nat) (h : (c.splice t).2 = none) :
    (c.splice t).1 = c := by
  rw [Dom.splice_not_found c t (Dom.splice_none_mem c t h)]

theorem Dom.splice_collect_sub (c : Dom) (t : Nat) :
    ∀ q ∈ ((c.splice t).1).collectNodes, q ∈ c.collectNodes := by
  induction c with
  | nil => intro q hq; simp [Dom.splice, Dom.collectNodes] at hq
  | node n a cc ss ihc ihs =>
    intro q hq
    by_cases hn : n = t
    · simp only [Dom.splice, if_pos hn] at hq
      simp only [Dom.collectNodes, List.mem_cons, List.mem_append]
      exact Or.inr (Or.inr hq)
    · cases hcs : cc.splice t with
      | mk c' r =>
        cases r with
        | some rr =>
          simp only [Dom.splice, if_neg hn, hcs] at hq
          simp only [Dom.collectNodes, List.mem_cons, List.mem_append] at hq ⊢
          rcases hq with h | h | h
          · exact Or.inl h
          · have h2 := ihc q
            rw [hcs] at h2
            exact Or.inr (Or.inl (h2 h))
          · exact Or.inr (Or.inr h)
        | none =>
          cases hss : ss.splice t with
          | mk s' r1 =>
            simp only [Dom.splice, if_neg hn, hcs, hss] at hq
            simp only [Dom.collectNodes, List.mem_cons, List.mem_append] at hq ⊢
            rcases hq with h | h | h
            · exact Or.inl h
            · have h2 := ihc q
              rw [hcs] at h2
              exact Or.inr (Or.inl (h2 h))
            · have h2 := ihs q
              rw [hss] at h2
              exact Or.inr (Or.inr (h2 h))

theorem Dom.splice_not_mem_of_found (c : Dom) (t : Nat) (r : Dom)
    (hnd : c.nids.Nodup) (h : (c.splice t).2 = some r) :
    t ∉ ((c.splice t).1).nids := by
  induction c generalizing r with
  | nil => simp [Dom.splice] at h
  | node n a cc ss ihc ihs =>
    obtain ⟨nd1, nd2, nd3, nd4, nd5⟩ := Dom.nodup_node hnd
    by_cases hn : n = t
    · simp only [Dom.splice, if_pos hn]
      exact hn ▸ nd2
    · cases hcs : cc.splice t with
      | mk c' r0 =>
        cases r0 with
        | some rr =>
          simp only [Dom.splice, if_neg hn, hcs]
          intro hmem
          simp only [Dom.nids, List.mem_cons, List.mem_append] at hmem
          have htc : t ∈ cc.nids := Dom.splice_found_mem cc t rr (by rw [hcs])
          rcases hmem with hm | hm | hm
          · exact hn hm.symm
          · have h2 := ihc rr nd3 (by rw [hcs])
            rw [hcs] at h2
            exact h2 hm
          · exact nd5 t htc hm
        | none =>
          cases hss : ss.splice t with
          | mk s' r1 =>
            simp only [Dom.splice, if_neg hn, hcs, hss] at h ⊢
            intro hmem
            simp only [Dom.nids, List.mem_cons, List.mem_append] at hmem
            have htn : t ∉ cc.nids := Dom.splice_none_mem cc t (by rw [hcs])
            rcases hmem with hm | hm | hm
            · exact hn hm.symm
            · have he : c' = cc := by
                have h3 := Dom.splice_none_eq cc t (by rw [hcs])
                rw [hcs] at h3
                exact h3
              exact htn (he ▸ hm)
            · have h2 := ihs r nd4 (by rw [hss]; exact h)
              rw [hss] at h2
              exact h2 hm

theorem Dom.splice_nids_perm (c : Dom) (t : Nat) (c' r : Dom)
    (h : c.splice t = (c', some r)) : c.nids.Perm (c'.nids ++ r.nids) := by
  induction c generalizing c' r with
  | nil => simp [Dom.splice] at h
  | node n a cc ss ihc ihs =>
    by_cases hn : n = t
    · simp only [Dom.splice, if_pos hn] at h
      rw [Prod.mk.injEq] at h
      obtain ⟨h1, h2⟩ := h
      rw [Option.some.injEq] at h2
      subst h1
      subst h2
      simp only [Dom.nids, List.append_nil]
      exact (List.perm_append_comm :
        ((n :: cc.nids) ++ ss.nids).Perm (ss.nids ++ (n :: cc.nids)))
    · cases hcs : cc.splice t with
      | mk c0 r0 =>
        cases r0 with
        | some rr =>
          simp only [Dom.splice, if_neg hn, hcs] at h
          rw [Prod.mk.injEq] at h
          obtain ⟨h1, h2⟩ := h
          rw [Option.some.injEq] at h2
          subst h2
          subst h1
          have hp := ihc c0 rr hcs
          simp only [Dom.nids]
          have h3 : (cc.nids ++ ss.nids).Perm (c0.nids ++ ss.nids ++ rr.nids) := by
            have h4 := hp.append_right ss.nids
            have h5 : (c0.nids ++ rr.nids ++ ss.nids).Perm
                (c0.nids ++ (ss.nids ++ rr.nids)) := by
              rw [List.append_assoc]
              exact List.Perm.append_left c0.nids List.perm_append_comm
            have h6 := h4.trans h5
            rw [← List.append_assoc] at h6
            exact h6
          exact h3.cons n
        | none =>
          cases hss : ss.splice t with
          | mk s0 r1 =>
            simp only [Dom.splice, if_neg hn, hcs, hss] at h
            rw [Prod.mk.injEq] at h
            obtain ⟨h1, h2⟩ := h
            subst h2
            subst h1
            have hc0 : c0 = cc := by
              have h3 := Dom.splice_none_eq cc t (by rw [hcs])
              rw [hcs] at h3
              exact h3
            subst hc0
            have hp := ihs s0 r hss
            simp only [Dom.nids]
            have h3 : (c0.nids ++ ss.nids).Perm (c0.nids ++ s0.nids ++ r.nids) := by
              have h4 := List.Perm.append_left c0.nids hp
              rw [← List.append_assoc] at h4
              exact h4
            exact h3.cons n

/-! ### `docRemove` lemmas -/

theorem docRemoveAux_none_eq (d : Dom) (t : Nat) (d' : Dom)
    (h : docRemoveAux d t = (d', none)) : d' = d := by
  induction d generalizing d' with
  | nil =>
    simp only [docRemoveAux] at h
    rw [Prod.mk.injEq] at h
    exact h.1.symm
  | node n a c s ihc ihs =>
    by_cases hn : n = t
    · simp only [docRemoveAux, if_pos hn] at h
      rw [Prod.mk.injEq] at h
      exact h.1.symm
    · cases hcs : c.splice t with
      | mk c0 r0 =>
        cases r0 with
        | some rr =>
          simp only [docRemoveAux, if_neg hn, hcs] at h
          rw [Prod.mk.injEq] at h
          exact absurd h.2 (by simp)
        | none =>
          cases haux : docRemoveAux s t with
          | mk s0 r1 =>
            simp only [docRemoveAux, if_neg hn, hcs, haux] at h
            rw [Prod.mk.injEq] at h
            obtain ⟨h1, h2⟩ := h
            subst h2
            have hs := ihs s0 haux
            have hc : c0 = c := by
              have h3 := Dom.splice_none_eq c t (by rw [hcs])
              rw [hcs] at h3
              exact h3
            rw [← h1, hs, hc]

theorem docRemoveAux_rootNids (d : Dom) (t : Nat) :
    ((docRemoveAux d t).1).rootNids = d.rootNids := by
  induction d with
  | nil => rfl
  | node n a c s ihc ihs =>
    by_cases hn : n = t
    · simp only [docRemoveAux, if_pos hn]
    · cases hcs : c.splice t with
      | mk c0 r0 =>
        cases r0 with
        | some rr => simp only [docRemoveAux, if_neg hn, hcs, Dom.rootNids]
        | none =>
          cases haux : docRemoveAux s t with
          | mk s0 r1 =>
            have h2 := ihs
            rw [haux] at h2
            simp only [docRemoveAux, if_neg hn, hcs, haux, Dom.rootNids,
              List.cons.injEq, true_and]
            exact h2

theorem docRemoveAux_perm (d : Dom) (t : Nat) (d' : Dom) (r : Dom)
    (h : docRemoveAux d t = (d', some r)) : d.nids.Perm (d'.nids ++ r.nids) := by
  induction d generalizing d' r with
  | nil => simp [docRemoveAux] at h
  | node n a c s ihc ihs =>
    by_cases hn : n = t
    · simp only [docRemoveAux, if_pos hn] at h
      rw [Prod.mk.injEq] at h
      exact absurd h.2 (by simp)
    · cases hcs : c.splice t with
      | mk c0 r0 =>
        cases r0 with
        | some rr =>
          simp only [docRemoveAux, if_neg hn, hcs] at h
          rw [Prod.mk.injEq] at h
          obtain ⟨h1, h2⟩ := h
          rw [Option.some.injEq] at h2
          subst h2
          subst h1
          have hp := Dom.splice_nids_perm c t c0 rr hcs
          simp only [Dom.nids]
          have h3 : (c.nids ++ s.nids).Perm (c0.nids ++ s.nids ++ rr.nids) := by
            have h4 := hp.append_right s.nids
            have h5 : (c0.nids ++ rr.nids ++ s.nids).Perm
                (c0.nids ++ (s.nids ++ rr.nids)) := by
              rw [List.append_assoc]
              exact List.Perm.append_left c0.nids List.perm_append_comm
            have h6 := h4.trans h5
            rw [← List.append_assoc] at h6
            exact h6
          exact h3.cons n
        | none =>
          cases haux : docRemoveAux s t with
          | mk s0 r1 =>
            simp only [docRemoveAux, if_neg hn, hcs, haux] at h
            rw [Prod.mk.injEq] at h
            obtain ⟨h1, h2⟩ := h
            subst h2
            subst h1
            have hc : c0 = c := by
              have h3 := Dom.splice_none_eq c t (by rw [hcs])
              rw [hcs] at h3
              exact h3
            subst hc
            have hp := ihs s0 r haux
            simp only [Dom.nids]
            have h3 : (c0.nids ++ s.nids).Perm (c0.nids ++ s0.nids ++ r.nids) := by
              have h4 := List.Perm.append_left c0.nids hp
              rw [← List.append_assoc] at h4
              exact h4
            exact h3.cons n

theorem docRemoveAux_root (d : Dom) (t : Nat) (hnd : d.nids.Nodup)
    (h : t ∈ d.rootNids) : docRemoveAux d t = (d, none) := by
  induction d with
  | nil => simp [Dom.rootNids] at h
  | node n a c s ihc ihs =>
    obtain ⟨nd1, nd2, nd3, nd4, nd5⟩ := Dom.nodup_node hnd
    by_cases hn : n = t
    · simp only [docRemoveAux, if_pos hn]
    · simp only [Dom.rootNids, List.mem_cons] at h
      rcases h with rfl | h
      · exact absurd rfl hn
      · have hts : t ∈ s.nids := Dom.rootNids_sub_nids s t h
        have htc : t ∉ c.nids := fun hc => nd5 t hc hts
        simp only [docRemoveAux, if_neg hn, Dom.splice_not_found c t htc,
          ihs nd4 h]

theorem docRemove_nids_perm (d : Dom) (t : Nat) :
    (docRemove d t).nids.Perm d.nids := by
  unfold docRemove
  cases hx : docRemoveAux d t with
  | mk d' r =>
    cases r with
    | none =>
      have he := docRemoveAux_none_eq d t d' hx
      subst he
      exact List.Perm.refl _
    | some rr =>
      dsimp only
      rw [Dom.nids_cat]
      exact (docRemoveAux_perm d t d' rr hx).symm

theorem docRemove_root_noop (d : Dom) (t : Nat) (hnd : d.nids.Nodup)
    (h : t ∈ d.rootNids) : docRemove d t = d := by
  unfold docRemove
  rw [docRemoveAux_root d t hnd h]

theorem docRemove_rootNids_mem (d : Dom) (t e : Nat) (h : e ∈ d.rootNids) :
    e ∈ (docRemove d t).rootNids := by
  unfold docRemove
  cases hx : docRemoveAux d t with
  | mk d' r =>
    have hr : d'.rootNids = d.rootNids := by
      have h2 := docRemoveAux_rootNids d t
      rw [hx] at h2
      exact h2
    cases r with
    | none =>
      dsimp only
      rw [hr]
      exact h
    | some rr =>
      dsimp only
      exact Dom.rootNids_cat_left d' rr e (hr ▸ h)

theorem docRemoveAux_rootSub (d : Dom) (t e : Nat) (a : Attrs) (c : Dom)
    (hnd : d.nids.Nodup) (hne : e ≠ t) (h : d.rootSub e = some (a, c)) :
    ∃ c', ((docRemoveAux d t).1).rootSub e = some (a, c') ∧
      (∀ q ∈ c'.collectNodes, q ∈ c.collectNodes) ∧ t ∉ c'.nids := by
  induction d with
  | nil => exact absurd h (by simp [Dom.rootSub])
  | node n a0 c0 s0 ihc ihs =>
    obtain ⟨nd1, nd2, nd3, nd4, nd5⟩ := Dom.nodup_node hnd
    by_cases hnt : n = t
    · refine ⟨c, ?_, fun q hq => hq, ?_⟩
      · simp only [docRemoveAux, if_pos hnt]
        exact h
      · simp only [Dom.rootSub] at h
        by_cases hne2 : n = e
        · exact absurd (hne2.symm.trans hnt) hne
        · rw [if_neg hne2] at h
          have hsub := Dom.rootSub_sub_nids s0 e a c h
          intro hmem
          exact (hnt ▸ nd2) (hsub t hmem)
    · by_cases hne2 : n = e
      · simp only [Dom.rootSub, if_pos hne2] at h
        rw [Option.some.injEq, Prod.mk.injEq] at h
        obtain ⟨ha, hc⟩ := h
        cases hcs : c0.splice t with
        | mk c1 r0 =>
          cases r0 with
          | some rr =>
            refine ⟨c1, ?_, ?_, ?_⟩
            · simp only [docRemoveAux, if_neg hnt, hcs, Dom.rootSub,
                if_pos hne2, ha]
            · intro q hq
              have h2 := Dom.splice_collect_sub c0 t q
              rw [hcs] at h2
              exact hc ▸ h2 hq
            · have h2 := Dom.splice_not_mem_of_found c0 t rr nd3 (by rw [hcs])
              rw [hcs] at h2
              exact h2
          | none =>
            cases haux : docRemoveAux s0 t with
            | mk s1 r1 =>
              have hceq : c1 = c0 := by
                have h3 := Dom.splice_none_eq c0 t (by rw [hcs])
                rw [hcs] at h3
                exact h3
              refine ⟨c, ?_, fun q hq => hq, ?_⟩
              · simp only [docRemoveAux, if_neg hnt, hcs, haux, Dom.rootSub,
                  if_pos hne2, hceq]
                rw [ha, hc]
              · have h3 := Dom.splice_none_mem c0 t (by rw [hcs])
                exact hc ▸ h3
      · simp only [Dom.rootSub, if_neg hne2] at h
        cases hcs : c0.splice t with
        | mk c1 r0 =>
          cases r0 with
          | some rr =>
            refine ⟨c, ?_, fun q hq => hq, ?_⟩
            · simp only [docRemoveAux, if_neg hnt, hcs, Dom.rootSub, if_neg hne2]
              exact h
            · have htc : t ∈ c0.nids := Dom.splice_found_mem c0 t rr (by rw [hcs])
              have hsub := Dom.rootSub_sub_nids s0 e a c h
              intro hmem
              exact nd5 t htc (hsub t hmem)
          | none =>
            cases haux : docRemoveAux s0 t with
            | mk s1 r1 =>
              obtain ⟨c', hc1, hc2, hc3⟩ := ihs nd4 h
              rw [haux] at hc1
              refine ⟨c', ?_, hc2, hc3⟩
              simp only [docRemoveAux, if_neg hnt, hcs, haux, Dom.rootSub,
                if_neg hne2]
              exact hc1

theorem docRemove_rootSub (d : Dom) (t e : Nat) (a : Attrs) (c : Dom)
    (hnd : d.nids.Nodup) (hne : e ≠ t) (h : d.rootSub e = some (a, c)) :
    ∃ c', (docRemove d t).rootSub e = some (a, c') ∧
      (∀ q ∈ c'.collectNodes, q ∈ c.collectNodes) ∧ t ∉ c'.nids := by
  obtain ⟨c', h1, h2, h3⟩ := docRemoveAux_rootSub d t e a c hnd hne h
  unfold docRemove
  cases hx : docRemoveAux d t with
  | mk d' r =>
    rw [hx] at h1
    cases r with
    | none => exact ⟨c', h1, h2, h3⟩
    | some rr =>
      dsimp only at h1 ⊢
      exact ⟨c', Dom.rootSub_cat d' e (a, c') rr h1, h2, h3⟩

/-! ### Insertion lemmas -/

theorem Dom.nodup_sub_of_findN (d : Dom) (e : Nat) (a : Attrs) (c : Dom)
    (hnd : d.nids.Nodup) (h : d.findN e = some (a, c)) : c.nids.Nodup := by
  induction d with
  | nil => exact absurd h (by simp [Dom.findN])
  | node n a0 c0 s0 ihc ihs =>
    obtain ⟨nd1, nd2, nd3, nd4, nd5⟩ := Dom.nodup_node hnd
    simp only [Dom.findN] at h
    by_cases hn : n = e
    · rw [if_pos hn, Option.some.injEq, Prod.mk.injEq] at h
      exact h.2 ▸ nd3
    · rw [if_neg hn] at h
      cases hcf : c0.findN e with
      | some r =>
        rw [hcf, Option.some.injEq] at h
        subst h
        exact ihc nd3 hcf
      | none =>
        rw [hcf] at h
        exact ihs nd4 h

theorem Dom.collect_cat_mem (d m : Dom) :
    ∀ q ∈ (d.cat m).collectNodes, q ∈ d.collectNodes ∨ q ∈ m.collectNodes := by
  induction d with
  | nil => intro q hq; exact Or.inr hq
  | node n a c s ihc ihs =>
    intro q hq
    simp only [Dom.cat, Dom.collectNodes, List.mem_cons, List.mem_append] at hq
    simp only [Dom.collectNodes, List.mem_cons, List.mem_append]
    rcases hq with h | h | h
    · exact Or.inl (Or.inl h)
    · exact Or.inl (Or.inr (Or.inl h))
    · rcases ihs q h with h2 | h2
      · exact Or.inl (Or.inr (Or.inr h2))
      · exact Or.inr h2

theorem Dom.insertChainAt_nids_perm (c : Dom) (off : Nat) (m : Dom) :
    ((c.insertChainAt off m).nids).Perm (c.nids ++ m.nids) := by
  induction c generalizing off with
  | nil =>
    cases off with
    | zero =>
      simp only [Dom.insertChainAt, Dom.nids_cat, Dom.nids, List.append_nil,
        List.nil_append]
      exact List.Perm.refl _
    | succ k =>
      simp only [Dom.insertChainAt, Dom.nids, List.nil_append]
      exact List.Perm.refl _
  | node n a c s ihc ihs =>
    cases off with
    | zero =>
      simp only [Dom.insertChainAt, Dom.nids_cat]
      exact List.perm_append_comm
    | succ k =>
      simp only [Dom.insertChainAt, Dom.nids]
      have h1 := ihs k
      have h2 := List.Perm.append_left c.nids h1
      have h3 : (c.nids ++ (s.nids ++ m.nids)) = (c.nids ++ s.nids) ++ m.nids := by
        rw [List.append_assoc]
      rw [h3] at h2
      exact h2.cons n

theorem Dom.insertChildAt_not_mem (d : Dom) (p off : Nat) (m : Dom)
    (h : p ∉ d.nids) : d.insertChildAt p off m = d := by
  induction d with
  | nil => rfl
  | node n a c s ihc ihs =>
    simp only [Dom.nids, List.mem_cons, List.mem_append] at h
    push_neg at h
    obtain ⟨h1, h2, h3⟩ := h
    simp only [Dom.insertChildAt, if_neg (Ne.symm h1), ihc h2, ihs h3]

theorem Dom.insertChildAt_nids_perm (d : Dom) (p off : Nat) (m : Dom)
    (hnd : d.nids.Nodup) (hp : p ∈ d.nids) :
    ((d.insertChildAt p off m).nids).Perm (d.nids ++ m.nids) := by
  induction d with
  | nil => simp [Dom.nids] at hp
  | node n a c s ihc ihs =>
    obtain ⟨nd1, nd2, nd3, nd4, nd5⟩ := Dom.nodup_node hnd
    by_cases hn : n = p
    · simp only [Dom.insertChildAt, if_pos hn, Dom.nids]
      have h1 := Dom.insertChainAt_nids_perm c off m
      have h2 := h1.append_right s.nids
      have h3 : ((c.nids ++ m.nids) ++ s.nids).Perm
          ((c.nids ++ s.nids) ++ m.nids) := by
        rw [List.append_assoc, List.append_assoc]
        exact List.Perm.append_left c.nids List.perm_append_comm
      exact (h2.trans h3).cons n
    · simp only [Dom.nids, List.mem_cons, List.mem_append] at hp
      rcases hp with rfl | hm | hm
      · exact absurd rfl hn
      · simp only [Dom.insertChildAt, if_neg hn, Dom.nids,
          Dom.insertChildAt_not_mem s p off m (nd5 p hm)]
        have h1 := ihc nd3 hm
        have h2 := h1.append_right s.nids
        have h3 : ((c.nids ++ m.nids) ++ s.nids).Perm
            ((c.nids ++ s.nids) ++ m.nids) := by
          rw [List.append_assoc, List.append_assoc]
          exact List.Perm.append_left c.nids List.perm_append_comm
        exact (h2.trans h3).cons n
      · simp only [Dom.insertChildAt, if_neg hn, Dom.nids,
          Dom.insertChildAt_not_mem c p off m (fun hc => nd5 p hc hm)]
        have h1 := ihs nd4 hm
        have h2 := List.Perm.append_left c.nids h1
        have h3 : (c.nids ++ (s.nids ++ m.nids)) = (c.nids ++ s.nids) ++ m.nids := by
          rw [List.append_assoc]
        rw [h3] at h2
        exact h2.cons n

theorem Dom.insertChildAt_rootNids (d : Dom) (p off : Nat) (m : Dom) :
    (d.insertChildAt p off m).rootNids = d.rootNids := by
  induction d with
  | nil => rfl
  | node n a c s ihc ihs =>
    by_cases hn : n = p
    · simp only [Dom.insertChildAt, if_pos hn, Dom.rootNids]
    · simp only [Dom.insertChildAt, if_neg hn, Dom.rootNids, ihs]

theorem Dom.insertChainAt_collect (c : Dom) (off : Nat) (m : Dom) :
    ∀ q ∈ (c.insertChainAt off m).collectNodes,
      q ∈ c.collectNodes ∨ q ∈ m.collectNodes := by
  induction c generalizing off with
  | nil =>
    intro q hq
    cases off with
    | zero =>
      simp only [Dom.insertChainAt] at hq
      rcases Dom.collect_cat_mem m Dom.nil q hq with h | h
      · exact Or.inr h
      · simp [Dom.collectNodes] at h
    | succ k =>
      simp only [Dom.insertChainAt] at hq
      exact Or.inr hq
  | node n a c s ihc ihs =>
    intro q hq
    cases off with
    | zero =>
      simp only [Dom.insertChainAt] at hq
      rcases Dom.collect_cat_mem m (Dom.node n a c s) q hq with h | h
      · exact Or.inr h
      · exact Or.inl h
    | succ k =>
      simp only [Dom.insertChainAt, Dom.collectNodes, List.mem_cons,
        List.mem_append] at hq
      simp only [Dom.collectNodes, List.mem_cons, List.mem_append]
      rcases hq with h | h | h
      · exact Or.inl (Or.inl h)
      · exact Or.inl (Or.inr (Or.inl h))
      · rcases ihs k q h with h2 | h2
        · exact Or.inl (Or.inr (Or.inr h2))
        · exact Or.inr h2

theorem Dom.insertChildAt_collect (d : Dom) (p off : Nat) (m : Dom) :
    ∀ q ∈ (d.insertChildAt p off m).collectNodes,
      q ∈ d.collectNodes ∨ q ∈ m.collectNodes := by
  induction d with
  | nil => intro q hq; simp [Dom.insertChildAt, Dom.collectNodes] at hq
  | node n a c s ihc ihs =>
    intro q hq
    by_cases hn : n = p
    · simp only [Dom.insertChildAt, if_pos hn, Dom.collectNodes, List.mem_cons,
        List.mem_append] at hq
      simp only [Dom.collectNodes, List.mem_cons, List.mem_append]
      rcases hq with h | h | h
      · exact Or.inl (Or.inl h)
      · rcases Dom.insertChainAt_collect c off m q h with h2 | h2
        · exact Or.inl (Or.inr (Or.inl h2))
        · exact Or.inr h2
      · exact Or.inl (Or.inr (Or.inr h))
    · simp only [Dom.insertChildAt, if_neg hn, Dom.collectNodes, List.mem_cons,
        List.mem_append] at hq
      simp only [Dom.collectNodes, List.mem_cons, List.mem_append]
      rcases hq with h | h | h
      · exact Or.inl (Or.inl h)
      · rcases ihc q h with h2 | h2
        · exact Or.inl (Or.inr (Or.inl h2))
        · exact Or.inr h2
      · rcases ihs q h with h2 | h2
        · exact Or.inl (Or.inr (Or.inr h2))
        · exact Or.inr h2

theorem Dom.insertChildAt_rootSub (d : Dom) (p off : Nat) (m : Dom) (e : Nat)
    (hnd : d.nids.Nodup) (a : Attrs) (c : Dom)
    (h : d.rootSub e = some (a, c)) :
    (d.insertChildAt p off m).rootSub e
      = some (a, if e = p then c.insertChainAt off m
                 else c.insertChildAt p off m) := by
  induction d with
  | nil => exact absurd h (by simp [Dom.rootSub])
  | node n a0 c0 s0 ihc ihs =>
    obtain ⟨nd1, nd2, nd3, nd4, nd5⟩ := Dom.nodup_node hnd
    simp only [Dom.rootSub] at h
    by_cases hne : n = e
    · rw [if_pos hne, Option.some.injEq, Prod.mk.injEq] at h
      obtain ⟨ha, hc⟩ := h
      by_cases hp : n = p
      · simp only [Dom.insertChildAt, if_pos hp, Dom.rootSub, if_pos hne]
        rw [if_pos (hne.symm.trans hp), ha, hc]
      · simp only [Dom.insertChildAt, if_neg hp, Dom.rootSub, if_pos hne]
        have hep : ¬ e = p := fun hv => hp (hne.trans hv)
        rw [if_neg hep, ha, hc]
    · rw [if_neg hne] at h
      have he : e ∈ s0.nids := Dom.mem_of_rootSub s0 e (a, c) h
      by_cases hp : n = p
      · have hep : ¬ e = p := fun hv => nd2 (by rw [hp, ← hv]; exact he)
        simp only [Dom.insertChildAt, if_pos hp, Dom.rootSub, if_neg hne]
        rw [if_neg hep]
        rw [Dom.insertChildAt_not_mem c p off m
          (fun hcm => nd2 (by rw [hp]; exact Dom.rootSub_sub_nids s0 e a c h p hcm))]
        exact h
      · simp only [Dom.insertChildAt, if_neg hp, Dom.rootSub, if_neg hne]
        exact ihs nd4 h

theorem subNodes_cat (d m : Dom) (e : Nat) (hnd : (d.cat m).nids.Nodup)
    (hnd0 : d.nids.Nodup) (hroot : e ∈ d.rootNids) :
    subNodes (d.cat m) e = subNodes d e := by
  obtain ⟨⟨a, c⟩, hrs⟩ := Dom.rootSub_isSome d e hroot
  have h1 : (d.cat m).rootSub e = some (a, c) := Dom.rootSub_cat d e (a, c) m hrs
  rw [subNodes, subNodes, Dom.rootSub_findN _ e (a, c) hnd h1,
    Dom.rootSub_findN d e (a, c) hnd0 hrs]

theorem subNodes_insertChildAt (d : Dom) (p off : Nat) (m : Dom) (e : Nat)
    (hnd : d.nids.Nodup) (hnd' : (d.insertChildAt p off m).nids.Nodup)
    (hroot : e ∈ d.rootNids) :
    ∀ q ∈ subNodes (d.insertChildAt p off m) e,
      q ∈ subNodes d e ∨ q ∈ m.collectNodes := by
  obtain ⟨⟨a, c⟩, hrs⟩ := Dom.rootSub_isSome d e hroot
  have h1 := Dom.insertChildAt_rootSub d p off m e hnd a c hrs
  have hfd : d.findN e = some (a, c) := Dom.rootSub_findN d e (a, c) hnd hrs
  have hfd' := Dom.rootSub_findN _ e _ hnd' h1
  intro q hq
  simp only [subNodes, hfd'] at hq
  simp only [subNodes, hfd]
  rcases List.mem_cons.mp hq with rfl | hq2
  · exact Or.inl (List.mem_cons_self _ _)
  · by_cases hep : e = p
    · rw [if_pos hep] at hq2
      rcases Dom.insertChainAt_collect c off m q hq2 with h | h
      · exact Or.inl (List.mem_cons_of_mem _ h)
      · exact Or.inr h
    · rw [if_neg hep] at hq2
      rcases Dom.insertChildAt_collect c p off m q hq2 with h | h
      · exact Or.inl (List.mem_cons_of_mem _ h)
      · exact Or.inr h

/-! ### `instantiate` lemmas -/

theorem TDom.instantiate_node (a : Attrs) (c s : TDom) (k : Nat) :
    (TDom.node a c s).instantiate k
      = (Dom.node k a ((c.instantiate (k + 1)).1)
          ((s.instantiate ((c.instantiate (k + 1)).2)).1),
         (s.instantiate ((c.instantiate (k + 1)).2)).2) := rfl

theorem TDom.instantiate_snd_le (tpl : TDom) (k : Nat) :
    k ≤ (tpl.instantiate k).2 := by
  induction tpl generalizing k with
  | nil => exact Nat.le_refl k
  | node a c s ihc ihs =>
    rw [TDom.instantiate_node]
    dsimp only
    have h1 := ihc (k + 1)
    have h2 := ihs ((c.instantiate (k + 1)).2)
    omega

theorem TDom.instantiate_nids_bounds (tpl : TDom) (k : Nat) :
    ∀ x ∈ ((tpl.instantiate k).1).nids, k ≤ x ∧ x < (tpl.instantiate k).2 := by
  induction tpl generalizing k with
  | nil => intro x hx; simp [TDom.instantiate, Dom.nids] at hx
  | node a c s ihc ihs =>
    intro x hx
    rw [TDom.instantiate_node] at hx ⊢
    dsimp only at hx ⊢
    simp only [Dom.nids, List.mem_cons, List.mem_append] at hx
    have hc := ihc (k + 1)
    have hs := ihs ((c.instantiate (k + 1)).2)
    have h1 := TDom.instantiate_snd_le c (k + 1)
    have h2 := TDom.instantiate_snd_le s ((c.instantiate (k + 1)).2)
    rcases hx with rfl | hm | hm
    · omega
    · have := hc x hm
      omega
    · have := hs x hm
      omega

theorem TDom.instantiate_nodup (tpl : TDom) (k : Nat) :
    ((tpl.instantiate k).1).nids.Nodup := by
  induction tpl generalizing k with
  | nil => simp [TDom.instantiate, Dom.nids]
  | node a c s ihc ihs =>
    rw [TDom.instantiate_node]
    dsimp only
    simp only [Dom.nids, List.nodup_cons, List.mem_append, List.nodup_append]
    have hc := TDom.instantiate_nids_bounds c (k + 1)
    have hs := TDom.instantiate_nids_bounds s ((c.instantiate (k + 1)).2)
    have h1 := TDom.instantiate_snd_le c (k + 1)
    refine ⟨?_, ihc (k + 1), ihs _, ?_⟩
    · intro hmem
      rcases hmem with hm | hm
      · have := (hc k hm).1
        omega
      · have := (hs k hm).1
        omega
    · intro x hx1 hx2
      have hb1 := (hc x hx1).2
      have hb2 := (hs x hx2).1
      omega

theorem TDom.instantiate_markerFree (tpl : TDom) (k : Nat)
    (h : tpl.markerFree = true) :
    ∀ q ∈ ((tpl.instantiate k).1).collectNodes, q.2.componentId = none := by
  induction tpl generalizing k with
  | nil => intro q hq; simp [TDom.instantiate, Dom.collectNodes] at hq
  | node a c s ihc ihs =>
    intro q hq
    simp only [TDom.markerFree, Bool.and_eq_true, decide_eq_true_eq] at h
    obtain ⟨⟨h1, h2⟩, h3⟩ := h
    rw [TDom.instantiate_node] at hq
    dsimp only at hq
    simp only [Dom.collectNodes, List.mem_cons, List.mem_append] at hq
    rcases hq with rfl | hm | hm
    · exact h1
    · exact ihc (k + 1) h2 q hm
    · exact ihs _ h3 q hm

theorem subNodes_docRemove (d : Dom) (t e : Nat)
    (hnd : d.nids.Nodup) (hroot : e ∈ d.rootNids) (hne : e ≠ t) :
    ∀ q ∈ subNodes (docRemove d t) e, q ∈ subNodes d e ∧ q.1 ≠ t := by
  obtain ⟨⟨a, c⟩, hrs⟩ := Dom.rootSub_isSome d e hroot
  obtain ⟨c', hrs', hsub, hnotm⟩ := docRemove_rootSub d t e a c hnd hne hrs
  have hnd' : (docRemove d t).nids.Nodup :=
    (docRemove_nids_perm d t).nodup_iff.mpr hnd
  have hfd : d.findN e = some (a, c) := Dom.rootSub_findN d e (a, c) hnd hrs
  have hfd' : (docRemove d t).findN e = some (a, c') :=
    Dom.rootSub_findN _ e (a, c') hnd' hrs'
  intro q hq
  simp only [subNodes, hfd'] at hq
  simp only [subNodes, hfd]
  rcases List.mem_cons.mp hq with rfl | hq2
  · exact ⟨List.mem_cons_self _ _, hne⟩
  · refine ⟨List.mem_cons_of_mem _ (hsub q hq2), ?_⟩
    intro hqt
    exact hnotm (hqt ▸ Dom.mem_nids_of_mem_collectNodes c' q hq2)

/-! ### Registry membership and state bridging lemmas -/

theorem mem_mapSet (m : Registry) (k : String) (v : ComponentData)
    (kv : String × ComponentData) (h : kv ∈ mapSet m k v) :
    kv = (k, v) ∨ kv ∈ m := by
  unfold mapSet at h
  by_cases ha : m.any (fun kv => kv.1 = k)
  · rw [if_pos ha] at h
    obtain ⟨q, hq, he⟩ := List.mem_map.mp h
    by_cases hk : q.1 = k
    · rw [if_pos hk] at he
      exact Or.inl he.symm
    · rw [if_neg hk] at he
      exact Or.inr (he ▸ hq)
  · rw [if_neg ha] at h
    rcases List.mem_append.mp h with h2 | h2
    · exact Or.inr h2
    · exact Or.inl (List.mem_singleton.mp h2)

theorem mem_mapDel (m : Registry) (k : String) (kv : String × ComponentData)
    (h : kv ∈ mapDel m k) : kv ∈ m := by
  unfold mapDel at h
  exact List.mem_of_mem_filter h

theorem mapGet_mem (m : Registry) (k : String) (v : ComponentData)
    (h : mapGet m k = some v) : ∃ kv ∈ m, kv.1 = k ∧ kv.2 = v := by
  unfold mapGet at h
  cases hf : m.find? (fun kv => kv.1 = k) with
  | none =>
    rw [hf] at h
    exact Option.noConfusion h
  | some q =>
    rw [hf] at h
    simp only [Option.map] at h
    rw [Option.some.injEq] at h
    have hm := List.mem_of_find?_eq_some hf
    have hk := List.find?_some hf
    simp only [decide_eq_true_eq] at hk
    exact ⟨q, hm, hk, h⟩

theorem editorNodes_eq_subNodes (s : MState) (e0 : Nat) (h : s.editor = some e0) :
    editorNodes s = subNodes s.doc e0 := by
  unfold editorNodes subNodes
  rw [h]
  dsimp only
  cases hf : s.doc.findN e0 with
  | none => rfl
  | some p => cases p with | mk a c => rfl

theorem subNodes_sub_collect (d : Dom) (e : Nat) :
    ∀ q ∈ subNodes d e, q ∈ d.collectNodes := by
  unfold subNodes
  cases hf : d.findN e with
  | none => intro q hq; simp at hq
  | some p =>
    cases p with
    | mk a c =>
      intro q hq
      rcases List.mem_cons.mp hq with rfl | hq2
      · exact Dom.mem_collectNodes_of_findN d e a c hf
      · exact Dom.collectNodes_sub_of_findN d e a c hf q hq2

theorem Dom.rootNids_patchAt (d : Dom) (t : Nat) (f : Attrs → Attrs) :
    (d.patchAt t f).rootNids = d.rootNids := by
  induction d with
  | nil => rfl
  | node n a c s ihc ihs => simp only [Dom.patchAt, Dom.rootNids, ihs]

theorem subNodes_patchAt (d : Dom) (t e : Nat) (f : Attrs → Attrs) (hne : e ≠ t) :
    subNodes (d.patchAt t f) e
      = (subNodes d e).map (fun q => if q.1 = t then (q.1, f q.2) else q) := by
  unfold subNodes
  rw [Dom.findN_patchAt]
  cases hf : d.findN e with
  | none => rfl
  | some p =>
    cases p with
    | mk a c =>
      simp only [Option.map, if_neg hne, List.map_cons, Dom.collectNodes_patchAt]

theorem WInv_of_eq (e0 : Nat) (s s' : MState) (hinv : WInv e0 s)
    (hed : s'.editor = some e0) (hdoc : s'.doc = s.doc)
    (hcomp : s'.components = s.components) (hnid : s'.nextNid = s.nextNid) :
    WInv e0 s' := by
  refine ⟨hed, ?_, ?_, ?_, ?_, ?_, ?_, ?_⟩
  · rw [hdoc]; exact hinv.root_mem
  · rw [hdoc]; exact hinv.nodup
  · intro n hn
    rw [hdoc] at hn
    rw [hnid]
    exact hinv.bound n hn
  · intro q hq m hm
    rw [editorNodes_eq_subNodes s' e0 hed, hdoc,
      ← editorNodes_eq_subNodes s e0 hinv.editor_eq] at hq
    obtain ⟨r, h1, h2⟩ := hinv.half1 q hq m hm
    exact ⟨r, by rw [hcomp]; exact h1, h2⟩
  · intro kv hkv en a hel hmem
    rw [hcomp] at hkv
    rw [editorNodes_eq_subNodes s' e0 hed, hdoc,
      ← editorNodes_eq_subNodes s e0 hinv.editor_eq] at hmem
    exact hinv.half2 kv hkv en a hel hmem
  · intro kv hkv
    rw [hcomp] at hkv
    exact hinv.not_root kv hkv
  · intro kv hkv en hel
    rw [hcomp] at hkv
    rw [hnid]
    exact hinv.el_bound kv hkv en hel

/-- Core preservation lemma for a registration (`registerElement` /
`registerImage`): stamping a fresh marker on an attached, unmarked,
non-root node and storing a record pointing back at it keeps the
bijection. -/
theorem reg_preserves (e0 : Nat) (s s' : MState) (t : Nat) (rec0 : ComponentData)
    (hinv : WInv e0 s) (hatt : attachedNid s t = true) (hne : t ≠ e0)
    (hmk : markerAt s.doc t = none)
    (_hkey : mapGet s.components s.freshId = none)
    (hfr : ∀ q ∈ editorNodes s, q.2.componentId ≠ some s.freshId)
    (hrec : rec0.element = some t)
    (hed : s'.editor = some e0)
    (hdoc : s'.doc
      = s.doc.patchAt t (fun a => { a with componentId := some s.freshId }))
    (hcomp : s'.components = mapSet s.components s.freshId rec0)
    (hnid : s'.nextNid = s.nextNid) :
    WInv e0 s' := by
  obtain ⟨⟨aR, cR⟩, hrsR⟩ := Dom.rootSub_isSome s.doc e0 hinv.root_mem
  have hfR : s.doc.findN e0 = some (aR, cR) :=
    Dom.rootSub_findN s.doc e0 (aR, cR) hinv.nodup hrsR
  have hatt2 : t = e0 ∨ cR.hasNid t = true := by
    unfold attachedNid at hatt
    rw [hinv.editor_eq] at hatt
    dsimp only at hatt
    rw [hfR] at hatt
    simpa using hatt
  have htmem : t ∈ s.doc.nids := by
    rcases hatt2 with rfl | h
    · exact Dom.rootNids_sub_nids s.doc t hinv.root_mem
    · exact Dom.findN_mem_sub s.doc e0 aR cR hfR t (List.elem_iff.mp h)
  have hEsub : editorNodes s = subNodes s.doc e0 :=
    editorNodes_eq_subNodes s e0 hinv.editor_eq
  obtain ⟨aT, cT, hfT, hmkT⟩ :
      ∃ aT cT, s.doc.findN t = some (aT, cT) ∧ aT.componentId = none := by
    have h1 := Dom.findN_isSome_of_mem s.doc t htmem
    cases hft : s.doc.findN t with
    | none =>
      rw [hft] at h1
      simp at h1
    | some p =>
      cases p with
      | mk aT cT =>
        refine ⟨aT, cT, rfl, ?_⟩
        unfold markerAt at hmk
        rw [hft] at hmk
        exact hmk
  refine ⟨hed, ?_, ?_, ?_, ?_, ?_, ?_, ?_⟩
  · rw [hdoc, Dom.rootNids_patchAt]
    exact hinv.root_mem
  · rw [hdoc, Dom.nids_patchAt]
    exact hinv.nodup
  · intro n hn
    rw [hdoc, Dom.nids_patchAt] at hn
    rw [hnid]
    exact hinv.bound n hn
  · intro q hq m hm
    rw [editorNodes_eq_subNodes s' e0 hed, hdoc,
      subNodes_patchAt s.doc t e0 _ (Ne.symm hne)] at hq
    obtain ⟨q0, hq0, hqe⟩ := List.mem_map.mp hq
    rw [← hEsub] at hq0
    by_cases hq0t : q0.1 = t
    · rw [if_pos hq0t] at hqe
      subst hqe
      dsimp only at hm
      rw [Option.some.injEq] at hm
      refine ⟨rec0, ?_, ?_⟩
      · rw [hcomp, ← hm]
        exact mapGet_mapSet_self _ _ _
      · rw [hrec]
        dsimp only
        rw [hq0t]
    · rw [if_neg hq0t] at hqe
      subst hqe
      obtain ⟨r, h1, h2⟩ := hinv.half1 q0 hq0 m hm
      have hmne : m ≠ s.freshId := fun hv => hfr q0 hq0 (hv ▸ hm)
      refine ⟨r, ?_, h2⟩
      rw [hcomp, mapGet_mapSet_ne _ _ _ _ hmne]
      exact h1
  · intro kv hkv en a hel hmem
    rw [hcomp] at hkv
    rw [editorNodes_eq_subNodes s' e0 hed, hdoc,
      subNodes_patchAt s.doc t e0 _ (Ne.symm hne)] at hmem
    obtain ⟨q0, hq0, hqe⟩ := List.mem_map.mp hmem
    rw [← hEsub] at hq0
    rcases mem_mapSet s.components s.freshId rec0 kv hkv with rfl | hold
    · dsimp only at hel
      rw [hrec, Option.some.injEq] at hel
      by_cases hq0t : q0.1 = t
      · rw [if_pos hq0t] at hqe
        rw [Prod.mk.injEq] at hqe
        obtain ⟨he1, he2⟩ := hqe
        rw [← he2]
      · rw [if_neg hq0t] at hqe
        exfalso
        exact hq0t (by rw [hqe, ← hel])
    · by_cases hq0t : q0.1 = t
      · rw [if_pos hq0t] at hqe
        rw [Prod.mk.injEq] at hqe
        obtain ⟨he1, he2⟩ := hqe
        exfalso
        have hqq : q0 = (en, q0.2) := by rw [← he1]
        rw [hqq] at hq0
        have hh2 := hinv.half2 kv hold en q0.2 hel hq0
        have hent : en = t := he1.symm.trans hq0t
        have hcol : (t, q0.2) ∈ s.doc.collectNodes := by
          rw [← hent]
          exact subNodes_sub_collect s.doc e0 (en, q0.2) (hEsub ▸ hq0)
        have hu := Dom.findN_attrs_unique s.doc t q0.2 hinv.nodup hcol
          (aT, cT) hfT
        have hq2n : q0.2.componentId = none := by
          rw [← hu]
          exact hmkT
        rw [hh2] at hq2n
        exact Option.noConfusion hq2n
      · rw [if_neg hq0t] at hqe
        subst hqe
        exact hinv.half2 kv hold en a hel hq0
  · intro kv hkv
    rw [hcomp] at hkv
    rcases mem_mapSet s.components s.freshId rec0 kv hkv with rfl | hold
    · dsimp only
      rw [hrec]
      intro hv
      rw [Option.some.injEq] at hv
      exact hne hv
    · exact hinv.not_root kv hold
  · intro kv hkv en hel
    rw [hcomp] at hkv
    rw [hnid]
    rcases mem_mapSet s.components s.freshId rec0 kv hkv with rfl | hold
    · dsimp only at hel
      rw [hrec, Option.some.injEq] at hel
      rw [← hel]
      exact hinv.bound t htmem
    · exact hinv.el_bound kv hold en hel

/-- Unpack `attachedNid` under the invariant: an attached node is in the
document, and is the root or a member of the root's child chain. -/
theorem attached_cases (e0 : Nat) (s : MState) (t : Nat) (hinv : WInv e0 s)
    (hatt : attachedNid s t = true) :
    t ∈ s.doc.nids ∧
      (t = e0 ∨ ∃ aR cR, s.doc.findN e0 = some (aR, cR) ∧ t ∈ cR.nids) := by
  obtain ⟨⟨aR, cR⟩, hrsR⟩ := Dom.rootSub_isSome s.doc e0 hinv.root_mem
  have hfR : s.doc.findN e0 = some (aR, cR) :=
    Dom.rootSub_findN s.doc e0 (aR, cR) hinv.nodup hrsR
  unfold attachedNid at hatt
  rw [hinv.editor_eq] at hatt
  dsimp only at hatt
  rw [hfR] at hatt
  have hatt2 : t = e0 ∨ cR.hasNid t = true := by simpa using hatt
  rcases hatt2 with rfl | h
  · exact ⟨Dom.rootNids_sub_nids s.doc t hinv.root_mem, Or.inl rfl⟩
  · have htc : t ∈ cR.nids := List.elem_iff.mp h
    exact ⟨Dom.findN_mem_sub s.doc e0 aR cR hfR t htc,
      Or.inr ⟨aR, cR, hfR, htc⟩⟩

theorem registerElementAt_preserves (e0 : Nat) (s : MState) (t : Nat)
    (hinv : WInv e0 s) (hatt : attachedNid s t = true) (hne : t ≠ e0)
    (hmk : markerAt s.doc t = none)
    (hkey : mapGet s.components s.freshId = none)
    (hfr : ∀ q ∈ editorNodes s, q.2.componentId ≠ some s.freshId) :
    WInv e0 (registerElementAt s t).2 := by
  have hshape : ∃ rec0 : ComponentData, rec0.element = some t ∧
      (registerElementAt s t).2.components = mapSet s.components s.freshId rec0 ∧
      (registerElementAt s t).2.doc
        = s.doc.patchAt t (fun a => { a with componentId := some s.freshId }) := by
    cases hx : (s.doc.patchAt t
        (fun a => { a with componentId := some s.freshId })).findN t with
    | none =>
      refine ⟨{ id := s.freshId, ctype := .image, props := [],
                element := some t }, rfl, ?_, ?_⟩
      · simp only [registerElementAt, afterDraw_doc, afterDraw_components, hx]
      · simp only [registerElementAt, afterDraw_doc, afterDraw_components]
    | some q =>
      cases q with
      | mk a c =>
        refine ⟨{ id := s.freshId, ctype := detectComponentType a,
                  props := extractProps a c (detectComponentType a),
                  element := some t }, rfl, ?_, ?_⟩
        · simp only [registerElementAt, afterDraw_doc, afterDraw_components, hx]
        · simp only [registerElementAt, afterDraw_doc, afterDraw_components]
  obtain ⟨rec0, hrec, hcomp, hdoc⟩ := hshape
  exact reg_preserves e0 s (registerElementAt s t).2 t rec0 hinv hatt hne hmk
    hkey hfr hrec hinv.editor_eq hdoc hcomp rfl

theorem registerImageAt_preserves (e0 : Nat) (s : MState) (t : Nat)
    (hinv : WInv e0 s) (hatt : attachedNid s t = true) (hne : t ≠ e0)
    (hmk : markerAt s.doc t = none)
    (hkey : mapGet s.components s.freshId = none)
    (hfr : ∀ q ∈ editorNodes s, q.2.componentId ≠ some s.freshId) :
    WInv e0 (registerImageAt s t).2 := by
  have hshape : ∃ rec0 : ComponentData, rec0.element = some t ∧
      (registerImageAt s t).2.components = mapSet s.components s.freshId rec0 ∧
      (registerImageAt s t).2.doc
        = s.doc.patchAt t (fun a => { a with componentId := some s.freshId }) := by
    cases hx : (s.doc.patchAt t
        (fun a => { a with componentId := some s.freshId })).findN t with
    | none =>
      refine ⟨{ id := s.freshId, ctype := .image, props := [],
                element := some t }, rfl, ?_, ?_⟩
      · simp only [registerImageAt, afterDraw_doc, afterDraw_components, hx]
      · simp only [registerImageAt, afterDraw_doc, afterDraw_components]
    | some q =>
      cases q with
      | mk a c =>
        refine ⟨{ id := s.freshId, ctype := .image,
                  props := [("src", .s a.src), ("alt", .s a.alt),
                    ("width", .s (if a.style.width = "" then "100%"
                                  else a.style.width)),
                    ("layout", .s (detectImageLayout
                      (s.doc.patchAt t
                        (fun a => { a with componentId := some s.freshId })) t
                        a).str)],
                  element := some t }, rfl, ?_, ?_⟩
        · simp only [registerImageAt, afterDraw_doc, afterDraw_components, hx]
        · simp only [registerImageAt, afterDraw_doc, afterDraw_components]
  obtain ⟨rec0, hrec, hcomp, hdoc⟩ := hshape
  exact reg_preserves e0 s (registerImageAt s t).2 t rec0 hinv hatt hne hmk
    hkey hfr hrec hinv.editor_eq hdoc hcomp rfl

theorem docRemove_preserves (e0 : Nat) (s s' : MState) (t : Nat)
    (hinv : WInv e0 s) (hed : s'.editor = some e0)
    (hdoc : s'.doc = docRemove s.doc t)
    (hcomp : s'.components = s.components)
    (hnid : s'.nextNid = s.nextNid) : WInv e0 s' := by
  by_cases hte : t = e0
  · refine WInv_of_eq e0 s s' hinv hed ?_ hcomp hnid
    rw [hdoc, hte]
    exact docRemove_root_noop s.doc e0 hinv.nodup hinv.root_mem
  · have hN := subNodes_docRemove s.doc t e0 hinv.nodup hinv.root_mem
      (fun hv => hte hv.symm)
    refine ⟨hed, ?_, ?_, ?_, ?_, ?_, ?_, ?_⟩
    · rw [hdoc]
      exact docRemove_rootNids_mem s.doc t e0 hinv.root_mem
    · rw [hdoc]
      exact (docRemove_nids_perm s.doc t).nodup_iff.mpr hinv.nodup
    · intro n hn
      rw [hdoc] at hn
      rw [hnid]
      exact hinv.bound n ((docRemove_nids_perm s.doc t).mem_iff.mp hn)
    · intro q hq m hm
      rw [editorNodes_eq_subNodes s' e0 hed, hdoc] at hq
      obtain ⟨hq1, hq2⟩ := hN q hq
      rw [← editorNodes_eq_subNodes s e0 hinv.editor_eq] at hq1
      obtain ⟨r, h1, h2⟩ := hinv.half1 q hq1 m hm
      exact ⟨r, by rw [hcomp]; exact h1, h2⟩
    · intro kv hkv en a hel hmem
      rw [hcomp] at hkv
      rw [editorNodes_eq_subNodes s' e0 hed, hdoc] at hmem
      obtain ⟨hm1, hm2⟩ := hN (en, a) hmem
      rw [← editorNodes_eq_subNodes s e0 hinv.editor_eq] at hm1
      exact hinv.half2 kv hkv en a hel hm1
    · intro kv hkv
      rw [hcomp] at hkv
      exact hinv.not_root kv hkv
    · intro kv hkv en hel
      rw [hcomp] at hkv
      rw [hnid]
      exact hinv.el_bound kv hkv en hel

/-- Deleting the record keyed by the marker of the removed node keeps the
bijection: no remaining attached node can carry that marker. -/
theorem del_entry_preserves (e0 : Nat) (s s' : MState) (t : Nat) (m0 : String)
    (r0 : ComponentData) (hinv : WInv e0 s) (hed : s'.editor = some e0)
    (hdoc : s'.doc = docRemove s.doc t)
    (hcomp : s'.components = mapDel s.components m0)
    (hnid : s'.nextNid = s.nextNid)
    (hr : mapGet s.components m0 = some r0)
    (hrel : r0.element = some t) : WInv e0 s' := by
  obtain ⟨kv0, hkv0, hk1, hk2⟩ := mapGet_mem s.components m0 r0 hr
  have hte : t ≠ e0 := by
    intro hv
    exact hinv.not_root kv0 hkv0 (by rw [hk2, hrel, hv])
  have hN := subNodes_docRemove s.doc t e0 hinv.nodup hinv.root_mem
    (fun hv => hte hv.symm)
  refine ⟨hed, ?_, ?_, ?_, ?_, ?_, ?_, ?_⟩
  · rw [hdoc]
    exact docRemove_rootNids_mem s.doc t e0 hinv.root_mem
  · rw [hdoc]
    exact (docRemove_nids_perm s.doc t).nodup_iff.mpr hinv.nodup
  · intro n hn
    rw [hdoc] at hn
    rw [hnid]
    exact hinv.bound n ((docRemove_nids_perm s.doc t).mem_iff.mp hn)
  · intro q hq m hm
    rw [editorNodes_eq_subNodes s' e0 hed, hdoc] at hq
    obtain ⟨hq1, hq2⟩ := hN q hq
    rw [← editorNodes_eq_subNodes s e0 hinv.editor_eq] at hq1
    obtain ⟨r, h1, h2⟩ := hinv.half1 q hq1 m hm
    have hmne : m ≠ m0 := by
      intro hv
      subst hv
      rw [hr] at h1
      rw [Option.some.injEq] at h1
      subst h1
      rw [hrel] at h2
      exact hq2 ((Option.some.injEq _ _).mp h2).symm
    refine ⟨r, ?_, h2⟩
    rw [hcomp, mapGet_mapDel_ne _ _ _ hmne]
    exact h1
  · intro kv hkv en a hel hmem
    rw [hcomp] at hkv
    have hkv2 := mem_mapDel s.components m0 kv hkv
    rw [editorNodes_eq_subNodes s' e0 hed, hdoc] at hmem
    obtain ⟨hm1, hm2⟩ := hN (en, a) hmem
    rw [← editorNodes_eq_subNodes s e0 hinv.editor_eq] at hm1
    exact hinv.half2 kv hkv2 en a hel hm1
  · intro kv hkv
    rw [hcomp] at hkv
    exact hinv.not_root kv (mem_mapDel _ _ kv hkv)
  · intro kv hkv en hel
    rw [hcomp] at hkv
    rw [hnid]
    exact hinv.el_bound kv (mem_mapDel _ _ kv hkv) en hel

theorem WInv_ite (e0 : Nat) (c : Prop) [Decidable c] (x y : MState)
    (h1 : c → WInv e0 x) (h2 : ¬ c → WInv e0 y) :
    WInv e0 (if c then x else y) := by
  by_cases hc : c
  · rw [if_pos hc]
    exact h1 hc
  · rw [if_neg hc]
    exact h2 hc

theorem WInv_ite_arg (e0 : Nat) (c : Prop) [Decidable c] (x y : MState)
    (f : MState → MState)
    (h1 : c → WInv e0 (f x)) (h2 : ¬ c → WInv e0 (f y)) :
    WInv e0 (f (if c then x else y)) := by
  by_cases hc : c
  · rw [if_pos hc]
    exact h1 hc
  · rw [if_neg hc]
    exact h2 hc

theorem insert_preserves (e0 : Nat) (s s' : MState) (p off : Nat) (tree : Dom)
    (n' : Nat) (hinv : WInv e0 s)
    (hbnd : ∀ x ∈ tree.nids, s.nextNid ≤ x ∧ x < n')
    (hndT : tree.nids.Nodup)
    (hmkT : ∀ q ∈ tree.collectNodes, q.2.componentId = none)
    (hn' : s.nextNid ≤ n')
    (hp : p ∈ s.doc.nids)
    (hed : s'.editor = some e0)
    (hdoc : s'.doc = s.doc.insertChildAt p off tree)
    (hcomp : s'.components = s.components)
    (hnid : s'.nextNid = n') : WInv e0 s' := by
  have hperm := Dom.insertChildAt_nids_perm s.doc p off tree hinv.nodup hp
  have hnd' : (s.doc.insertChildAt p off tree).nids.Nodup := by
    refine hperm.nodup_iff.mpr ?_
    rw [List.nodup_append]
    refine ⟨hinv.nodup, hndT, ?_⟩
    intro x hx1 hx2
    have hb1 := hinv.bound x hx1
    have hb2 := (hbnd x hx2).1
    omega
  have hI := subNodes_insertChildAt s.doc p off tree e0 hinv.nodup hnd'
    hinv.root_mem
  refine ⟨hed, ?_, ?_, ?_, ?_, ?_, ?_, ?_⟩
  · rw [hdoc, Dom.insertChildAt_rootNids]
    exact hinv.root_mem
  · rw [hdoc]
    exact hnd'
  · intro n hn
    rw [hdoc] at hn
    rw [hnid]
    rcases List.mem_append.mp (hperm.mem_iff.mp hn) with h | h
    · have := hinv.bound n h
      omega
    · exact (hbnd n h).2
  · intro q hq m hm
    rw [editorNodes_eq_subNodes s' e0 hed, hdoc] at hq
    rcases hI q hq with h | h
    · rw [← editorNodes_eq_subNodes s e0 hinv.editor_eq] at h
      obtain ⟨r, h1, h2⟩ := hinv.half1 q h m hm
      exact ⟨r, by rw [hcomp]; exact h1, h2⟩
    · exfalso
      rw [hmkT q h] at hm
      exact Option.noConfusion hm
  · intro kv hkv en a hel hmem
    rw [hcomp] at hkv
    rw [editorNodes_eq_subNodes s' e0 hed, hdoc] at hmem
    rcases hI (en, a) hmem with h | h
    · rw [← editorNodes_eq_subNodes s e0 hinv.editor_eq] at h
      exact hinv.half2 kv hkv en a hel h
    · exfalso
      have hb := hinv.el_bound kv hkv en hel
      have := (hbnd en (Dom.mem_nids_of_mem_collectNodes tree (en, a) h)).1
      omega
  · intro kv hkv
    rw [hcomp] at hkv
    exact hinv.not_root kv hkv
  · intro kv hkv en hel
    rw [hcomp] at hkv
    rw [hnid]
    have := hinv.el_bound kv hkv en hel
    omega

theorem cat_preserves (e0 : Nat) (s s' : MState) (tree : Dom) (n' : Nat)
    (hinv : WInv e0 s)
    (hbnd : ∀ x ∈ tree.nids, s.nextNid ≤ x ∧ x < n')
    (hndT : tree.nids.Nodup)
    (hn' : s.nextNid ≤ n')
    (hed : s'.editor = some e0)
    (hdoc : s'.doc = s.doc.cat tree)
    (hcomp : s'.components = s.components)
    (hnid : s'.nextNid = n') : WInv e0 s' := by
  have hnids : (s.doc.cat tree).nids = s.doc.nids ++ tree.nids :=
    Dom.nids_cat _ _
  have hnd' : (s.doc.cat tree).nids.Nodup := by
    rw [hnids, List.nodup_append]
    refine ⟨hinv.nodup, hndT, ?_⟩
    intro x hx1 hx2
    have := hinv.bound x hx1
    have := (hbnd x hx2).1
    omega
  have hsub : subNodes (s.doc.cat tree) e0 = subNodes s.doc e0 :=
    subNodes_cat s.doc tree e0 hnd' hinv.nodup hinv.root_mem
  refine ⟨hed, ?_, ?_, ?_, ?_, ?_, ?_, ?_⟩
  · rw [hdoc]
    exact Dom.rootNids_cat_left s.doc tree e0 hinv.root_mem
  · rw [hdoc]
    exact hnd'
  · intro n hn
    rw [hdoc, hnids] at hn
    rw [hnid]
    rcases List.mem_append.mp hn with h | h
    · have := hinv.bound n h
      omega
    · exact (hbnd n h).2
  · intro q hq m hm
    rw [editorNodes_eq_subNodes s' e0 hed, hdoc, hsub,
      ← editorNodes_eq_subNodes s e0 hinv.editor_eq] at hq
    obtain ⟨r, h1, h2⟩ := hinv.half1 q hq m hm
    exact ⟨r, by rw [hcomp]; exact h1, h2⟩
  · intro kv hkv en a hel hmem
    rw [hcomp] at hkv
    rw [editorNodes_eq_subNodes s' e0 hed, hdoc, hsub,
      ← editorNodes_eq_subNodes s e0 hinv.editor_eq] at hmem
    exact hinv.half2 kv hkv en a hel hmem
  · intro kv hkv
    rw [hcomp] at hkv
    exact hinv.not_root kv hkv
  · intro kv hkv en hel
    rw [hcomp] at hkv
    rw [hnid]
    have := hinv.el_bound kv hkv en hel
    omega

theorem attached_insertChildAt (e0 : Nat) (s s1 : MState) (p off : Nat)
    (tree : Dom) (x : Nat) (hinv : WInv e0 s)
    (hattp : attachedNid s p = true)
    (hx : x ∈ tree.nids)
    (hed1 : s1.editor = some e0)
    (hdoc1 : s1.doc = s.doc.insertChildAt p off tree)
    (hnd1 : s1.doc.nids.Nodup) :
    attachedNid s1 x = true := by
  obtain ⟨hpmem, hcases⟩ := attached_cases e0 s p hinv hattp
  obtain ⟨⟨aR, cR⟩, hrsR⟩ := Dom.rootSub_isSome s.doc e0 hinv.root_mem
  have hfR : s.doc.findN e0 = some (aR, cR) :=
    Dom.rootSub_findN s.doc e0 (aR, cR) hinv.nodup hrsR
  have hrs1 := Dom.insertChildAt_rootSub s.doc p off tree e0 hinv.nodup aR cR
    hrsR
  have hnd1' : (s.doc.insertChildAt p off tree).nids.Nodup := hdoc1 ▸ hnd1
  have hf1 : (s.doc.insertChildAt p off tree).findN e0
      = some (aR, if e0 = p then cR.insertChainAt off tree
                  else cR.insertChildAt p off tree) :=
    Dom.rootSub_findN _ e0 _ hnd1' hrs1
  have hxmem : x ∈ (if e0 = p then cR.insertChainAt off tree
      else cR.insertChildAt p off tree).nids := by
    by_cases hep : e0 = p
    · rw [if_pos hep]
      exact (Dom.insertChainAt_nids_perm cR off tree).mem_iff.mpr
        (List.mem_append.mpr (Or.inr hx))
    · rw [if_neg hep]
      have hpc : p ∈ cR.nids := by
        rcases hcases with rfl | ⟨aR2, cR2, hf2, hm2⟩
        · exact absurd rfl hep
        · rw [hfR, Option.some.injEq, Prod.mk.injEq] at hf2
          exact hf2.2 ▸ hm2
      have hndc : cR.nids.Nodup :=
        Dom.nodup_sub_of_findN s.doc e0 aR cR hinv.nodup hfR
      exact (Dom.insertChildAt_nids_perm cR p off tree hndc hpc).mem_iff.mpr
        (List.mem_append.mpr (Or.inr hx))
  unfold attachedNid
  rw [hed1]
  dsimp only
  rw [hdoc1, hf1]
  have hb : (if e0 = p then cR.insertChainAt off tree
      else cR.insertChildAt p off tree).hasNid x = true := by
    unfold Dom.hasNid
    exact List.elem_iff.mpr hxmem
  dsimp only
  rw [hb]
  simp

theorem watchAddedImg_preserves (e0 : Nat) (s2 : MState) (t : Nat)
    (hinv2 : WInv e0 s2)
    (hatt : ∀ q : Attrs × Dom, s2.doc.findN t = some q → attachedNid s2 t = true)
    (hne : t ≠ e0)
    (hkey : mapGet s2.components s2.freshId = none)
    (hfr : ∀ q ∈ editorNodes s2, q.2.componentId ≠ some s2.freshId) :
    WInv e0 (watchAddedImg s2 t) := by
  unfold watchAddedImg
  cases hfa : s2.doc.findN t with
  | none => exact hinv2
  | some q =>
    cases q with
    | mk a c =>
      dsimp only
      refine WInv_ite e0 _ _ _ ?_ ?_
      · intro hg
        have hcid : a.componentId = none := by
          simp only [Bool.and_eq_true, decide_eq_true_eq] at hg
          exact hg.2
        have hmk : markerAt s2.doc t = none := by
          unfold markerAt
          rw [hfa]
          exact hcid
        exact registerImageAt_preserves e0 s2 t hinv2 (hatt (a, c) hfa) hne hmk
          hkey hfr
      · intro hg
        exact hinv2

theorem watchAdded_preserves (e0 : Nat) (s1 : MState) (t : Nat)
    (hinv1 : WInv e0 s1)
    (hatt : ∀ q : Attrs × Dom, s1.doc.findN t = some q → attachedNid s1 t = true)
    (hne : t ≠ e0)
    (hkey : mapGet s1.components s1.freshId = none)
    (hfr : ∀ q ∈ editorNodes s1, q.2.componentId ≠ some s1.freshId) :
    WInv e0 (watchAdded s1 t) := by
  unfold watchAdded watchAddedEl
  cases hfa : s1.doc.findN t with
  | none =>
    exact watchAddedImg_preserves e0 s1 t hinv1 hatt hne hkey hfr
  | some q =>
    cases q with
    | mk a c =>
      dsimp only
      refine WInv_ite_arg e0 _ _ _ (fun x => watchAddedImg x t) ?_ ?_
      · intro hg
        have hcid : a.componentId = none := by
          simp only [Bool.and_eq_true, decide_eq_true_eq] at hg
          exact hg.2
        have hmk : markerAt s1.doc t = none := by
          unfold markerAt
          rw [hfa]
          exact hcid
        have hinv2 := registerElementAt_preserves e0 s1 t hinv1 (hatt (a, c) hfa)
          hne hmk hkey hfr
        have hfa2 : (registerElementAt s1 t).2.doc.findN t
            = some ({ a with componentId := some s1.freshId },
                    c.patchAt t
                      (fun a0 => { a0 with componentId := some s1.freshId })) := by
          have hdoc2 : (registerElementAt s1 t).2.doc
              = s1.doc.patchAt t
                  (fun a0 => { a0 with componentId := some s1.freshId }) := by
            simp only [registerElementAt, afterDraw_doc]
          rw [hdoc2, Dom.findN_patchAt, hfa]
          simp
        unfold watchAddedImg
        dsimp only
        rw [hfa2]
        dsimp only
        refine WInv_ite e0 _ _ _ ?_ ?_
        · intro hg2
          exfalso
          simp at hg2
        · intro hg2
          exact hinv2
      · intro hg
        exact watchAddedImg_preserves e0 s1 t hinv1 hatt hne hkey hfr

theorem runWOp_preserves (e0 : Nat) (s : MState) (op : WOp)
    (hinv : WInv e0 s) (hok : wOpOK s op) : WInv e0 (runWOp s op) := by
  cases op with
  | regEl t =>
    obtain ⟨hatt, hned, hmk, hfresh⟩ := hok
    obtain ⟨hkey, hfr⟩ := hfresh
    have hne : t ≠ e0 := fun hv => hned (by rw [hinv.editor_eq, hv])
    exact registerElementAt_preserves e0 s t hinv hatt hne hmk hkey hfr
  | regImg t =>
    obtain ⟨hatt, hned, hmk, hfresh⟩ := hok
    obtain ⟨hkey, hfr⟩ := hfresh
    have hne : t ≠ e0 := fun hv => hned (by rw [hinv.editor_eq, hv])
    exact registerImageAt_preserves e0 s t hinv hatt hne hmk hkey hfr
  | remove id =>
    cases hm : mapGet s.components id with
    | none =>
      have hrun : runWOp s (WOp.remove id) = s := by
        unfold runWOp removeComponent
        dsimp only
        rw [hm]
      rw [hrun]
      exact hinv
    | some comp =>
      cases hel : comp.element with
      | none =>
        have hrun : runWOp s (WOp.remove id) = s := by
          unfold runWOp removeComponent
          dsimp only
          rw [hm]
          dsimp only
          rw [hel]
        rw [hrun]
        exact hinv
      | some t =>
        have hrun : runWOp s (WOp.remove id) =
            syncContent { s with components := mapDel s.components id,
                                 doc := docRemove s.doc t } := by
          unfold runWOp removeComponent
          dsimp only
          rw [hm]
          dsimp only
          rw [hel]
        rw [hrun]
        refine del_entry_preserves e0 s _ t id comp hinv ?_ ?_ ?_ ?_ hm hel
        · rw [syncContent_editor]
          exact hinv.editor_eq
        · rw [syncContent_doc]
        · rw [syncContent_components]
        · rw [syncContent_nextNid]
  | extRemove t =>
    unfold runWOp externalRemove
    have hs1 : WInv e0 { s with doc := docRemove s.doc t } :=
      docRemove_preserves e0 s _ t hinv hinv.editor_eq rfl rfl rfl
    by_cases hedt : s.editor = some t
    · have hobs : (attachedNid s t && decide (s.editor ≠ some t)) = false := by
        simp [hedt]
      simp only [hobs]
      exact hs1
    · by_cases hatt : attachedNid s t = true
      · have hobs : (attachedNid s t && decide (s.editor ≠ some t)) = true := by
          rw [hatt]
          simp [hedt]
        cases hfa : s.doc.findN t with
        | none =>
          simp only [hobs, hfa]
          exact hs1
        | some q =>
          cases q with
          | mk a c =>
            simp only [hobs, hfa]
            unfold watchRemoved
            cases hcid : a.componentId with
            | none => exact hs1
            | some m0 =>
              dsimp only
              have hne : t ≠ e0 := fun hv => hedt (by rw [hinv.editor_eq, hv])
              obtain ⟨htmem, hcasesA⟩ := attached_cases e0 s t hinv hatt
              rcases hcasesA with rfl | ⟨aR, cR, hfR, htc⟩
              · exact absurd rfl hne
              · have h1 := Dom.findN_isSome_of_mem cR t htc
                cases hfc : cR.findN t with
                | none =>
                  rw [hfc] at h1
                  simp at h1
                | some p2 =>
                  cases p2 with
                  | mk a2 c2 =>
                    have hmemSub : (t, a2) ∈ subNodes s.doc e0 := by
                      simp only [subNodes, hfR]
                      exact List.mem_cons_of_mem _
                        (Dom.mem_collectNodes_of_findN cR t a2 c2 hfc)
                    have hcol : (t, a2) ∈ s.doc.collectNodes :=
                      subNodes_sub_collect s.doc e0 (t, a2) hmemSub
                    have hu : a = a2 :=
                      Dom.findN_attrs_unique s.doc t a2 hinv.nodup hcol (a, c) hfa
                    obtain ⟨r0, hr0, hrel0⟩ := hinv.half1 (t, a2)
                      (by
                        rw [editorNodes_eq_subNodes s e0 hinv.editor_eq]
                        exact hmemSub) m0
                      (by rw [← hu]; exact hcid)
                    exact del_entry_preserves e0 s _ t m0 r0 hinv hinv.editor_eq
                      rfl rfl rfl hr0 hrel0
      · have hf : attachedNid s t = false := Bool.eq_false_iff.mpr hatt
        have hobs : (attachedNid s t && decide (s.editor ≠ some t)) = false := by
          rw [hf]
          simp
        simp only [hobs]
        exact hs1
  | extInsert p off tpl =>
    obtain ⟨hmf, hfresh⟩ := hok
    obtain ⟨hkey, hfr⟩ := hfresh
    unfold runWOp externalInsert
    cases hti : tpl.instantiate s.nextNid with
    | mk tree n' =>
      simp only [hti]
      have hbnd : ∀ x ∈ tree.nids, s.nextNid ≤ x ∧ x < n' := by
        have h := TDom.instantiate_nids_bounds tpl s.nextNid
        rw [hti] at h
        exact h
      have hndT : tree.nids.Nodup := by
        have h := TDom.instantiate_nodup tpl s.nextNid
        rw [hti] at h
        exact h
      have hmkT : ∀ q ∈ tree.collectNodes, q.2.componentId = none := by
        have h := TDom.instantiate_markerFree tpl s.nextNid hmf
        rw [hti] at h
        exact h
      have hn' : s.nextNid ≤ n' := by
        have h := TDom.instantiate_snd_le tpl s.nextNid
        rw [hti] at h
        exact h
      by_cases hie : attachedNid s p = true
      · have hpmem : p ∈ s.doc.nids := (attached_cases e0 s p hinv hie).1
        have hhn : s.doc.hasNid p = true := by
          unfold Dom.hasNid
          exact List.elem_iff.mpr hpmem
        simp only [hie, hhn, if_true]
        have hinv1 : WInv e0
            { s with doc := s.doc.insertChildAt p off tree, nextNid := n' } :=
          insert_preserves e0 s _ p off tree n' hinv hbnd hndT hmkT hn' hpmem
            hinv.editor_eq rfl rfl rfl
        refine watchAdded_preserves e0 _ s.nextNid hinv1 ?_ ?_ ?_ ?_
        · intro q hfq
          have hxmem : s.nextNid ∈ tree.nids := by
            have h2 := Dom.mem_of_findN_eq_some _ s.nextNid q hfq
            have hperm := Dom.insertChildAt_nids_perm s.doc p off tree
              hinv.nodup hpmem
            rcases List.mem_append.mp (hperm.mem_iff.mp h2) with h | h
            · exact absurd (hinv.bound _ h) (by omega)
            · exact h
          exact attached_insertChildAt e0 s _ p off tree s.nextNid hinv hie hxmem
            hinv.editor_eq rfl hinv1.nodup
        · intro hv
          have hb := hinv.bound e0 (Dom.rootNids_sub_nids s.doc e0 hinv.root_mem)
          omega
        · exact hkey
        · intro q hq
          rw [editorNodes_eq_subNodes _ e0 hinv1.editor_eq] at hq
          rcases subNodes_insertChildAt s.doc p off tree e0 hinv.nodup
            hinv1.nodup hinv.root_mem q hq with h | h
          · rw [← editorNodes_eq_subNodes s e0 hinv.editor_eq] at h
            exact hfr q h
          · intro hcontra
            rw [hmkT q h] at hcontra
            exact Option.noConfusion hcontra
      · rw [if_neg hie]
        by_cases hnp : s.doc.hasNid p = true
        · rw [if_pos hnp]
          have hpm : p ∈ s.doc.nids := by
            unfold Dom.hasNid at hnp
            exact List.elem_iff.mp hnp
          exact insert_preserves e0 s _ p off tree n' hinv hbnd hndT hmkT hn'
            hpm hinv.editor_eq rfl rfl rfl
        · rw [if_neg hnp]
          exact cat_preserves e0 s _ tree n' hinv hbnd hndT hn' hinv.editor_eq
            rfl rfl rfl

theorem runWOps_preserves (e0 : Nat) (s : MState) (ops : List WOp)
    (hinv : WInv e0 s) (hok : wOpsOK s ops) : WInv e0 (runWOps s ops) := by
  induction ops generalizing s with
  | nil => exact hinv
  | cons op ops ih =>
    obtain ⟨h1, h2⟩ := hok
    exact ih (runWOp s op) (runWOp_preserves e0 s op hinv h1) h2

/-- C2 counterexample: `registerElement` has no already-registered guard, so
calling it on the already-marked figure of `sOneFig` re-registers it: the
node's marker is overwritten with the new id while the old entry keeps
pointing at the (attached) node, whose marker no longer matches — the
entry/marker bijection is broken. -/
theorem double_registration_counterexample :
    markerAt sOneFig.doc 1 = some "cmp-0-r0" ∧
    markerAt (registerElementAt sOneFig 1).2.doc 1 = some "cmp-1-r1" ∧
    (mapGet (registerElementAt sOneFig 1).2.components "cmp-0-r0").map
        (fun r => r.element) = some (some 1) ∧
    attachedNid (registerElementAt sOneFig 1).2 1 = true ∧
    ¬ entriesMatchMarkers (registerElementAt sOneFig 1).2 := by
  refine ⟨by decide, by decide, by decide, by decide, ?_⟩
  intro h
  cases hget : mapGet (registerElementAt sOneFig 1).2.components "cmp-0-r0" with
  | none =>
    have hx : (mapGet (registerElementAt sOneFig 1).2.components "cmp-0-r0").map
        (fun r => r.element) = some (some 1) := by decide
    rw [hget] at hx
    exact Option.noConfusion hx
  | some r =>
    have hx : (mapGet (registerElementAt sOneFig 1).2.components "cmp-0-r0").map
        (fun r => r.element) = some (some 1) := by decide
    rw [hget] at hx
    simp only [Option.map] at hx
    rw [Option.some.injEq] at hx
    obtain ⟨kv, hkv, hk1, hk2⟩ := mapGet_mem _ _ _ hget
    have hmem : ((1 : Nat),
        ({ tag := "figure", componentId := some "cmp-1-r1" } : Attrs))
        ∈ editorNodes (registerElementAt sOneFig 1).2 := by decide
    have hc := h kv hkv 1 { tag := "figure", componentId := some "cmp-1-r1" }
      (by rw [hk2]; exact hx) hmem
    rw [hk1] at hc
    exact absurd hc (by decide)

/-- C2 amended: from an initialized manager bound to a marker-free editable
root with an empty registry, after any sequence of register, remove, and
watcher-reconciliation operations in which every direct registration targets
a currently unmarked non-root attached element with a fresh generated id
(the guards `scanExistingComponents` and the observer callback apply) and
externally inserted subtrees carry no marker attributes, the bijection
holds: every attached node carrying a marker has the matching registry entry
pointing back at it, and every registry entry whose node is attached
corresponds to a node carrying the matching marker.  (Removing an unmarked
subtree with marker-bearing descendants leaves their records in place, but
those records' nodes are detached, so both halves still hold.) -/
theorem watcher_bijection (e0 : Nat) (s : MState) (ops : List WOp)
    (hed : s.editor = some e0)
    (hroot : e0 ∈ s.doc.rootNids)
    (hnd : s.doc.nids.Nodup)
    (hbound : ∀ n ∈ s.doc.nids, n < s.nextNid)
    (hcomp : s.components = [])
    (hmks : ∀ q ∈ editorNodes s, q.2.componentId = none)
    (hok : wOpsOK s ops) :
    markedHaveEntries (runWOps s ops) ∧ entriesMatchMarkers (runWOps s ops) := by
  have hinv : WInv e0 s := by
    refine ⟨hed, hroot, hnd, hbound, ?_, ?_, ?_, ?_⟩
    · intro q hq m hm
      rw [hmks q hq] at hm
      exact Option.noConfusion hm
    · intro kv hkv
      rw [hcomp] at hkv
      simp at hkv
    · intro kv hkv
      rw [hcomp] at hkv
      simp at hkv
    · intro kv hkv
      rw [hcomp] at hkv
      simp at hkv
  have h := runWOps_preserves e0 s ops hinv hok
  exact ⟨h.half1, h.half2⟩

/-- Witness for C2: paste a marker-free figure into the empty editable root
(the watcher registers it), then externally remove it (the watcher deletes
its record); the bijection holds throughout. -/
theorem watcher_bijection_witness :
    markedHaveEntries (runWOps sEmpty
      [WOp.extInsert 0 0 (TDom.node { tag := "figure" } TDom.nil TDom.nil),
       WOp.extRemove 1]) ∧
    entriesMatchMarkers (runWOps sEmpty
      [WOp.extInsert 0 0 (TDom.node { tag := "figure" } TDom.nil TDom.nil),
       WOp.extRemove 1]) :=
  watcher_bijection 0 sEmpty
    [WOp.extInsert 0 0 (TDom.node { tag := "figure" } TDom.nil TDom.nil),
     WOp.extRemove 1]
    (by decide) (by decide) (by decide) (by decide) (by decide) (by decide)
    ⟨⟨by decide, by decide, by decide⟩, trivial, trivial⟩

/-! ## Claim C7 -/

theorem generateId_ne_empty (t : Nat) (r : String) : generateId t r ≠ "" := by
  intro h
  have h2 := congrArg String.data h
  simp only [generateId, String.data_append] at h2
  exact absurd h2 (by simp)

/-- Every id-producing operation either fails without consuming entropy or
returns exactly the id generated from the current draw, consuming one draw;
the entropy stream itself is never altered. -/
theorem runRegOp_id_draw (s : MState) (op : RegOp) :
    ((runRegOp s op).2).entropy = s.entropy ∧
    (((runRegOp s op).1 = none ∧ ((runRegOp s op).2).draws = s.draws) ∨
     ((runRegOp s op).1 = some (gidAt s.entropy s.draws) ∧
      ((runRegOp s op).2).draws = s.draws + 1)) := by
  cases op with
  | regEl t => exact ⟨rfl, Or.inr ⟨rfl, rfl⟩⟩
  | regImg t => exact ⟨rfl, Or.inr ⟨rfl, rfl⟩⟩
  | insertImg src alt u =>
    cases he : s.editor with
    | none =>
      have h1 : runRegOp s (RegOp.insertImg src alt u) = (none, s) := by
        simp [runRegOp, insertImage, he]
      rw [h1]
      exact ⟨rfl, Or.inl ⟨rfl, rfl⟩⟩
    | some ed =>
      have hne : s.freshId ≠ "" := generateId_ne_empty _ _
      refine ⟨?_, Or.inr ⟨?_, ?_⟩⟩
      · simp only [runRegOp, insertImage, he, syncContent_entropy]
        rfl
      · simp only [runRegOp, insertImage, he, if_neg hne]
        rfl
      · simp only [runRegOp, insertImage, he, syncContent_draws]
        rfl
  | dup id =>
    cases hm : mapGet s.components id with
    | none =>
      have h1 : runRegOp s (RegOp.dup id) = (none, s) := by
        simp only [runRegOp, duplicateComponent, hm]
      rw [h1]
      exact ⟨rfl, Or.inl ⟨rfl, rfl⟩⟩
    | some comp =>
      cases hel : comp.element with
      | none =>
        have h1 : runRegOp s (RegOp.dup id) = (none, s) := by
          simp only [runRegOp, duplicateComponent, hm, hel]
        rw [h1]
        exact ⟨rfl, Or.inl ⟨rfl, rfl⟩⟩
      | some t =>
        cases hfind : s.doc.findN t with
        | none =>
          have h1 : runRegOp s (RegOp.dup id) = (none, s) := by
            simp only [runRegOp, duplicateComponent, hm, hel, hfind]
          rw [h1]
          exact ⟨rfl, Or.inl ⟨rfl, rfl⟩⟩
        | some p =>
          obtain ⟨a, c⟩ := p
          refine ⟨?_, Or.inr ⟨?_, ?_⟩⟩
          · simp only [runRegOp, duplicateComponent, hm, hel, hfind,
              syncContent_entropy]
            rfl
          · simp only [runRegOp, duplicateComponent, hm, hel, hfind]
            rfl
          · simp only [runRegOp, duplicateComponent, hm, hel, hfind,
              syncContent_draws]
            rfl

/-- The ids a sequence of registrations produces are exactly the generated
ids of the consecutive entropy draws consumed by its successful operations. -/
theorem runRegs_ids (s : MState) (ops : List RegOp) :
    ∃ m : Nat, m ≤ ops.length ∧
      (runRegs s ops).1
        = (List.range m).map (fun i => gidAt s.entropy (s.draws + i)) ∧
      ((runRegs s ops).2).entropy = s.entropy ∧
      ((runRegs s ops).2).draws = s.draws + m := by
  induction ops generalizing s with
  | nil => exact ⟨0, Nat.le_refl 0, by simp [runRegs], rfl, rfl⟩
  | cons op ops ih =>
    cases hop : runRegOp s op with
    | mk r s1 =>
      obtain ⟨hent, hcase⟩ := runRegOp_id_draw s op
      rw [hop] at hent hcase
      dsimp only at hent hcase
      obtain ⟨m, hm, hids, hent2, hdr⟩ := ih s1
      cases hrr : runRegs s1 ops with
      | mk ids s2 =>
        rw [hrr] at hids hent2 hdr
        dsimp only at hids hent2 hdr
        rcases hcase with ⟨hr, hd⟩ | ⟨hr, hd⟩
        · subst hr
          have hrun : runRegs s (op :: ops) = (ids, s2) := by
            simp only [runRegs, hop, hrr, List.nil_append]
          rw [hrun]
          refine ⟨m, ?_, ?_, ?_, ?_⟩
          · simp only [List.length_cons]; omega
          · dsimp only
            rw [hids, hent, hd]
          · dsimp only
            exact hent2.trans hent
          · dsimp only
            rw [hdr, hd]
        · subst hr
          have hrun : runRegs s (op :: ops)
              = (gidAt s.entropy s.draws :: ids, s2) := by
            simp only [runRegs, hop, hrr, List.singleton_append]
          rw [hrun]
          refine ⟨m + 1, ?_, ?_, ?_, ?_⟩
          · simp only [List.length_cons]; omega
          · dsimp only
            rw [hids, hent, hd, List.range_succ_eq_map, List.map_cons,
              List.map_map]
            simp only [Nat.add_zero, List.cons.injEq, true_and]
            refine List.map_congr_left ?_
            intro i hi
            simp only [Function.comp]
            congr 1
            omega
          · dsimp only
            exact hent2.trans hent
          · dsimp only
            rw [hdr, hd]
            omega

/-- C7 counterexample: `generateId` has no uniqueness guard.  With colliding
`Date.now()` / `Math.random()` draws (the constant entropy stream `entC`),
two sequential `registerImage` registrations return the SAME id twice, and
the second `Map.set` overwrites the first record: the id is reassigned from
the element-1 record to the element-2 record. -/
theorem duplicate_ids_counterexample :
    (runRegs sTwoImg [RegOp.regImg 1, RegOp.regImg 2]).1
      = ["cmp-5-abc", "cmp-5-abc"] ∧
    ¬ (runRegs sTwoImg [RegOp.regImg 1, RegOp.regImg 2]).1.Nodup ∧
    (mapGet (runRegOp sTwoImg (RegOp.regImg 1)).2.components "cmp-5-abc").map
        (fun c => c.element) = some (some 1) ∧
    (mapGet (runRegs sTwoImg [RegOp.regImg 1, RegOp.regImg 2]).2.components
        "cmp-5-abc").map (fun c => c.element) = some (some 2) :=
  ⟨by decide, by decide, by decide, by decide⟩

/-- C7 amended: the ids produced by N sequential registrations are the ids
generated from the consecutive entropy draws the successful operations
consume; they are pairwise distinct whenever those candidate draws generate
pairwise distinct ids (true of real clock/random streams with overwhelming
probability, but not guaranteed by the engine itself — see the
counterexample for colliding draws). -/
theorem sequential_ids_distinct (s : MState) (ops : List RegOp)
    (hw : ((List.range ops.length).map
        (fun i => gidAt s.entropy (s.draws + i))).Nodup) :
    (runRegs s ops).1.Nodup := by
  obtain ⟨m, hm, hids, -, -⟩ := runRegs_ids s ops
  rw [hids]
  exact ((List.range_sublist.mpr hm).map
    (fun i => gidAt s.entropy (s.draws + i))).nodup hw

/-- Witness for C7: two image insertions on the fresh manager with the
injective entropy stream produce distinct ids. -/
theorem sequential_ids_distinct_witness :
    ((List.range ([RegOp.insertImg "a" "b" {}, RegOp.insertImg "c" "d" {}]
        : List RegOp).length).map
      (fun i => gidAt sEmpty.entropy (sEmpty.draws + i))).Nodup ∧
    (runRegs sEmpty [RegOp.insertImg "a" "b" {},
        RegOp.insertImg "c" "d" {}]).1.Nodup :=
  ⟨by decide, sequential_ids_distinct sEmpty
    [RegOp.insertImg "a" "b" {}, RegOp.insertImg "c" "d" {}] (by decide)⟩

/-- C9: for every tracked component whose node is attached below the root,
`duplicateComponent(id)` assigns the next generated id, inserts a deep clone
(same tag/class/text template, fresh node identities, the clone root stamped
with the new marker) immediately after the source node, and copies the
property bag into a new record; a subsequent `updateComponent` on the
duplicate's id leaves the original record (hence its properties) and the
original node — attributes and entire subtree — unchanged: the two records'
property bags do not alias. -/
theorem duplicate_then_diverge (s : MState) (id : String)
    (comp : ComponentData) (t : Nat) (a0 : Attrs) (c0 : Dom)
    (hm : mapGet s.components id = some comp)
    (hel : comp.element = some t)
    (hf : s.doc.findN t = some (a0, c0))
    (hfresh : s.freshId ≠ id)
    (hbound : ∀ n ∈ s.doc.nids, n < s.nextNid)
    (hnd : s.doc.nids.Nodup)
    (hroot : t ∉ s.doc.rootNids) :
    (duplicateComponent s id).1 = some s.freshId ∧
    mapGet (duplicateComponent s id).2.components s.freshId
      = some { id := s.freshId, ctype := comp.ctype, props := comp.props,
               element := some s.nextNid } ∧
    mapGet (duplicateComponent s id).2.components id = some comp ∧
    (duplicateComponent s id).2.doc.nextSibNid t = some (some s.nextNid) ∧
    (∃ c1 : Dom,
      (duplicateComponent s id).2.doc.findN s.nextNid
        = some ({ a0 with componentId := some s.freshId }, c1) ∧
      c1.toTemplate = c0.toTemplate) ∧
    (∀ upd : Props,
      mapGet (updateComponent (duplicateComponent s id).2 s.freshId upd).2.components
          id = some comp ∧
      (updateComponent (duplicateComponent s id).2 s.freshId upd).2.doc.findN t
        = some (a0, c0)) := by
  have htmem : t ∈ s.doc.nids := Dom.mem_of_findN_eq_some s.doc t (a0, c0) hf
  have htK : t < s.nextNid := hbound t htmem
  have hc1b := Dom.cloneFresh_nids_bounds c0 (s.nextNid + 1)
  have hc0b : ∀ y ∈ c0.nids, y < s.nextNid :=
    fun y hy => hbound y (Dom.findN_mem_sub s.doc t a0 c0 hf y hy)
  have hKnot : s.nextNid ∉ s.doc.nids :=
    fun hmem => absurd (hbound _ hmem) (by omega)
  have hdup : duplicateComponent s id
      = (some s.freshId, syncContent
          { s.afterDraw with
              doc := docInsAfter s.doc t
                (Dom.node s.nextNid { a0 with componentId := some s.freshId }
                  ((c0.cloneFresh (s.nextNid + 1)).1) Dom.nil),
              components := mapSet s.components s.freshId
                { id := s.freshId, ctype := comp.ctype, props := comp.props,
                  element := some s.nextNid },
              nextNid := (c0.cloneFresh (s.nextNid + 1)).2 }) := by
    simp only [duplicateComponent, hm, hel, hf, Dom.cloneFresh_node,
      Dom.cloneFresh, afterDraw_doc, afterDraw_components]
  have htMA : t ∉ (Dom.node s.nextNid { a0 with componentId := some s.freshId }
      ((c0.cloneFresh (s.nextNid + 1)).1) Dom.nil).nids := by
    intro hmem
    simp only [Dom.nids, List.append_nil, List.mem_cons] at hmem
    rcases hmem with h | h
    · omega
    · exact absurd ((hc1b t h).1) (by omega)
  have hKfind : (docInsAfter s.doc t
        (Dom.node s.nextNid { a0 with componentId := some s.freshId }
          ((c0.cloneFresh (s.nextNid + 1)).1) Dom.nil)).findN s.nextNid
      = some ({ a0 with componentId := some s.freshId },
              (c0.cloneFresh (s.nextNid + 1)).1) := by
    rw [docInsAfter_findN_new s.doc t s.nextNid _ hKnot]
    simp [Dom.findN]
  have hinvD2 : UpdInv (docInsAfter s.doc t
      (Dom.node s.nextNid { a0 with componentId := some s.freshId }
        ((c0.cloneFresh (s.nextNid + 1)).1) Dom.nil)) t a0 c0 s.nextNid := by
    refine ⟨?_, ?_, ?_⟩
    · rw [docInsAfter_findN_target s.doc t _ htMA]
      exact hf
    · refine (docInsAfter_nids_perm s.doc t _).nodup_iff.mpr ?_
      rw [List.nodup_append]
      refine ⟨hnd, ?_, ?_⟩
      · simp only [Dom.nids, List.append_nil, List.nodup_cons]
        refine ⟨?_, Dom.cloneFresh_nodup c0 (s.nextNid + 1)⟩
        intro hmem
        exact absurd ((hc1b _ hmem).1) (by omega)
      · intro x hx1 hx2
        have hxlt := hbound x hx1
        simp only [Dom.nids, List.append_nil, List.mem_cons] at hx2
        rcases hx2 with rfl | hx2
        · omega
        · exact absurd ((hc1b x hx2).1) (by omega)
    · intro j hj p hp y hy
      have hjnot : j ∉ s.doc.nids :=
        fun hmem => absurd (hbound j hmem) (by omega)
      rw [docInsAfter_findN_new s.doc t j _ hjnot] at hp
      simp only [Dom.findN, if_neg (show ¬ s.nextNid = j by omega)] at hp
      cases hc : ((c0.cloneFresh (s.nextNid + 1)).1).findN j with
      | none => rw [hc] at hp; exact Option.noConfusion hp
      | some q =>
        rw [hc] at hp
        rw [Option.some.injEq] at hp
        subst hp
        have hmem := Dom.findN_mem_sub _ j q.1 q.2 (by rw [hc]) y hy
        exact (hc1b y hmem).1
  refine ⟨?_, ?_, ?_, ?_, ?_, ?_⟩
  · rw [hdup]
  · simp only [hdup, syncContent_components]
    exact mapGet_mapSet_self _ _ _
  · simp only [hdup, syncContent_components]
    rw [mapGet_mapSet_ne _ _ _ _ (Ne.symm hfresh)]
    exact hm
  · simp only [hdup, syncContent_doc]
    exact docInsAfter_nextSib s.doc t s.nextNid _ _ htmem hroot
  · refine ⟨(c0.cloneFresh (s.nextNid + 1)).1, ?_,
      Dom.cloneFresh_toTemplate c0 (s.nextNid + 1)⟩
    simp only [hdup, syncContent_doc]
    exact hKfind
  · intro upd
    have hma2 : mapGet (duplicateComponent s id).2.components s.freshId
        = some { id := s.freshId, ctype := comp.ctype, props := comp.props,
                 element := some s.nextNid } := by
      simp only [hdup, syncContent_components]
      exact mapGet_mapSet_self _ _ _
    constructor
    · simp only [updateComponent, hma2, notify_components, syncContent_components]
      rw [mapGet_mapSet_ne _ _ _ _ (Ne.symm hfresh)]
      simp only [hdup, syncContent_components]
      rw [mapGet_mapSet_ne _ _ _ _ (Ne.symm hfresh)]
      exact hm
    · simp only [updateComponent, hma2, notify_doc, syncContent_doc]
      simp only [hdup, syncContent_doc]
      exact applyUpdatesToDOM_findN_low _ _ t s.nextNid a0 _ c0 _ rfl hKfind
        (fun y hy => (hc1b y hy).1) hinvD2 (by omega)
        (fun y hy => by have := hc0b y hy; omega)

/-- Witness for C9: duplicating the tracked figure of `sFig` and then setting
the duplicate's caption to `B` leaves the original record (caption `A`)
untouched. -/
theorem duplicate_then_diverge_witness :
    (duplicateComponent sFig "cmp-0-r0").1 = some sFig.freshId ∧
    mapGet (updateComponent (duplicateComponent sFig "cmp-0-r0").2 sFig.freshId
        [("caption", PVal.s "B")]).2.components "cmp-0-r0" = some figComp := by
  have h := duplicate_then_diverge sFig "cmp-0-r0" figComp 1 figA figC (by decide)
    (by decide) (by decide) (by decide) (by decide) (by decide) (by decide)
  exact ⟨h.1, (h.2.2.2.2.2 [("caption", PVal.s "B")]).1⟩

end CM
